import Mathlib

/-!
# An implicit-free-list allocator (`mm.c`): model and verification

The heap is a flat byte-addressed memory.  Header and footer words are
32-bit little-endian words; `size_t` and pointers are 64 bits wide (LP64),
pointers are natural numbers and `NULL` is `0`.  Every C function of the
allocator is transcribed as a function on an explicit `State` holding the
memory, the two globals `heap_listp` and `temp`, and the state of the region
grower (`mem_sbrk`).  Loops carry a fuel argument; running out of fuel is
reported as `Err.stuck`.
-/

namespace Malloclab

/-! ## Constants and machine arithmetic -/

/-- Word size in bytes. -/
def WSIZE : Nat := 4
/-- Doubleword size in bytes. -/
def DSIZE : Nat := 8
/-- Initial heap size in bytes, `1<<12`. -/
def CHUNKSIZE : Nat := 4096
/-- Overhead of header and footer in bytes. -/
def OVERHEAD : Nat := 8

/-- Modulus of `uint32_t`. -/
def U32 : Nat := 4294967296
/-- Modulus of `size_t` (64 bits). -/
def SZT : Nat := 18446744073709551616

/-- Conversion of an unsigned value to `int` (two's complement, 32 bits). -/
def toInt (x : Nat) : Int :=
  if x % U32 < 2147483648 then ((x % U32 : Nat) : Int) else ((x % U32 : Nat) : Int) - 4294967296

/-- The function `MAX` of the source, on `int`. -/
def MAX (x y : Int) : Int := if x > y then x else y

/-- The function `PACK`: `size` is a `uint32_t`, `alloc` an `int`. -/
def PACK (size alloc : Nat) : Nat := (size % U32) ||| (alloc &&& 1)

/-! ## Memory -/

/-- Byte-addressed memory. -/
abbrev Mem := Nat → Nat

/-- The function `GET`: read the 32-bit little-endian word at `p`. -/
def GET (m : Mem) (p : Nat) : Nat :=
  m p % 256 + 256 * (m (p + 1) % 256) + 65536 * (m (p + 2) % 256)
    + 16777216 * (m (p + 3) % 256)

/-- The function `PUT`: write the 32-bit word `val` at `p`. -/
def PUT (m : Mem) (p val : Nat) : Mem := fun a =>
  if a = p then val % 256
  else if a = p + 1 then val / 256 % 256
  else if a = p + 2 then val / 65536 % 256
  else if a = p + 3 then val / 16777216 % 256
  else m a

/-- The function `GET_SIZE`: `GET(p) & ~0x7`. -/
def GET_SIZE (m : Mem) (p : Nat) : Nat := GET m p &&& 4294967288

/-- The function `GET_ALLOC`: `GET(p) & 0x1`. -/
def GET_ALLOC (m : Mem) (p : Nat) : Nat := GET m p &&& 1

/-- The function `HDRP`. -/
def HDRP (bp : Nat) : Nat := bp - WSIZE

/-- The function `FTRP`. -/
def FTRP (m : Mem) (bp : Nat) : Nat := bp + GET_SIZE m (HDRP bp) - DSIZE

/-- The function `NEXT_BLKP`. -/
def NEXT_BLKP (m : Mem) (bp : Nat) : Nat := bp + GET_SIZE m (bp - WSIZE)

/-- The function `PREV_BLKP`. -/
def PREV_BLKP (m : Mem) (bp : Nat) : Nat := bp - GET_SIZE m (bp - DSIZE)

/-- The library function `memcpy` on non-overlapping ranges. -/
def memcpy (m : Mem) (dst src n : Nat) : Mem := fun a =>
  if dst ≤ a ∧ a < dst + n then m (src + (a - dst)) else m a

/-! ## State and region grower -/

/-- Allocator state: memory, the grower's break and capacity, and the two
globals of the source. -/
structure State where
  /-- heap memory -/
  mem : Mem
  /-- first byte past the region granted so far -/
  brk : Nat
  /-- the grower refuses to go past this address -/
  lim : Nat
  /-- global `heap_listp` -/
  heap_listp : Nat
  /-- global `temp`, the search cursor -/
  temp : Nat

/-- Modelled from the spec: the Region Grower `mem_sbrk` (its source file is
not part of the sources).  It grants `incr` bytes contiguous with the region
granted so far and returns the old break, or fails (`none`) when the capacity
`lim` would be exceeded. -/
def mem_sbrk (s : State) (incr : Nat) : Option (Nat × State) :=
  if s.brk + incr ≤ s.lim then some (s.brk, { s with brk := s.brk + incr }) else none

/-- Ways in which a call does not return. -/
inductive Err where
  /-- a loop ran out of fuel -/
  | stuck
  /-- the program called `exit(1)` -/
  | exit1
  deriving DecidableEq, Repr

/-! ## The allocator -/

/-- The function `coalesce`. -/
def coalesce (s : State) (bp : Nat) : Nat × State :=
  let m := s.mem
  let addressSize := GET_SIZE m (HDRP bp)
  let nextAlloc := GET_ALLOC m (HDRP (NEXT_BLKP m bp))
  let previousAlloc := GET_ALLOC m (FTRP m (PREV_BLKP m bp))
  if previousAlloc ≠ 0 ∧ nextAlloc ≠ 0 then (bp, s)
  else
    let r : Mem × Nat :=
      if previousAlloc = 0 ∧ nextAlloc ≠ 0 then
        let sz := addressSize + GET_SIZE m (HDRP (PREV_BLKP m bp))
        let m1 := PUT m (FTRP m bp) (PACK sz 0)
        let m2 := PUT m1 (HDRP (PREV_BLKP m1 bp)) (PACK sz 0)
        (m2, PREV_BLKP m2 bp)
      else if previousAlloc ≠ 0 ∧ nextAlloc = 0 then
        let sz := addressSize + GET_SIZE m (HDRP (NEXT_BLKP m bp))
        let m1 := PUT m (HDRP bp) (PACK sz 0)
        let m2 := PUT m1 (FTRP m1 bp) (PACK sz 0)
        (m2, bp)
      else
        let sz := addressSize + GET_SIZE m (HDRP (PREV_BLKP m bp))
          + GET_SIZE m (FTRP m (NEXT_BLKP m bp))
        let m1 := PUT m (HDRP (PREV_BLKP m bp)) (PACK sz 0)
        let m2 := PUT m1 (FTRP m1 (NEXT_BLKP m1 bp)) (PACK sz 0)
        (m2, PREV_BLKP m2 bp)
    let temp1 := if s.temp > r.2 ∧ s.temp < NEXT_BLKP r.1 r.2 then r.2 else s.temp
    (r.2, { s with mem := r.1, temp := temp1 })

/-- The function `extend_heap`; the result pointer is `0` when the grower
fails. -/
def extend_heap (s : State) (words : Nat) : Nat × State :=
  let words := words % U32
  let wordSize := if words % 2 ≠ 0 then ((words + 1) * WSIZE) % U32 else (words * WSIZE) % U32
  match mem_sbrk s wordSize with
  | none => (0, s)
  | some (blockpointer, s1) =>
    let m1 := PUT s1.mem (HDRP blockpointer) (PACK wordSize 0)
    let m2 := PUT m1 (FTRP m1 blockpointer) (PACK wordSize 0)
    let m3 := PUT m2 (HDRP (NEXT_BLKP m2 blockpointer)) (PACK 0 1)
    coalesce { s1 with mem := m3 } blockpointer

/-- The function `mm_init`; the result is `0` or `-1`. -/
def mm_init (s : State) : Int × State :=
  match mem_sbrk s (4 * WSIZE) with
  | none => (-1, { s with heap_listp := SZT - 1 })
  | some (p, s1) =>
    let m1 := PUT s1.mem p 0
    let m2 := PUT m1 (p + 1 * WSIZE) (PACK DSIZE 1)
    let m3 := PUT m2 (p + 2 * WSIZE) (PACK DSIZE 1)
    let m4 := PUT m3 (p + 3 * WSIZE) (PACK 0 1)
    let hl := p + 2 * WSIZE
    let r := extend_heap { s1 with mem := m4, heap_listp := hl, temp := hl } (CHUNKSIZE / WSIZE)
    if r.1 = 0 then (-1, r.2) else (0, r.2)

/-- First loop of `find_fit`: from `temp` towards the epilogue.  The result is
`(found, temp)`. -/
def find_fit_loop1 (m : Mem) (asize : Nat) : Nat → Nat → Option (Bool × Nat)
  | 0, _ => none
  | fuel + 1, temp =>
    if GET_SIZE m (HDRP temp) > 0 then
      if GET_ALLOC m (HDRP temp) = 0 ∧ asize ≤ GET_SIZE m (HDRP temp) then some (true, temp)
      else find_fit_loop1 m asize fuel (NEXT_BLKP m temp)
    else some (false, temp)

/-- Second loop of `find_fit`: from the heap start up to the old cursor. -/
def find_fit_loop2 (m : Mem) (asize intialPointer : Nat) : Nat → Nat → Option (Bool × Nat)
  | 0, _ => none
  | fuel + 1, temp =>
    if temp < intialPointer then
      if GET_ALLOC m (HDRP temp) = 0 ∧ asize ≤ GET_SIZE m (HDRP temp) then some (true, temp)
      else find_fit_loop2 m asize intialPointer fuel (NEXT_BLKP m temp)
    else some (false, temp)

/-- The function `find_fit`; each loop gets `brk` units of fuel. -/
def find_fit (s : State) (asize : Nat) : Except Err (Nat × State) :=
  let asize := asize % U32
  let intialPointer := s.temp
  match find_fit_loop1 s.mem asize s.brk s.temp with
  | none => .error .stuck
  | some (true, t) => .ok (t, { s with temp := t })
  | some (false, _) =>
    match find_fit_loop2 s.mem asize intialPointer s.brk s.heap_listp with
    | none => .error .stuck
    | some (true, t) => .ok (t, { s with temp := t })
    | some (false, t) => .ok (0, { s with temp := t })

/-- The function `place`. -/
def place (s : State) (bp asize : Nat) : State :=
  let asize := asize % U32
  let m := s.mem
  let headerfooterSize := GET_SIZE m (HDRP bp)
  if (headerfooterSize + SZT - asize) % SZT ≥ 2 * DSIZE then
    let m1 := PUT m (HDRP bp) (PACK asize 1)
    let m2 := PUT m1 (FTRP m1 bp) (PACK asize 1)
    let bp1 := NEXT_BLKP m2 bp
    let m3 := PUT m2 (HDRP bp1) (PACK ((headerfooterSize + SZT - asize) % SZT) 0)
    let m4 := PUT m3 (FTRP m3 bp1) (PACK ((headerfooterSize + SZT - asize) % SZT) 0)
    { s with mem := m4 }
  else
    let m1 := PUT m (HDRP bp) (PACK headerfooterSize 1)
    let m2 := PUT m1 (FTRP m1 bp) (PACK headerfooterSize 1)
    { s with mem := m2 }

/-- The adjusted block size computed by `mm_malloc`. -/
def adjust (size : Nat) : Nat :=
  if size ≤ DSIZE then 2 * DSIZE
  else (DSIZE * (((size + DSIZE + (DSIZE - 1)) % U32) / DSIZE)) % U32

/-- The function `mm_malloc`; the result pointer is `0` for `NULL`. -/
def mm_malloc (s : State) (size : Nat) : Except Err (Nat × State) :=
  let size := size % U32
  if size = 0 then .ok (0, s)
  else
    let addressSize := adjust size
    match find_fit s addressSize with
    | .error e => .error e
    | .ok (blockPointer, s1) =>
      if blockPointer ≠ 0 then .ok (blockPointer, place s1 blockPointer addressSize)
      else
        let increaseSize := (MAX (toInt addressSize) (CHUNKSIZE : Nat)).toNat
        let r := extend_heap s1 (increaseSize / WSIZE)
        if r.1 = 0 then .ok (0, r.2)
        else .ok (r.1, place r.2 r.1 addressSize)

/-- The function `mm_free`. -/
def mm_free (s : State) (bp : Nat) : State :=
  let addressSize := GET_SIZE s.mem (HDRP bp)
  let m1 := PUT s.mem (HDRP bp) (PACK addressSize 0)
  let m2 := PUT m1 (FTRP m1 bp) (PACK addressSize 0)
  (coalesce { s with mem := m2 } bp).2

/-- The function `mm_realloc`. -/
def mm_realloc (s : State) (ptr size : Nat) : Except Err (Nat × State) :=
  let size := size % U32
  let asize := (DSIZE * (((size + DSIZE + (DSIZE - 1)) % U32) / DSIZE)) % U32
  let isize := GET_SIZE s.mem (HDRP ptr)
  if isize > asize then .ok (ptr, s)
  else
    let nextblocksize := GET_SIZE s.mem (HDRP (NEXT_BLKP s.mem ptr))
    let next_alloc := GET_ALLOC s.mem (HDRP (NEXT_BLKP s.mem ptr))
    if next_alloc = 0 ∧ (asize + U32 - isize) % U32 < nextblocksize
        ∧ (isize + U32 - asize) % U32 ≥ 2 * DSIZE then
      let m1 := PUT s.mem (HDRP ptr) (PACK asize 1)
      let m2 := PUT m1 (FTRP m1 ptr) (PACK asize 1)
      let newp := NEXT_BLKP m2 ptr
      let rest := (nextblocksize + U32 - (asize + U32 - isize) % U32) % U32
      let m3 := PUT m2 (HDRP newp) (PACK rest 0)
      let m4 := PUT m3 (FTRP m3 newp) (PACK rest 0)
      .ok (ptr, { s with mem := m4 })
    else
      let allocate := (MAX 618784 (toInt size)).toNat
      match mm_malloc s allocate with
      | .error e => .error e
      | .ok (newp, s1) =>
        if newp = 0 then .error .exit1
        else
          let m1 := memcpy s1.mem newp ptr isize
          .ok (newp, mm_free { s1 with mem := m1 } ptr)

/-! ## Heap structure -/

/-- Abstract block: total size in bytes and allocated flag. -/
abbrev Blk := Nat × Bool

/-- The header/footer word of an abstract block. -/
def tagOf (b : Blk) : Nat := b.1 + (if b.2 then 1 else 0)

/-- Sum of the sizes of a list of blocks. -/
def bsum : List Blk → Nat
  | [] => 0
  | b :: bs => b.1 + bsum bs

/-- The blocks `bs` are laid out back to back in memory from header address `p`
up to header address `q`: each has a size that is a positive multiple of 8, and
its header word and footer word both encode (size, allocated). -/
def Tiles (m : Mem) : Nat → List Blk → Nat → Prop
  | p, [], q => p = q
  | p, b :: bs, q =>
    8 ≤ b.1 ∧ b.1 % 8 = 0 ∧ b.1 < U32 ∧ GET m p = tagOf b ∧ GET m (p + b.1 - 4) = tagOf b
      ∧ Tiles m (p + b.1) bs q

/-- Payload addresses of the blocks laid out from header address `p`. -/
def starts : Nat → List Blk → List Nat
  | _, [] => []
  | p, b :: bs => (p + 4) :: starts (p + b.1) bs

/-- No two neighbouring blocks are both free. -/
def NoAdjFree (bs : List Blk) : Prop :=
  List.Chain' (fun a b : Blk => a.2 = true ∨ b.2 = true) bs

/-- The blocks that `place` leaves in a free block of size `sz`. -/
def placeBlocks (sz asize : Nat) : List Blk :=
  if sz < asize + 16 then [(sz, true)] else [(asize, true), (sz - asize, false)]

/-- Blocks before the block that `coalesce` returns. -/
def mergedPre (pre : List Blk) (prev : Blk) : List Blk :=
  if prev.2 then pre ++ [prev] else pre

/-- Size of the block that `coalesce` returns. -/
def mergedSize (prev : Blk) (sz : Nat) (post : List Blk) : Nat :=
  (if prev.2 then 0 else prev.1) + sz +
    (match post with
     | (ns, false) :: _ => ns
     | _ => 0)

/-- Blocks after the block that `coalesce` returns. -/
def mergedPost (post : List Blk) : List Blk :=
  match post with
  | (_, false) :: rest => rest
  | _ => post

/-- The block list after coalescing the free block of size `sz` that lies
between `pre ++ [prev]` and `post`. -/
def merged (pre : List Blk) (prev : Blk) (sz : Nat) (post : List Blk) : List Blk :=
  mergedPre pre prev ++ (mergedSize prev sz post, false) :: mergedPost post

/-- What `coalesce` reads around the block at `bp`: the size `sz` of the block,
size `ps` and flag `pa` of its predecessor (header and footer), size `ns` and
flag `na` of its successor. -/
structure Around (m : Mem) (bp ps pa sz ns na : Nat) : Prop where
  /-- the predecessor's header lies at a non-negative address -/
  hbp : ps + 4 ≤ bp
  /-- the predecessor is a block -/
  hps8 : 8 ≤ ps
  /-- the block itself is a block -/
  hsz8 : 8 ≤ sz
  /-- the three sizes together fit 32 bits -/
  hlt : ps + sz + ns < U32
  /-- header of the block -/
  hsz : GET_SIZE m (bp - 4) = sz
  /-- footer of the predecessor -/
  hpf : GET_SIZE m (bp - 8) = ps
  /-- header of the predecessor -/
  hph : GET_SIZE m (bp - ps - 4) = ps
  /-- flag in the footer of the predecessor -/
  hpa : GET_ALLOC m (bp - 8) = pa
  /-- header of the successor -/
  hns : GET_SIZE m (bp + sz - 4) = ns
  /-- flag in the header of the successor -/
  hna : GET_ALLOC m (bp + sz - 4) = na
  /-- footer of a free successor -/
  hnf : na = 0 → 8 ≤ ns ∧ GET_SIZE m (bp + sz + ns - 8) = ns

/-- Outcome `r` of `coalesce` on state `s`: the blocks `new` tile the heap, the
returned block has header address `lo` and size `S`, only its header and
footer words were written, and a cursor that pointed at a block of `old`
points at a block of `new`. -/
structure Coalesced (s : State) (r : Nat × State) (p0 q : Nat) (old new : List Blk)
    (lo S : Nat) : Prop where
  /-- the new block list tiles the heap -/
  tiles : Tiles r.2.mem p0 new q
  /-- the returned pointer -/
  ptr : r.1 = lo + 4
  /-- only the two tag words of the returned block are written -/
  frame : ∀ a, (a < lo ∨ lo + 4 ≤ a) → (a < lo + S - 4 ∨ lo + S ≤ a) → r.2.mem a = s.mem a
  /-- the break is unchanged -/
  brk : r.2.brk = s.brk
  /-- the capacity is unchanged -/
  lim : r.2.lim = s.lim
  /-- the heap start is unchanged -/
  hl : r.2.heap_listp = s.heap_listp
  /-- the cursor stays on a block -/
  cursor : s.temp ∈ starts p0 old → r.2.temp ∈ starts p0 new

/-- The heap of `s` consists of the prologue, the blocks `bs` and the epilogue
header in the last word of the granted region. -/
structure Heap (s : State) (bs : List Blk) : Prop where
  /-- the prologue header lies inside the region -/
  hl8 : 8 ≤ s.heap_listp
  /-- walking by header sizes from the prologue reaches the epilogue -/
  tiles : Tiles s.mem (s.heap_listp - 4) ((8, true) :: bs) (s.brk - 4)
  /-- the epilogue header is (0, allocated) -/
  epi : GET s.mem (s.brk - 4) = 1
  /-- the region is within the grower's capacity -/
  cap : s.brk ≤ s.lim
  /-- the capacity is below 4 GiB, so block sizes fit 32 bits -/
  small : s.lim < s.heap_listp + U32

/-- The search cursor is the payload address of a block of the heap. -/
def CursorOK (s : State) (bs : List Blk) : Prop :=
  s.temp ∈ starts (s.heap_listp - 4) ((8, true) :: bs)

/-- Address `p` is the payload address of a block of `bs` with size `sz` and
flag `a`, the blocks being laid out after the prologue at `hl`. -/
def BlockAt (hl : Nat) (bs : List Blk) (p sz : Nat) (a : Bool) : Prop :=
  ∃ pre post, bs = pre ++ (sz, a) :: post ∧ p = hl + 8 + bsum pre

/-- Well-formed heap: prologue (8, allocated), then blocks of size at least 16
that is a multiple of 8, each with header word equal to footer word, tiling
the heap exactly up to the epilogue header (0, allocated) at the heap end. -/
def WF (s : State) : Prop :=
  ∃ bs, Heap s bs ∧ ∀ b ∈ bs, 16 ≤ b.1

/-- Address `p` is a currently allocated block of the heap of `s`. -/
def Allocated (s : State) (p : Nat) : Prop :=
  ∃ bs sz, Heap s bs ∧ BlockAt s.heap_listp bs p sz true

/-- Well-formed heap with a valid search cursor and no two adjacent free
blocks. -/
def Inv (s : State) : Prop :=
  ∃ bs, Heap s bs ∧ (∀ b ∈ bs, 16 ≤ b.1) ∧ CursorOK s bs ∧ NoAdjFree bs

/-- Largest request for which no 32-bit quantity in `mm_malloc` wraps
(the adjusted size stays below `2^31`). -/
def MAXREQ : Nat := 2147483632

/-- The state before `mm_init`: nothing granted yet, globals zero. -/
def fresh (m : Mem) (base lim : Nat) : State :=
  { mem := m, brk := base, lim := lim, heap_listp := 0, temp := 0 }

/-- States reached from a successful `mm_init` by calls of `mm_malloc` with
requests `1 ≤ n ≤ MAXREQ` and calls of `mm_free` on currently allocated
blocks.  The grower's capacity is below 4 GiB. -/
inductive Reach : State → Prop
  | init (m : Mem) (base lim : Nat) (s : State) :
      lim < base + U32 → mm_init (fresh m base lim) = (0, s) → Reach s
  | malloc (s s1 : State) (n p : Nat) :
      Reach s → 1 ≤ n → n ≤ MAXREQ → mm_malloc s n = .ok (p, s1) → Reach s1
  | free (s : State) (p : Nat) :
      Reach s → Allocated s p → Reach (mm_free s p)

/-- Well-formed heap with a valid search cursor. -/
def WFC (s : State) : Prop :=
  ∃ bs, Heap s bs ∧ (∀ b ∈ bs, 16 ≤ b.1) ∧ CursorOK s bs

/-- States reached from a successful `mm_init`, the grower's first address
being `base`, by calls of `mm_malloc` with any request and calls of `mm_free`
on live pointers; the list holds the live pointers (returned by `mm_malloc`
and not yet freed). -/
inductive Live (base : Nat) : State → List Nat → Prop
  | init (m : Mem) (lim : Nat) (s : State) :
      mm_init (fresh m base lim) = (0, s) → Live base s []
  | malloc (s s1 : State) (L : List Nat) (n p : Nat) :
      Live base s L → mm_malloc s n = .ok (p, s1) → Live base s1 (if p = 0 then L else p :: L)
  | free (s : State) (L : List Nat) (p : Nat) :
      Live base s L → p ∈ L → Live base (mm_free s p) (L.erase p)

/-- States reached from a successful `mm_init` by calls of `mm_malloc`,
`mm_free` and `mm_realloc` on live pointers with request sizes between 1 and
`2^20`; the list holds each live pointer with the size last requested for
it. -/
inductive LiveR : State → List (Nat × Nat) → Prop
  | init (m : Mem) (base lim : Nat) (s : State) :
      mm_init (fresh m base lim) = (0, s) → LiveR s []
  | malloc (s s1 : State) (L : List (Nat × Nat)) (n p : Nat) :
      LiveR s L → 1 ≤ n → n ≤ 1048576 → mm_malloc s n = .ok (p, s1) → p ≠ 0 →
      LiveR s1 ((p, n) :: L)
  | free (s : State) (L : List (Nat × Nat)) (p n : Nat) :
      LiveR s L → (p, n) ∈ L → LiveR (mm_free s p) (L.erase (p, n))
  | realloc (s s1 : State) (L : List (Nat × Nat)) (p n k q : Nat) :
      LiveR s L → (p, n) ∈ L → 1 ≤ k → k ≤ 1048576 → mm_realloc s p k = .ok (q, s1) →
      LiveR s1 ((q, k) :: L.erase (p, n))

/-- The byte ranges `[p, p + n)` of the live pointers are pairwise disjoint. -/
def NoOverlap (L : List (Nat × Nat)) : Prop :=
  L.Pairwise (fun a b => a.1 + a.2 ≤ b.1 ∨ b.1 + b.2 ≤ a.1)

/-- Executable heap walk from header address `p`: follow the header sizes and
check at every block that the size is at least 8 and that the footer word
equals the header word, until header address `q` is reached. -/
def walkOK (m : Mem) (q : Nat) : Nat → Nat → Bool
  | 0, p => decide (p = q)
  | fuel + 1, p =>
    if p = q then true
    else if 8 ≤ GET_SIZE m p ∧ GET m (p + GET_SIZE m p - 4) = GET m p then
      walkOK m q fuel (p + GET_SIZE m p)
    else false

/-- The pointer returned by a call, `0` if the call did not return. -/
def okPtr (r : Except Err (Nat × State)) : Nat :=
  match r with
  | .ok x => x.1
  | .error _ => 0

/-- The state after a call, `d` if the call did not return. -/
def okState (r : Except Err (Nat × State)) (d : State) : State :=
  match r with
  | .ok x => x.2
  | .error _ => d

/-- Whether a call returned. -/
def isOk (r : Except Err (Nat × State)) : Bool :=
  match r with
  | .ok _ => true
  | .error _ => false

/-! ## Concrete runs -/

/-- A fresh heap: zeroed memory, grower starting at address 0 with 2 MiB. -/
def demo0 : State := (mm_init (fresh (fun _ => 0) 0 2097152)).2

/-- After `p = mm_malloc(8)` on the fresh heap (`p = 16`). -/
def runA1 : State := okState (mm_malloc demo0 8) demo0

/-- After a second `q = mm_malloc(8)` (`q = 32`). -/
def runA2 : State := okState (mm_malloc runA1 8) runA1

/-- After `mm_free(q)`. -/
def runA3 : State := mm_free runA2 32

/-- After `mm_realloc(p, 24)`, which grows `p` in place. -/
def runA4 : State := okState (mm_realloc runA3 16 24) runA3

/-- After a further `mm_malloc(8)`. -/
def runA5 : State := okState (mm_malloc runA4 8) runA4

/-- After `p = mm_malloc(618784)` on the fresh heap (`p = 16`). -/
def runB1 : State := okState (mm_malloc demo0 618784) demo0

/-- After `mm_realloc(p, 618784)`. -/
def runB2 : State := okState (mm_realloc runB1 16 618784) runB1

/-- After `p = mm_malloc(1)` on the fresh heap (`p = 16`, block size 16). -/
def runC1 : State := okState (mm_malloc demo0 1) demo0

/-- After `mm_realloc(p, 1)` on that block. -/
def runC2 : State := okState (mm_realloc runC1 16 1) runC1

/-- After `mm_malloc(2^32 - 1)` on the fresh heap. -/
def runD1 : State := okState (mm_malloc demo0 4294967295) demo0

/-- Address `p` is the payload address of a block of `l` with size `sz` and
flag `a`, the blocks of `l` being laid out from header address `p0`. -/
def BlockIn (p0 : Nat) (l : List Blk) (p sz : Nat) (a : Bool) : Prop :=
  ∃ pre post, l = pre ++ (sz, a) :: post ∧ p = p0 + bsum pre + 4

/-! ## Requests to the region grower -/

/-- The byte count that `extend_heap` passes to `mem_sbrk` (the value of its
local `wordSize`). -/
def extend_heap_request (words : Nat) : Nat :=
  let words := words % U32
  if words % 2 ≠ 0 then ((words + 1) * WSIZE) % U32 else (words * WSIZE) % U32

/-- The byte counts of the calls of `mem_sbrk` made during `mm_malloc`, in
order: none when the size is zero or `find_fit` returns a block, otherwise the
one call made by `extend_heap`. -/
def mm_malloc_requests (s : State) (size : Nat) : List Nat :=
  let size := size % U32
  if size = 0 then []
  else
    let addressSize := adjust size
    match find_fit s addressSize with
    | .error _ => []
    | .ok (blockPointer, _) =>
      if blockPointer ≠ 0 then []
      else
        let increaseSize := (MAX (toInt addressSize) (CHUNKSIZE : Nat)).toNat
        [extend_heap_request (increaseSize / WSIZE)]

/-! ## Next-fit, following the specification -/

/-- A block fits a request of `asize` bytes: it is free and its size is at
least `asize`. -/
def Fits (asize : Nat) (b : Blk) : Bool := !b.2 && decide (asize ≤ b.1)

/-- Payload address of the first (lowest-address) block that fits among the
blocks `bs` laid out from header address `p`. -/
def firstFit (asize : Nat) : Nat → List Blk → Option Nat
  | _, [] => none
  | p, b :: bs => if Fits asize b then some (p + 4) else firstFit asize (p + b.1) bs

/-- Next-fit: the first fitting block among the blocks `B` at or after the
cursor, otherwise the first fitting block among the blocks `A` before the
cursor; the blocks `A ++ B` are laid out from header address `p0`. -/
def nextFit (asize p0 : Nat) (A B : List Blk) : Option Nat :=
  match firstFit asize (p0 + bsum A) B with
  | some p => some p
  | none => firstFit asize p0 A

/-- Result `r` of `coalesce` on state `s` is the block at `b` of size `S`: it
is free, its header word equals its footer word, and no byte outside the
block was changed. -/
def MergedAt (s : State) (r : Nat × State) (b S : Nat) : Prop :=
  r.1 = b ∧ GET r.2.mem (HDRP b) = PACK S 0 ∧ GET r.2.mem (FTRP r.2.mem b) = PACK S 0 ∧
    GET_SIZE r.2.mem (HDRP b) = S ∧
    ∀ a, (a < b - 4 ∨ b - 4 + S ≤ a) → r.2.mem a = s.mem a

/-! ## Further concrete runs -/

/-- A heap whose grower has no capacity beyond the initial chunk. -/
def tiny0 : State := (mm_init (fresh (fun _ => 0) 0 4112)).2

/-- After `a = mm_malloc(24)` on the fresh heap (`a = 16`, block size 32). -/
def runE1 : State := okState (mm_malloc demo0 24) demo0

/-- After `b = mm_malloc(24)` (`b = 48`). -/
def runE2 : State := okState (mm_malloc runE1 24) runE1

/-- After `c = mm_malloc(24)` (`c = 80`). -/
def runE3 : State := okState (mm_malloc runE2 24) runE2

/-- After `mm_free(b)`. -/
def runE4 : State := mm_free runE3 48

/-- After `mm_free(a)`. -/
def runE5 : State := mm_free runE4 16

/-- After `mm_free(c)`. -/
def runE6 : State := mm_free runE5 80

/-- The state on which `coalesce` runs inside `mm_free(a)`: the tags of the
block at 16 rewritten as free. -/
def runE4a : State :=
  { runE4 with mem := PUT (PUT runE4.mem 12 (PACK 32 0)) 40 (PACK 32 0) }

/-- After `mm_malloc(8)` and `q = mm_malloc(16)` (`q = 32`, block size 24). -/
def runF2 : State := okState (mm_malloc runA1 16) runA1

/-- After a third `mm_malloc(8)` (at 56). -/
def runF3 : State := okState (mm_malloc runF2 8) runF2

/-- After `mm_free(q)`: a free block of size 24 between two allocated blocks. -/
def runF4 : State := mm_free runF3 32

/-- After `mm_realloc(16, 24)`, which grows the block at 16 in place. -/
def runF5 : State := okState (mm_realloc runF4 16 24) runF4

/-- After `mm_malloc(2^31)` on the fresh heap. -/
def runG1 : State := okState (mm_malloc demo0 2147483648) demo0

/-- After `mm_malloc(8)` twice (at 16 and 32) and `c = mm_malloc(700000)`
(`c = 48`). -/
def runH3 : State := okState (mm_malloc runA2 700000) runA2

/-- After `mm_free(c)`. -/
def runH4 : State := mm_free runH3 48

/-- After `mm_free(32)`: one free block of size 704088 at 32, cursor at 32. -/
def runH5 : State := mm_free runH4 32

/-- After `mm_realloc(16, 24)`, which grows the block at 16 in place. -/
def runH6 : State := okState (mm_realloc runH5 16 24) runH5

/-- After a second `mm_realloc(16, 24)`. -/
def runH7 : State := okState (mm_realloc runH6 16 24) runH6

/-- A fresh heap whose grower has almost 4 GiB. -/
def big0 : State := (mm_init (fresh (fun _ => 0) 0 4294967295)).2

/-- After `mm_malloc(4088)`, which takes the whole initial chunk (at 16). -/
def big1 : State := okState (mm_malloc big0 4088) big0

/-- After `mm_malloc(2^30 - 8)` (at 4112, block size `2^30`). -/
def big2 : State := okState (mm_malloc big1 1073741816) big1

/-- After a second `mm_malloc(2^30 - 8)` (at 1073745936). -/
def big3 : State := okState (mm_malloc big2 1073741816) big2

/-- After freeing the block at 4112. -/
def big4 : State := mm_free big3 4112

/-- After freeing the block at 1073745936: one free block of size `2^31` at
4112. -/
def big5 : State := mm_free big4 1073745936

/-- After `p = mm_malloc(2^32 - 8)` (`p = 4112`). -/
def big6 : State := okState (mm_malloc big5 4294967288) big5

/-- After `mm_free(p)`. -/
def big7 : State := mm_free big6 4112

/-- After `r = mm_malloc(8)` in `big7` (`r = 2147487760`, in a chunk newly
granted by the region grower). -/
def big8 : State := okState (mm_malloc big7 8) big7

/-- After `mm_free(r)`. -/
def big9 : State := mm_free big8 2147487760

/-- After the second `mm_malloc(8)`. -/
def big10 : State := okState (mm_malloc big9 8) big9

/-- After `q = mm_malloc(2^32 - 8)` on the fresh heap (`q = 16`; the adjusted
size is 0 and the block at 16 keeps its header (4096, free)). -/
def runK1 : State := okState (mm_malloc demo0 4294967288) demo0

/-- After `a = mm_malloc(8)` (`a = 16`). -/
def runK2 : State := okState (mm_malloc runK1 8) runK1

/-- After `b = mm_malloc(8)` (`b = 32`). -/
def runK3 : State := okState (mm_malloc runK2 8) runK2

/-- After `mm_free(a)`. -/
def runK4 : State := mm_free runK3 16

/-! # Lemmas and theorems -/

set_option linter.unusedVariables false

/-! ## Machine words -/

theorem and_mask (x : Nat) (h : x < 4294967296) : x &&& 4294967288 = x - x % 8 := by
  have e1 : (4294967288 : Nat) = 2 ^ 3 * (2 ^ 29 - 1) := by norm_num
  have e2 : x - x % 8 = 2 ^ 3 * (x >>> 3) := by
    rw [Nat.shiftRight_eq_div_pow]; omega
  rw [e1, e2]
  apply Nat.eq_of_testBit_eq
  intro i
  rw [Nat.testBit_and, Nat.testBit_mul_pow_two, Nat.testBit_mul_pow_two,
    Nat.testBit_two_pow_sub_one, Nat.testBit_shiftRight]
  by_cases h3 : i ≥ 3
  · have e3 : 3 + (i - 3) = i := by omega
    rw [e3]
    by_cases h32 : i < 32
    · have : i - 3 < 29 := by omega
      simp [h3, this]
    · have hx : x.testBit i = false := by
        apply Nat.testBit_lt_two_pow
        calc x < 2 ^ 32 := by norm_num; exact h
          _ ≤ 2 ^ i := Nat.pow_le_pow_right (by norm_num) (by omega)
      simp [hx]
  · simp [h3]

theorem or_bit (s a : Nat) (h8 : s % 8 = 0) (ha : a ≤ 1) : s ||| a = s + a := by
  have e : s = 2 ^ 3 * (s / 8) := by omega
  rw [e]
  exact (Nat.mul_add_lt_is_or (by omega) _).symm

theorem PACK_eq (sz a : Nat) (h8 : sz % 8 = 0) (hlt : sz < U32) (ha : a ≤ 1) :
    PACK sz a = sz + a := by
  unfold PACK
  rw [Nat.mod_eq_of_lt hlt, Nat.and_one_is_mod, or_bit sz (a % 2) h8 (by omega)]
  omega

theorem PACK_free (sz : Nat) (h8 : sz % 8 = 0) (hlt : sz < U32) : PACK sz 0 = sz := by
  rw [PACK_eq sz 0 h8 hlt (by omega)]; rfl

theorem PACK_alloc (sz : Nat) (h8 : sz % 8 = 0) (hlt : sz < U32) : PACK sz 1 = sz + 1 :=
  PACK_eq sz 1 h8 hlt (by omega)

theorem GET_lt (m : Mem) (p : Nat) : GET m p < U32 := by
  unfold GET U32; omega

theorem GET_PUT_same (m : Mem) (p v : Nat) : GET (PUT m p v) p = v % U32 := by
  have h1 : p + 1 ≠ p := by omega
  have h2 : p + 2 ≠ p := by omega
  have h3 : p + 3 ≠ p := by omega
  have h4 : p + 2 ≠ p + 1 := by omega
  have h5 : p + 3 ≠ p + 1 := by omega
  have h6 : p + 3 ≠ p + 2 := by omega
  have e0 : PUT m p v p = v % 256 := by unfold PUT; simp only [if_true]
  have e1 : PUT m p v (p + 1) = v / 256 % 256 := by
    unfold PUT; simp only [h1, if_false, if_true]
  have e2 : PUT m p v (p + 2) = v / 65536 % 256 := by
    unfold PUT; simp only [h2, h4, if_false, if_true]
  have e3 : PUT m p v (p + 3) = v / 16777216 % 256 := by
    unfold PUT; simp only [h3, h5, h6, if_false, if_true]
  unfold GET U32
  rw [e0, e1, e2, e3]
  omega

theorem PUT_outside (m : Mem) (p v a : Nat) (h : a < p ∨ p + 4 ≤ a) : PUT m p v a = m a := by
  unfold PUT
  have h0 : a ≠ p := by omega
  have h1 : a ≠ p + 1 := by omega
  have h2 : a ≠ p + 2 := by omega
  have h3 : a ≠ p + 3 := by omega
  simp only [h0, h1, h2, h3, if_false]

theorem GET_congr (m m1 : Mem) (p : Nat) (h : ∀ a, p ≤ a → a < p + 4 → m1 a = m a) :
    GET m1 p = GET m p := by
  unfold GET
  rw [h p (by omega) (by omega), h (p + 1) (by omega) (by omega),
    h (p + 2) (by omega) (by omega), h (p + 3) (by omega) (by omega)]

theorem GET_PUT_other (m : Mem) (p v q : Nat) (h : q + 4 ≤ p ∨ p + 4 ≤ q) :
    GET (PUT m p v) q = GET m q := by
  apply GET_congr
  intro a h1 h2
  exact PUT_outside m p v a (by omega)

/-- Decoding the size from a tag word. -/
theorem tag_size (w sz a : Nat) (hw : w = sz + a) (h8 : sz % 8 = 0) (hlt : sz < U32)
    (ha : a ≤ 1) : w &&& 4294967288 = sz := by
  have : w < 4294967296 := by unfold U32 at hlt; omega
  rw [and_mask w this]; omega

/-- Decoding the allocated bit from a tag word. -/
theorem tag_alloc (w sz a : Nat) (hw : w = sz + a) (h8 : sz % 8 = 0) (ha : a ≤ 1) :
    w &&& 1 = a := by
  rw [Nat.and_one_is_mod]; omega

theorem GET_SIZE_mod8 (m : Mem) (p : Nat) : GET_SIZE m p % 8 = 0 := by
  unfold GET_SIZE
  have := GET_lt m p
  unfold U32 at this
  rw [and_mask _ this]; omega

theorem GET_SIZE_le (m : Mem) (p : Nat) : GET_SIZE m p ≤ GET m p := by
  unfold GET_SIZE
  have := GET_lt m p
  unfold U32 at this
  rw [and_mask _ this]; omega

theorem GET_SIZE_lt (m : Mem) (p : Nat) : GET_SIZE m p < U32 :=
  lt_of_le_of_lt (GET_SIZE_le m p) (GET_lt m p)

theorem GET_ALLOC_le (m : Mem) (p : Nat) : GET_ALLOC m p ≤ 1 := by
  unfold GET_ALLOC; rw [Nat.and_one_is_mod]; omega

/-! ## Block lists and tilings -/

theorem bsum_append (xs ys : List Blk) : bsum (xs ++ ys) = bsum xs + bsum ys := by
  induction xs with
  | nil => simp [bsum]
  | cons b xs ih => simp [bsum, ih]; omega

theorem bsum_cons (b : Blk) (bs : List Blk) : bsum (b :: bs) = b.1 + bsum bs := rfl

theorem bsum_nil : bsum [] = 0 := rfl

theorem tagOf_le (b : Blk) : tagOf b ≤ b.1 + 1 := by
  unfold tagOf; split <;> omega

theorem size_of_tag (m : Mem) (p : Nat) (b : Blk) (h : GET m p = tagOf b) (h8 : b.1 % 8 = 0)
    (hlt : b.1 < U32) : GET_SIZE m p = b.1 := by
  unfold GET_SIZE
  exact tag_size _ b.1 (if b.2 then 1 else 0) h h8 hlt (by split <;> omega)

theorem alloc_of_tag (m : Mem) (p : Nat) (b : Blk) (h : GET m p = tagOf b) (h8 : b.1 % 8 = 0) :
    GET_ALLOC m p = if b.2 then 1 else 0 := by
  unfold GET_ALLOC
  exact tag_alloc _ b.1 (if b.2 then 1 else 0) h h8 (by split <;> omega)

theorem Tiles_end (m : Mem) (bs : List Blk) : ∀ p q, Tiles m p bs q → q = p + bsum bs := by
  induction bs with
  | nil => intro p q h; simp [Tiles] at h; simp [bsum, h]
  | cons b bs ih =>
    intro p q h
    simp only [Tiles] at h
    have := ih _ _ h.2.2.2.2.2
    simp [bsum]; omega

theorem Tiles_append (m : Mem) (xs ys : List Blk) : ∀ p q,
    Tiles m p (xs ++ ys) q ↔ Tiles m p xs (p + bsum xs) ∧ Tiles m (p + bsum xs) ys q := by
  induction xs with
  | nil => intro p q; simp [Tiles, bsum]
  | cons b xs ih =>
    intro p q
    have e : p + bsum (b :: xs) = p + b.1 + bsum xs := by simp [bsum]; omega
    rw [List.cons_append, e]
    simp only [Tiles]
    rw [ih (p + b.1) q]
    tauto

theorem Tiles_sizes (m : Mem) (bs : List Blk) : ∀ p q, Tiles m p bs q →
    ∀ b ∈ bs, 8 ≤ b.1 ∧ b.1 % 8 = 0 ∧ b.1 < U32 := by
  induction bs with
  | nil => intro p q _ b hb; simp at hb
  | cons c bs ih =>
    intro p q h b hb
    simp only [Tiles] at h
    rcases List.mem_cons.1 hb with rfl | hb
    · exact ⟨h.1, h.2.1, h.2.2.1⟩
    · exact ih _ _ h.2.2.2.2.2 b hb

theorem Tiles_frame (m m1 : Mem) (bs : List Blk) : ∀ p q, Tiles m p bs q →
    (∀ a, p ≤ a → a < q → m1 a = m a) → Tiles m1 p bs q := by
  induction bs with
  | nil => intro p q h _; exact h
  | cons b bs ih =>
    intro p q h hf
    simp only [Tiles] at h ⊢
    obtain ⟨h1, h2, h3, h4, h5, h6⟩ := h
    have he := Tiles_end m bs _ _ h6
    refine ⟨h1, h2, h3, ?_, ?_, ?_⟩
    · rw [← h4]; apply GET_congr; intro a ha hb; exact hf a ha (by omega)
    · rw [← h5]; apply GET_congr; intro a ha hb; exact hf a (by omega) (by omega)
    · exact ih _ _ h6 (fun a ha hb => hf a (by omega) hb)

theorem Tiles_single (m : Mem) (p q : Nat) (b : Blk) :
    Tiles m p [b] q ↔ 8 ≤ b.1 ∧ b.1 % 8 = 0 ∧ b.1 < U32 ∧ GET m p = tagOf b
      ∧ GET m (p + b.1 - 4) = tagOf b ∧ p + b.1 = q := by
  simp [Tiles]

theorem bsum_ge (bs : List Blk) (h : ∀ b ∈ bs, 8 ≤ b.1) : 8 * bs.length ≤ bsum bs := by
  induction bs with
  | nil => simp [bsum]
  | cons b bs ih =>
    have h1 := h b (List.mem_cons_self _ _)
    have h2 := ih (fun c hc => h c (List.mem_cons_of_mem _ hc))
    simp [bsum]; omega

theorem starts_append (xs ys : List Blk) : ∀ p,
    starts p (xs ++ ys) = starts p xs ++ starts (p + bsum xs) ys := by
  induction xs with
  | nil => intro p; simp [starts, bsum]
  | cons b xs ih => intro p; simp [starts, bsum, ih, Nat.add_assoc]

theorem starts_bounds (bs : List Blk) : ∀ p x, (∀ b ∈ bs, 8 ≤ b.1) → x ∈ starts p bs →
    p + 4 ≤ x ∧ x + 4 ≤ p + bsum bs := by
  induction bs with
  | nil => intro p x _ hx; simp [starts] at hx
  | cons b bs ih =>
    intro p x h hx
    have h1 := h b (List.mem_cons_self _ _)
    simp only [starts, List.mem_cons] at hx
    simp only [bsum]
    rcases hx with rfl | hx
    · omega
    · have := ih _ x (fun c hc => h c (List.mem_cons_of_mem _ hc)) hx
      omega

theorem starts_split (bs : List Blk) : ∀ p x, x ∈ starts p bs →
    ∃ pre b post, bs = pre ++ b :: post ∧ x = p + bsum pre + 4 := by
  induction bs with
  | nil => intro p x hx; simp [starts] at hx
  | cons b bs ih =>
    intro p x hx
    simp only [starts, List.mem_cons] at hx
    rcases hx with rfl | hx
    · exact ⟨[], b, bs, rfl, by simp [bsum]⟩
    · obtain ⟨pre, c, post, h1, h2⟩ := ih _ x hx
      exact ⟨b :: pre, c, post, by simp [h1], by simp [bsum, h2]; omega⟩

theorem starts_mem_of_split (pre post : List Blk) (b : Blk) (p : Nat) :
    p + bsum pre + 4 ∈ starts p (pre ++ b :: post) := by
  rw [starts_append]
  simp [starts]

/-- Two tilings of the same memory between the same addresses coincide. -/
theorem Tiles_unique (m : Mem) (bs : List Blk) : ∀ (cs : List Blk) p q,
    Tiles m p bs q → Tiles m p cs q → bs = cs := by
  induction bs with
  | nil =>
    intro cs p q h1 h2
    cases cs with
    | nil => rfl
    | cons c cs =>
      simp only [Tiles] at h1 h2
      have := Tiles_end m cs _ _ h2.2.2.2.2.2
      omega
  | cons b bs ih =>
    intro cs p q h1 h2
    cases cs with
    | nil =>
      simp only [Tiles] at h1 h2
      have := Tiles_end m bs _ _ h1.2.2.2.2.2
      omega
    | cons c cs =>
      simp only [Tiles] at h1 h2
      obtain ⟨a1, a2, a3, a4, _, a6⟩ := h1
      obtain ⟨c1, c2, c3, c4, _, c6⟩ := h2
      have e1 : b.1 = c.1 := by
        rw [← size_of_tag m p b a4 a2 a3, ← size_of_tag m p c c4 c2 c3]
      have e2 : b.2 = c.2 := by
        have x1 := alloc_of_tag m p b a4 a2
        have x2 := alloc_of_tag m p c c4 c2
        rw [x1] at x2
        cases hb : b.2 <;> cases hc : c.2 <;> simp [hb, hc] at x2 <;> rfl
      have e : b = c := Prod.ext e1 e2
      subst e
      rw [ih cs _ _ a6 c6]

/-! ## Reading tags through writes -/

theorem GET_SIZE_PUT_same (m : Mem) (p sz a : Nat) (h8 : sz % 8 = 0) (hlt : sz < U32)
    (ha : a ≤ 1) : GET_SIZE (PUT m p (PACK sz a)) p = sz := by
  unfold GET_SIZE
  rw [GET_PUT_same, PACK_eq sz a h8 hlt ha]
  have : (sz + a) % U32 = sz + a := Nat.mod_eq_of_lt (by unfold U32 at *; omega)
  rw [this]
  exact tag_size _ sz a rfl h8 hlt ha

theorem GET_ALLOC_PUT_same (m : Mem) (p sz a : Nat) (h8 : sz % 8 = 0) (hlt : sz < U32)
    (ha : a ≤ 1) : GET_ALLOC (PUT m p (PACK sz a)) p = a := by
  unfold GET_ALLOC
  rw [GET_PUT_same, PACK_eq sz a h8 hlt ha]
  have : (sz + a) % U32 = sz + a := Nat.mod_eq_of_lt (by unfold U32 at *; omega)
  rw [this]
  exact tag_alloc _ sz a rfl h8 ha

theorem GET_PUT_PACK (m : Mem) (p sz a : Nat) (h8 : sz % 8 = 0) (hlt : sz < U32)
    (ha : a ≤ 1) : GET (PUT m p (PACK sz a)) p = sz + a := by
  rw [GET_PUT_same, PACK_eq sz a h8 hlt ha]
  exact Nat.mod_eq_of_lt (by unfold U32 at *; omega)

theorem GET_SIZE_PUT_other (m : Mem) (p v q : Nat) (h : q + 4 ≤ p ∨ p + 4 ≤ q) :
    GET_SIZE (PUT m p v) q = GET_SIZE m q := by
  unfold GET_SIZE; rw [GET_PUT_other m p v q h]

theorem GET_ALLOC_PUT_other (m : Mem) (p v q : Nat) (h : q + 4 ≤ p ∨ p + 4 ≤ q) :
    GET_ALLOC (PUT m p v) q = GET_ALLOC m q := by
  unfold GET_ALLOC; rw [GET_PUT_other m p v q h]

/-! ## `place` -/

theorem place_split (s : State) (bp asize sz : Nat) (hbp : 4 ≤ bp)
    (hsz : GET_SIZE s.mem (bp - 4) = sz)
    (h8 : asize % 8 = 0) (h16 : 16 ≤ asize) (hle : asize + 16 ≤ sz) (hlt : sz < U32) :
    place s bp asize =
      { s with
        mem := PUT (PUT (PUT (PUT s.mem (bp - 4) (PACK asize 1)) (bp + asize - 8)
          (PACK asize 1)) (bp + asize - 4) (PACK (sz - asize) 0)) (bp + sz - 8)
          (PACK (sz - asize) 0) } := by
  have hs8 : sz % 8 = 0 := by rw [← hsz]; exact GET_SIZE_mod8 _ _
  have ha : asize % U32 = asize := Nat.mod_eq_of_lt (by omega)
  have hd : (sz + SZT - asize) % SZT = sz - asize := by
    unfold SZT U32 at *; omega
  have e1 : GET_SIZE (PUT s.mem (bp - 4) (PACK asize 1)) (bp - 4) = asize :=
    GET_SIZE_PUT_same _ _ _ _ h8 (by omega) (by omega)
  have e2 : GET_SIZE (PUT (PUT s.mem (bp - 4) (PACK asize 1)) (bp + asize - 8) (PACK asize 1))
      (bp - 4) = asize := by
    rw [GET_SIZE_PUT_other _ _ _ _ (by omega)]; exact e1
  have e3 : GET_SIZE (PUT (PUT (PUT s.mem (bp - 4) (PACK asize 1)) (bp + asize - 8)
      (PACK asize 1)) (bp + asize - 4) (PACK (sz - asize) 0)) (bp + asize - 4) = sz - asize :=
    GET_SIZE_PUT_same _ _ _ _ (by omega) (by omega) (by omega)
  have e4 : bp + asize + (sz - asize) - 8 = bp + sz - 8 := by omega
  unfold place
  simp only [HDRP, FTRP, NEXT_BLKP, WSIZE, DSIZE, ha, hsz, hd]
  rw [if_pos (by omega)]
  simp only [e1, e2, e3, e4]

theorem place_whole (s : State) (bp asize sz : Nat) (hbp : 4 ≤ bp)
    (hsz : GET_SIZE s.mem (bp - 4) = sz)
    (hle : asize ≤ sz) (hsm : sz < asize + 16) (hlt : sz < U32) :
    place s bp asize =
      { s with mem := PUT (PUT s.mem (bp - 4) (PACK sz 1)) (bp + sz - 8) (PACK sz 1) } := by
  have hs8 : sz % 8 = 0 := by rw [← hsz]; exact GET_SIZE_mod8 _ _
  have ha : asize % U32 = asize := Nat.mod_eq_of_lt (by omega)
  have hd : (sz + SZT - asize) % SZT = sz - asize := by
    unfold SZT U32 at *; omega
  have e1 : GET_SIZE (PUT s.mem (bp - 4) (PACK sz 1)) (bp - 4) = sz :=
    GET_SIZE_PUT_same _ _ _ _ hs8 hlt (by omega)
  unfold place
  simp only [HDRP, FTRP, NEXT_BLKP, WSIZE, DSIZE, ha, hsz, hd]
  rw [if_neg (by omega)]
  simp only [e1]

/-! ## `coalesce` -/

theorem coalesce_case1 (s : State) (bp ps pa sz ns na : Nat)
    (h : Around s.mem bp ps pa sz ns na) (hpa : pa ≠ 0) (hna : na ≠ 0) :
    coalesce s bp = (bp, s) := by
  obtain ⟨h1, h2, h3, h4, h5, h6, h7, h8, h9, h10, h11⟩ := h
  have e1 : bp - ps + ps - 8 = bp - 8 := by omega
  unfold coalesce
  simp only [HDRP, FTRP, NEXT_BLKP, PREV_BLKP, WSIZE, DSIZE, h5, h6, h7, e1, h8, h9, h10]
  rw [if_pos ⟨hpa, hna⟩]

theorem coalesce_case2 (s : State) (bp ps pa sz ns na : Nat)
    (h : Around s.mem bp ps pa sz ns na) (hpa : pa = 0) (hna : na ≠ 0) :
    coalesce s bp = (bp - ps,
      { s with
        mem := PUT (PUT s.mem (bp + sz - 8) (PACK (sz + ps) 0)) (bp - ps - 4) (PACK (sz + ps) 0)
        temp := if s.temp > bp - ps ∧ s.temp < bp + sz then bp - ps else s.temp }) := by
  obtain ⟨h1, h2, h3, h4, h5, h6, h7, h8, h9, h10, h11⟩ := h
  have hs8 : sz % 8 = 0 := by rw [← h5]; exact GET_SIZE_mod8 _ _
  have hp8 : ps % 8 = 0 := by rw [← h6]; exact GET_SIZE_mod8 _ _
  have e1 : bp - ps + ps - 8 = bp - 8 := by omega
  have e2 : GET_SIZE (PUT s.mem (bp + sz - 8) (PACK (sz + ps) 0)) (bp - 8) = ps := by
    rw [GET_SIZE_PUT_other _ _ _ _ (by omega)]; exact h6
  have e3 : GET_SIZE (PUT (PUT s.mem (bp + sz - 8) (PACK (sz + ps) 0)) (bp - ps - 4)
      (PACK (sz + ps) 0)) (bp - 8) = ps := by
    rw [GET_SIZE_PUT_other _ _ _ _ (by omega)]; exact e2
  have e4 : GET_SIZE (PUT (PUT s.mem (bp + sz - 8) (PACK (sz + ps) 0)) (bp - ps - 4)
      (PACK (sz + ps) 0)) (bp - ps - 4) = sz + ps :=
    GET_SIZE_PUT_same _ _ _ _ (by omega) (by omega) (by omega)
  have e5 : bp - ps + (sz + ps) = bp + sz := by omega
  unfold coalesce
  simp only [HDRP, FTRP, NEXT_BLKP, PREV_BLKP, WSIZE, DSIZE, h5, h6, h7, e1, h8, h9, h10]
  rw [if_neg (by omega), if_pos ⟨hpa, hna⟩]
  simp only [e2, e3, e4, e5]

theorem coalesce_case3 (s : State) (bp ps pa sz ns na : Nat)
    (h : Around s.mem bp ps pa sz ns na) (hpa : pa ≠ 0) (hna : na = 0) :
    coalesce s bp = (bp,
      { s with
        mem := PUT (PUT s.mem (bp - 4) (PACK (sz + ns) 0)) (bp + sz + ns - 8) (PACK (sz + ns) 0)
        temp := if s.temp > bp ∧ s.temp < bp + (sz + ns) then bp else s.temp }) := by
  obtain ⟨h1, h2, h3, h4, h5, h6, h7, h8, h9, h10, h11⟩ := h
  have hs8 : sz % 8 = 0 := by rw [← h5]; exact GET_SIZE_mod8 _ _
  have hn8 : ns % 8 = 0 := by rw [← h9]; exact GET_SIZE_mod8 _ _
  have e1 : bp - ps + ps - 8 = bp - 8 := by omega
  have e2 : GET_SIZE (PUT s.mem (bp - 4) (PACK (sz + ns) 0)) (bp - 4) = sz + ns :=
    GET_SIZE_PUT_same _ _ _ _ (by omega) (by omega) (by omega)
  have e3 : GET_SIZE (PUT (PUT s.mem (bp - 4) (PACK (sz + ns) 0)) (bp + (sz + ns) - 8)
      (PACK (sz + ns) 0)) (bp - 4) = sz + ns := by
    rw [GET_SIZE_PUT_other _ _ _ _ (by omega)]; exact e2
  have e4 : bp + (sz + ns) - 8 = bp + sz + ns - 8 := by omega
  unfold coalesce
  simp only [HDRP, FTRP, NEXT_BLKP, PREV_BLKP, WSIZE, DSIZE, h5, h6, h7, e1, h8, h9, h10]
  rw [if_neg (by omega), if_neg (by omega), if_pos ⟨hpa, hna⟩]
  simp only [e2, e3]
  simp only [e4]

theorem coalesce_case4 (s : State) (bp ps pa sz ns na : Nat)
    (h : Around s.mem bp ps pa sz ns na) (hpa : pa = 0) (hna : na = 0) :
    coalesce s bp = (bp - ps,
      { s with
        mem := PUT (PUT s.mem (bp - ps - 4) (PACK (sz + ps + ns) 0)) (bp + sz + ns - 8)
          (PACK (sz + ps + ns) 0)
        temp := if s.temp > bp - ps ∧ s.temp < bp + sz + ns then bp - ps else s.temp }) := by
  obtain ⟨h1, h2, h3, h4, h5, h6, h7, h8, h9, h10, h11⟩ := h
  obtain ⟨h11, h12⟩ := h11 hna
  have hs8 : sz % 8 = 0 := by rw [← h5]; exact GET_SIZE_mod8 _ _
  have hp8 : ps % 8 = 0 := by rw [← h6]; exact GET_SIZE_mod8 _ _
  have hn8 : ns % 8 = 0 := by rw [← h9]; exact GET_SIZE_mod8 _ _
  have e1 : bp - ps + ps - 8 = bp - 8 := by omega
  have e0 : bp + sz + ns - 8 = bp + sz + ns - 8 := rfl
  have e2 : GET_SIZE (PUT s.mem (bp - ps - 4) (PACK (sz + ps + ns) 0)) (bp - 4) = sz := by
    rw [GET_SIZE_PUT_other _ _ _ _ (by omega)]; exact h5
  have e3 : GET_SIZE (PUT s.mem (bp - ps - 4) (PACK (sz + ps + ns) 0)) (bp + sz - 4) = ns := by
    rw [GET_SIZE_PUT_other _ _ _ _ (by omega)]; exact h9
  have e4 : GET_SIZE (PUT (PUT s.mem (bp - ps - 4) (PACK (sz + ps + ns) 0)) (bp + sz + ns - 8)
      (PACK (sz + ps + ns) 0)) (bp - 8) = ps := by
    rw [GET_SIZE_PUT_other _ _ _ _ (by omega), GET_SIZE_PUT_other _ _ _ _ (by omega)]; exact h6
  have e5 : GET_SIZE (PUT (PUT s.mem (bp - ps - 4) (PACK (sz + ps + ns) 0)) (bp + sz + ns - 8)
      (PACK (sz + ps + ns) 0)) (bp - ps - 4) = sz + ps + ns := by
    rw [GET_SIZE_PUT_other _ _ _ _ (by omega)]
    exact GET_SIZE_PUT_same _ _ _ _ (by omega) (by omega) (by omega)
  have e6 : bp - ps + (sz + ps + ns) = bp + sz + ns := by omega
  unfold coalesce
  simp only [HDRP, FTRP, NEXT_BLKP, PREV_BLKP, WSIZE, DSIZE, h5, h6, h7, e1, h8, h9, h10, h12]
  rw [if_neg (by omega), if_neg (by omega), if_neg (by omega)]
  simp only [e2, e3, e4, e5, e6]

theorem Tiles_PUT_left (m : Mem) (bs : List Blk) (p q x v : Nat) (h : Tiles m p bs q)
    (hx : x + 4 ≤ p) : Tiles (PUT m x v) p bs q :=
  Tiles_frame m _ bs p q h (fun a ha _ => PUT_outside m x v a (by omega))

theorem Tiles_PUT_right (m : Mem) (bs : List Blk) (p q x v : Nat) (h : Tiles m p bs q)
    (hx : q ≤ x) : Tiles (PUT m x v) p bs q :=
  Tiles_frame m _ bs p q h (fun a _ hb => PUT_outside m x v a (by omega))

theorem tagOf_free (sz : Nat) : tagOf (sz, false) = sz := by simp [tagOf]

theorem tagOf_alloc (sz : Nat) : tagOf (sz, true) = sz + 1 := by simp [tagOf]

/-- The tag that follows a tiling: the header of the first block of `post`, or
the epilogue header. -/
theorem next_tag (m : Mem) (post : List Blk) (hn q : Nat) (hT : Tiles m hn post q)
    (hq : GET m q = 1) :
    ∃ ns na, GET_SIZE m hn = ns ∧ GET_ALLOC m hn = na ∧ ns % 8 = 0 ∧
      ((post = [] ∧ ns = 0 ∧ na = 1 ∧ hn = q) ∨
       (∃ nb rest, post = nb :: rest ∧ ns = nb.1 ∧ na = (if nb.2 then 1 else 0) ∧ 8 ≤ ns ∧
          GET_SIZE m (hn + ns - 4) = ns ∧ hn + ns ≤ q)) := by
  cases post with
  | nil =>
    simp only [Tiles] at hT
    subst hT
    have e : GET m hn = tagOf (0, true) := by rw [hq]; rfl
    refine ⟨0, 1, size_of_tag m hn (0, true) e rfl (by unfold U32; omega), ?_, rfl, ?_⟩
    · exact alloc_of_tag m hn (0, true) e rfl
    · exact Or.inl ⟨rfl, rfl, rfl, rfl⟩
  | cons nb rest =>
    simp only [Tiles] at hT
    obtain ⟨h1, h2, h3, h4, h5, h6⟩ := hT
    have he := Tiles_end m rest _ _ h6
    refine ⟨nb.1, (if nb.2 then 1 else 0), size_of_tag m hn nb h4 h2 h3,
      alloc_of_tag m hn nb h4 h2, h2, Or.inr ⟨nb, rest, rfl, rfl, rfl, h1, ?_, by omega⟩⟩
    exact size_of_tag m _ nb h5 h2 h3

theorem coalesce_around (m : Mem) (p0 q bp sz : Nat) (pre post : List Blk) (prev : Blk) (a : Bool)
    (hT : Tiles m p0 (pre ++ prev :: (sz, a) :: post) q) (hq : GET m q = 1)
    (hbp : bp = p0 + bsum pre + prev.1 + 4)
    (hsmall : bsum (pre ++ prev :: (sz, a) :: post) < U32) :
    ∃ ns na, Around m bp prev.1 (if prev.2 then 1 else 0) sz ns na ∧
      ((na = 1 ∧ mergedSize prev sz post = (if prev.2 then 0 else prev.1) + sz ∧
          mergedPost post = post) ∨
       (na = 0 ∧ ∃ rest, post = (ns, false) :: rest)) := by
  rw [Tiles_append] at hT
  obtain ⟨hT1, hT2⟩ := hT
  simp only [Tiles] at hT2
  obtain ⟨a1, a2, a3, a4, a5, b1, b2, b3, b4, b5, hT3⟩ := hT2
  obtain ⟨ns, na, n1, n2, n3, n4⟩ := next_tag m post _ q hT3 hq
  have hs : bsum (pre ++ prev :: (sz, a) :: post) = bsum pre + (prev.1 + (sz + bsum post)) := by
    simp [bsum_append, bsum]
  have x1 : p0 + bsum pre + prev.1 - 4 = bp - 8 := by omega
  have x2 : p0 + bsum pre + prev.1 = bp - 4 := by omega
  have x3 : p0 + bsum pre = bp - prev.1 - 4 := by omega
  have x4 : p0 + bsum pre + prev.1 + sz = bp + sz - 4 := by omega
  rw [x1] at a5
  rw [x3] at a4
  rw [x2] at b4
  rw [x4] at n1 n2 n4
  have hns : ns ≤ bsum post := by
    rcases n4 with ⟨h1, h2, _⟩ | ⟨nb, rest, h1, h2, _⟩
    · omega
    · subst h1; simp [bsum]; omega
  refine ⟨ns, na, ⟨by omega, a1, b1, by omega, size_of_tag m _ _ b4 b2 b3,
    size_of_tag m _ _ a5 a2 a3, size_of_tag m _ _ a4 a2 a3, alloc_of_tag m _ _ a5 a2,
    n1, n2, ?_⟩, ?_⟩
  · intro hna
    rcases n4 with ⟨_, _, h3, _⟩ | ⟨nb, rest, h1, h2, h3, h4, h5, _⟩
    · omega
    · refine ⟨h4, ?_⟩
      have : bp + sz - 4 + ns - 4 = bp + sz + ns - 8 := by omega
      rw [this] at h5; exact h5
  · rcases n4 with ⟨h1, _, h3, _⟩ | ⟨nb, rest, h1, h2, h3, h4, h5, _⟩
    · subst h1; exact Or.inl ⟨h3, by simp [mergedSize], by simp [mergedPost]⟩
    · subst h1
      obtain ⟨n, c⟩ := nb
      cases c with
      | true => exact Or.inl ⟨by simpa using h3, by simp [mergedSize], by simp [mergedPost]⟩
      | false => exact Or.inr ⟨by simpa using h3, rest, by simp at h2; rw [h2]⟩

theorem starts_cons (p : Nat) (b : Blk) (bs : List Blk) :
    starts p (b :: bs) = (p + 4) :: starts (p + b.1) bs := rfl

theorem starts_three (p0 bp ps sz1 : Nat) (pa : Bool) (pre post1 : List Blk)
    (hbp : bp = p0 + bsum pre + ps + 4) :
    starts p0 (pre ++ (ps, pa) :: (sz1, false) :: post1) =
      starts p0 pre ++ (bp - ps) :: bp :: starts (bp + sz1 - 4) post1 := by
  rw [starts_append, starts_cons, starts_cons]
  have e1 : p0 + bsum pre + 4 = bp - ps := by omega
  have e2 : p0 + bsum pre + ps + 4 = bp := by omega
  have e3 : p0 + bsum pre + ps + sz1 = bp + sz1 - 4 := by omega
  simp only [e1, e2, e3]

/-- Merging with a free successor. -/
theorem coal_next (s : State) (p0 q bp sz ps ns : Nat) (pre rest : List Blk)
    (hT : Tiles s.mem p0 (pre ++ (ps, true) :: (sz, false) :: (ns, false) :: rest) q)
    (hbp : bp = p0 + bsum pre + ps + 4) (hlt : ps + sz + ns < U32) :
    Coalesced s (bp,
      { s with
        mem := PUT (PUT s.mem (bp - 4) (PACK (sz + ns) 0)) (bp + sz + ns - 8) (PACK (sz + ns) 0)
        temp := if s.temp > bp ∧ s.temp < bp + (sz + ns) then bp else s.temp })
      p0 q (pre ++ (ps, true) :: (sz, false) :: (ns, false) :: rest)
      (pre ++ (ps, true) :: (sz + ns, false) :: rest) (bp - 4) (sz + ns) := by
  have hsizes := Tiles_sizes _ _ _ _ hT
  have hpre8 : ∀ b ∈ pre, 8 ≤ b.1 := fun b hb => (hsizes b (by simp [hb])).1
  have hrest8 : ∀ b ∈ rest, 8 ≤ b.1 := fun b hb => (hsizes b (by simp [hb])).1
  rw [Tiles_append] at hT
  obtain ⟨hT1, hT2⟩ := hT
  simp only [Tiles] at hT2
  obtain ⟨a1, a2, a3, a4, a5, b1, b2, b3, b4, b5, c1, c2, c3, c4, c5, hT4⟩ := hT2
  have he := Tiles_end _ _ _ _ hT4
  clear hsizes
  refine ⟨?_, by simp; omega, ?_, rfl, rfl, rfl, ?_⟩
  · rw [Tiles_append]
    refine ⟨Tiles_PUT_right _ _ _ _ _ _ (Tiles_PUT_right _ _ _ _ _ _ hT1 (by omega)) (by omega), ?_⟩
    simp only [Tiles]
    refine ⟨a1, a2, a3, ?_, ?_, by omega, by omega, by omega, ?_, ?_, ?_⟩
    · rw [GET_PUT_other _ _ _ _ (by omega), GET_PUT_other _ _ _ _ (by omega)]; exact a4
    · rw [GET_PUT_other _ _ _ _ (by omega), GET_PUT_other _ _ _ _ (by omega)]; exact a5
    · rw [GET_PUT_other _ _ _ _ (by omega), tagOf_free]
      have : p0 + bsum pre + ps = bp - 4 := by omega
      rw [this]
      exact GET_PUT_PACK _ _ _ _ (by omega) (by omega) (by omega)
    · rw [tagOf_free]
      have : p0 + bsum pre + ps + (sz + ns) - 4 = bp + sz + ns - 8 := by omega
      rw [this]
      exact GET_PUT_PACK _ _ _ _ (by omega) (by omega) (by omega)
    · have : p0 + bsum pre + ps + (sz + ns) = p0 + bsum pre + ps + sz + ns := by omega
      rw [this]
      exact Tiles_frame _ _ _ _ _ hT4 (fun a ha hb => by
        rw [PUT_outside _ _ _ _ (by omega), PUT_outside _ _ _ _ (by omega)])
  · intro a h1 h2
    simp only
    rw [PUT_outside _ _ _ _ (by omega), PUT_outside _ _ _ _ (by omega)]
  · intro ht
    simp only
    rw [starts_three p0 bp ps sz true pre _ hbp, starts_cons] at ht
    rw [starts_three p0 bp ps (sz + ns) true pre _ hbp]
    simp only [List.mem_append, List.mem_cons] at ht ⊢
    have e : bp + sz - 4 + ns = bp + (sz + ns) - 4 := by omega
    rw [e] at ht
    rcases ht with h | h | h | h | h
    · have := starts_bounds pre p0 _ hpre8 h
      rw [if_neg (by omega)]; exact Or.inl h
    · rw [if_neg (by omega)]; exact Or.inr (Or.inl h)
    · rw [if_neg (by omega)]; exact Or.inr (Or.inr (Or.inl h))
    · rw [if_pos (by omega)]; exact Or.inr (Or.inr (Or.inl rfl))
    · have := starts_bounds rest _ _ hrest8 h
      rw [if_neg (by omega)]; exact Or.inr (Or.inr (Or.inr h))

/-- Merging with a free predecessor. -/
theorem coal_prev (s : State) (p0 q bp sz ps : Nat) (pre post : List Blk)
    (hT : Tiles s.mem p0 (pre ++ (ps, false) :: (sz, false) :: post) q)
    (hbp : bp = p0 + bsum pre + ps + 4) (hlt : ps + sz < U32) :
    Coalesced s (bp - ps,
      { s with
        mem := PUT (PUT s.mem (bp + sz - 8) (PACK (sz + ps) 0)) (bp - ps - 4) (PACK (sz + ps) 0)
        temp := if s.temp > bp - ps ∧ s.temp < bp + sz then bp - ps else s.temp })
      p0 q (pre ++ (ps, false) :: (sz, false) :: post)
      (pre ++ (ps + sz, false) :: post) (bp - ps - 4) (ps + sz) := by
  have hsizes := Tiles_sizes _ _ _ _ hT
  have hpre8 : ∀ b ∈ pre, 8 ≤ b.1 := fun b hb => (hsizes b (by simp [hb])).1
  have hpost8 : ∀ b ∈ post, 8 ≤ b.1 := fun b hb => (hsizes b (by simp [hb])).1
  rw [Tiles_append] at hT
  obtain ⟨hT1, hT2⟩ := hT
  simp only [Tiles] at hT2
  obtain ⟨a1, a2, a3, a4, a5, b1, b2, b3, b4, b5, hT3⟩ := hT2
  have he := Tiles_end _ _ _ _ hT3
  clear hsizes
  refine ⟨?_, by simp; omega, ?_, rfl, rfl, rfl, ?_⟩
  · rw [Tiles_append]
    refine ⟨Tiles_PUT_right _ _ _ _ _ _ (Tiles_PUT_right _ _ _ _ _ _ hT1 (by omega)) (by omega), ?_⟩
    simp only [Tiles]
    refine ⟨by omega, by omega, by omega, ?_, ?_, ?_⟩
    · rw [tagOf_free]
      have : p0 + bsum pre = bp - ps - 4 := by omega
      rw [this]
      have : ps + sz = sz + ps := by omega
      rw [this]
      exact GET_PUT_PACK _ _ _ _ (by omega) (by omega) (by omega)
    · rw [tagOf_free, GET_PUT_other _ _ _ _ (by omega)]
      have : p0 + bsum pre + (ps + sz) - 4 = bp + sz - 8 := by omega
      rw [this]
      have : ps + sz = sz + ps := by omega
      rw [this]
      exact GET_PUT_PACK _ _ _ _ (by omega) (by omega) (by omega)
    · have : p0 + bsum pre + (ps + sz) = p0 + bsum pre + ps + sz := by omega
      rw [this]
      exact Tiles_frame _ _ _ _ _ hT3 (fun a ha hb => by
        rw [PUT_outside _ _ _ _ (by omega), PUT_outside _ _ _ _ (by omega)])
  · intro a h1 h2
    simp only
    rw [PUT_outside _ _ _ _ (by omega), PUT_outside _ _ _ _ (by omega)]
  · intro ht
    simp only
    rw [starts_three p0 bp ps sz false pre _ hbp] at ht
    rw [starts_append, starts_cons]
    simp only [List.mem_append, List.mem_cons] at ht ⊢
    have e1 : p0 + bsum pre + 4 = bp - ps := by omega
    have e2 : p0 + bsum pre + (ps + sz) = bp + sz - 4 := by omega
    rw [e1, e2]
    rcases ht with h | h | h | h
    · have := starts_bounds pre p0 _ hpre8 h
      rw [if_neg (by omega)]; exact Or.inl h
    · rw [if_neg (by omega)]; exact Or.inr (Or.inl h)
    · rw [if_pos (by omega)]; exact Or.inr (Or.inl rfl)
    · have := starts_bounds post _ _ hpost8 h
      rw [if_neg (by omega)]; exact Or.inr (Or.inr h)

/-- Merging with both neighbours. -/
theorem coal_both (s : State) (p0 q bp sz ps ns : Nat) (pre rest : List Blk)
    (hT : Tiles s.mem p0 (pre ++ (ps, false) :: (sz, false) :: (ns, false) :: rest) q)
    (hbp : bp = p0 + bsum pre + ps + 4) (hlt : ps + sz + ns < U32) :
    Coalesced s (bp - ps,
      { s with
        mem := PUT (PUT s.mem (bp - ps - 4) (PACK (sz + ps + ns) 0)) (bp + sz + ns - 8)
          (PACK (sz + ps + ns) 0)
        temp := if s.temp > bp - ps ∧ s.temp < bp + sz + ns then bp - ps else s.temp })
      p0 q (pre ++ (ps, false) :: (sz, false) :: (ns, false) :: rest)
      (pre ++ (ps + sz + ns, false) :: rest) (bp - ps - 4) (ps + sz + ns) := by
  have hsizes := Tiles_sizes _ _ _ _ hT
  have hpre8 : ∀ b ∈ pre, 8 ≤ b.1 := fun b hb => (hsizes b (by simp [hb])).1
  have hrest8 : ∀ b ∈ rest, 8 ≤ b.1 := fun b hb => (hsizes b (by simp [hb])).1
  rw [Tiles_append] at hT
  obtain ⟨hT1, hT2⟩ := hT
  simp only [Tiles] at hT2
  obtain ⟨a1, a2, a3, a4, a5, b1, b2, b3, b4, b5, c1, c2, c3, c4, c5, hT4⟩ := hT2
  have he := Tiles_end _ _ _ _ hT4
  clear hsizes
  refine ⟨?_, by simp; omega, ?_, rfl, rfl, rfl, ?_⟩
  · rw [Tiles_append]
    refine ⟨Tiles_PUT_right _ _ _ _ _ _ (Tiles_PUT_right _ _ _ _ _ _ hT1 (by omega)) (by omega), ?_⟩
    simp only [Tiles]
    refine ⟨by omega, by omega, by omega, ?_, ?_, ?_⟩
    · rw [tagOf_free, GET_PUT_other _ _ _ _ (by omega)]
      have : p0 + bsum pre = bp - ps - 4 := by omega
      rw [this]
      have : ps + sz + ns = sz + ps + ns := by omega
      rw [this]
      exact GET_PUT_PACK _ _ _ _ (by omega) (by omega) (by omega)
    · rw [tagOf_free]
      have : p0 + bsum pre + (ps + sz + ns) - 4 = bp + sz + ns - 8 := by omega
      rw [this]
      have : ps + sz + ns = sz + ps + ns := by omega
      rw [this]
      exact GET_PUT_PACK _ _ _ _ (by omega) (by omega) (by omega)
    · have : p0 + bsum pre + (ps + sz + ns) = p0 + bsum pre + ps + sz + ns := by omega
      rw [this]
      exact Tiles_frame _ _ _ _ _ hT4 (fun a ha hb => by
        rw [PUT_outside _ _ _ _ (by omega), PUT_outside _ _ _ _ (by omega)])
  · intro a h1 h2
    simp only
    rw [PUT_outside _ _ _ _ (by omega), PUT_outside _ _ _ _ (by omega)]
  · intro ht
    simp only
    rw [starts_three p0 bp ps sz false pre _ hbp, starts_cons] at ht
    rw [starts_append, starts_cons]
    simp only [List.mem_append, List.mem_cons] at ht ⊢
    have e1 : p0 + bsum pre + 4 = bp - ps := by omega
    have e2 : p0 + bsum pre + (ps + sz + ns) = bp + sz - 4 + ns := by omega
    rw [e1, e2]
    rcases ht with h | h | h | h | h
    · have := starts_bounds pre p0 _ hpre8 h
      rw [if_neg (by omega)]; exact Or.inl h
    · rw [if_neg (by omega)]; exact Or.inr (Or.inl h)
    · rw [if_pos (by omega)]; exact Or.inr (Or.inl rfl)
    · rw [if_pos (by omega)]; exact Or.inr (Or.inl rfl)
    · have := starts_bounds rest _ _ hrest8 h
      rw [if_neg (by omega)]; exact Or.inr (Or.inr h)

theorem coalesce_tiles (s : State) (p0 q bp sz : Nat) (pre post : List Blk) (prev : Blk)
    (hT : Tiles s.mem p0 (pre ++ prev :: (sz, false) :: post) q) (hq : GET s.mem q = 1)
    (hbp : bp = p0 + bsum pre + prev.1 + 4)
    (hsmall : bsum (pre ++ prev :: (sz, false) :: post) < U32) :
    Coalesced s (coalesce s bp) p0 q (pre ++ prev :: (sz, false) :: post)
      (merged pre prev sz post) (p0 + bsum (mergedPre pre prev)) (mergedSize prev sz post) := by
  obtain ⟨ns, na, hA, hcase⟩ := coalesce_around s.mem p0 q bp sz pre post prev false hT hq hbp hsmall
  obtain ⟨ps, pa⟩ := prev
  simp only at hbp hA
  have hlt := hA.hlt
  cases pa with
  | true =>
    simp only [if_true] at hA
    rcases hcase with ⟨hna, hms, hmp⟩ | ⟨hna, rest, hpost⟩
    · -- both neighbours allocated
      rw [coalesce_case1 s bp ps 1 sz ns na hA (by omega) (by omega)]
      have hm : merged pre (ps, true) sz post = pre ++ (ps, true) :: (sz, false) :: post := by
        simp [merged, mergedPre, hms, hmp]
      rw [hm]
      refine ⟨hT, ?_, fun _ _ _ => rfl, rfl, rfl, rfl, fun h => h⟩
      simp [mergedPre, bsum_append, bsum]; omega
    · -- only the successor is free
      subst hpost
      rw [coalesce_case3 s bp ps 1 sz ns na hA (by omega) hna]
      have hm : merged pre (ps, true) sz ((ns, false) :: rest) =
          pre ++ (ps, true) :: (sz + ns, false) :: rest := by
        simp [merged, mergedPre, mergedSize, mergedPost]
      have hS : mergedSize (ps, true) sz ((ns, false) :: rest) = sz + ns := by
        simp [mergedSize]
      have hlo : p0 + bsum (mergedPre pre (ps, true)) = bp - 4 := by
        simp [mergedPre, bsum_append, bsum]; omega
      rw [hm, hS, hlo]
      exact coal_next s p0 q bp sz ps ns pre rest hT hbp hlt
  | false =>
    simp only [Bool.false_eq_true, if_false] at hA
    rcases hcase with ⟨hna, hms, hmp⟩ | ⟨hna, rest, hpost⟩
    · -- only the predecessor is free
      rw [coalesce_case2 s bp ps 0 sz ns na hA rfl (by omega)]
      simp only [Bool.false_eq_true, if_false] at hms
      have hm : merged pre (ps, false) sz post = pre ++ (ps + sz, false) :: post := by
        simp [merged, mergedPre, hms, hmp]
      have hlo : p0 + bsum (mergedPre pre (ps, false)) = bp - ps - 4 := by
        simp [mergedPre]; omega
      rw [hm, hms, hlo]
      exact coal_prev s p0 q bp sz ps pre post hT hbp (by omega)
    · -- both neighbours free
      subst hpost
      rw [coalesce_case4 s bp ps 0 sz ns na hA rfl hna]
      have hm : merged pre (ps, false) sz ((ns, false) :: rest) =
          pre ++ (ps + sz + ns, false) :: rest := by
        simp [merged, mergedPre, mergedSize, mergedPost]
      have hS : mergedSize (ps, false) sz ((ns, false) :: rest) = ps + sz + ns := by
        simp [mergedSize]
      have hlo : p0 + bsum (mergedPre pre (ps, false)) = bp - ps - 4 := by
        simp [mergedPre]; omega
      rw [hm, hS, hlo]
      exact coal_both s p0 q bp sz ps ns pre rest hT hbp hlt

theorem place_fields (s : State) (bp asize : Nat) :
    (place s bp asize).brk = s.brk ∧ (place s bp asize).lim = s.lim ∧
    (place s bp asize).heap_listp = s.heap_listp ∧ (place s bp asize).temp = s.temp := by
  unfold place
  simp only
  split <;> exact ⟨rfl, rfl, rfl, rfl⟩

theorem place_tiles (s : State) (p0 q bp sz asize : Nat) (pre post : List Blk)
    (hT : Tiles s.mem p0 (pre ++ (sz, false) :: post) q)
    (hbp : bp = p0 + bsum pre + 4)
    (h8 : asize % 8 = 0) (h16 : 16 ≤ asize) (hle : asize ≤ sz) :
    Tiles (place s bp asize).mem p0 (pre ++ placeBlocks sz asize ++ post) q ∧
    (∀ a, a < bp - 4 ∨ bp - 4 + sz ≤ a → (place s bp asize).mem a = s.mem a) := by
  rw [Tiles_append] at hT
  obtain ⟨hT1, hT2⟩ := hT
  simp only [Tiles] at hT2
  obtain ⟨b1, b2, b3, b4, b5, hT3⟩ := hT2
  have hsz : GET_SIZE s.mem (bp - 4) = sz := by
    have : bp - 4 = p0 + bsum pre := by omega
    rw [this]; exact size_of_tag _ _ _ b4 b2 b3
  have e0 : p0 + bsum pre = bp - 4 := by omega
  by_cases hsplit : sz < asize + 16
  · rw [place_whole s bp asize sz (by omega) hsz hle hsplit b3]
    have hpb : placeBlocks sz asize = [(sz, true)] := by simp [placeBlocks, hsplit]
    rw [hpb]
    refine ⟨?_, ?_⟩
    · rw [List.append_assoc, Tiles_append]
      refine ⟨Tiles_PUT_right _ _ _ _ _ _ (Tiles_PUT_right _ _ _ _ _ _ hT1 (by omega))
        (by omega), ?_⟩
      simp only [List.singleton_append, Tiles]
      refine ⟨b1, b2, b3, ?_, ?_, ?_⟩
      · rw [GET_PUT_other _ _ _ _ (by omega), tagOf_alloc, e0]
        exact GET_PUT_PACK _ _ _ _ b2 b3 (by omega)
      · have : p0 + bsum pre + sz - 4 = bp + sz - 8 := by omega
        rw [this, tagOf_alloc]
        exact GET_PUT_PACK _ _ _ _ b2 b3 (by omega)
      · exact Tiles_PUT_left _ _ _ _ _ _ (Tiles_PUT_left _ _ _ _ _ _ hT3 (by omega)) (by omega)
    · intro a ha
      simp only
      rw [PUT_outside _ _ _ _ (by omega), PUT_outside _ _ _ _ (by omega)]
  · rw [place_split s bp asize sz (by omega) hsz h8 h16 (by omega) b3]
    have hpb : placeBlocks sz asize = [(asize, true), (sz - asize, false)] := by
      simp [placeBlocks, hsplit]
    rw [hpb]
    refine ⟨?_, ?_⟩
    · rw [List.append_assoc, Tiles_append]
      refine ⟨Tiles_PUT_right _ _ _ _ _ _ (Tiles_PUT_right _ _ _ _ _ _ (Tiles_PUT_right _ _ _ _ _ _
        (Tiles_PUT_right _ _ _ _ _ _ hT1 (by omega)) (by omega)) (by omega)) (by omega), ?_⟩
      simp only [List.cons_append, List.nil_append, Tiles]
      refine ⟨by omega, h8, by omega, ?_, ?_, by omega, by omega, by omega, ?_, ?_, ?_⟩
      · rw [GET_PUT_other _ _ _ _ (by omega), GET_PUT_other _ _ _ _ (by omega),
          GET_PUT_other _ _ _ _ (by omega), tagOf_alloc, e0]
        exact GET_PUT_PACK _ _ _ _ h8 (by omega) (by omega)
      · have : p0 + bsum pre + asize - 4 = bp + asize - 8 := by omega
        rw [GET_PUT_other _ _ _ _ (by omega), GET_PUT_other _ _ _ _ (by omega), tagOf_alloc, this]
        exact GET_PUT_PACK _ _ _ _ h8 (by omega) (by omega)
      · have : p0 + bsum pre + asize = bp + asize - 4 := by omega
        rw [GET_PUT_other _ _ _ _ (by omega), tagOf_free, this]
        exact GET_PUT_PACK _ _ _ _ (by omega) (by omega) (by omega)
      · have : p0 + bsum pre + asize + (sz - asize) - 4 = bp + sz - 8 := by omega
        rw [tagOf_free, this]
        exact GET_PUT_PACK _ _ _ _ (by omega) (by omega) (by omega)
      · have : p0 + bsum pre + asize + (sz - asize) = p0 + bsum pre + sz := by omega
        rw [this]
        exact Tiles_PUT_left _ _ _ _ _ _ (Tiles_PUT_left _ _ _ _ _ _ (Tiles_PUT_left _ _ _ _ _ _
          (Tiles_PUT_left _ _ _ _ _ _ hT3 (by omega)) (by omega)) (by omega)) (by omega)
    · intro a ha
      simp only
      rw [PUT_outside _ _ _ _ (by omega), PUT_outside _ _ _ _ (by omega),
        PUT_outside _ _ _ _ (by omega), PUT_outside _ _ _ _ (by omega)]

/-! ## `find_fit` -/

theorem find_fit_loop1_spec (m : Mem) (asize q : Nat) (hq : GET m q = 1) (bs : List Blk) :
    ∀ (h fuel : Nat), Tiles m h bs q → bs.length < fuel →
      (∃ pre sz post, bs = pre ++ (sz, false) :: post ∧ asize ≤ sz ∧
          (∀ b ∈ pre, b.2 = true ∨ b.1 < asize) ∧
          find_fit_loop1 m asize fuel (h + 4) = some (true, h + bsum pre + 4)) ∨
      ((∀ b ∈ bs, b.2 = true ∨ b.1 < asize) ∧
          find_fit_loop1 m asize fuel (h + 4) = some (false, q + 4)) := by
  induction bs with
  | nil =>
    intro h fuel hT hf
    simp only [Tiles] at hT
    subst hT
    right
    refine ⟨by simp, ?_⟩
    obtain ⟨f, rfl⟩ : ∃ f, fuel = f + 1 := ⟨fuel - 1, by simp at hf; omega⟩
    have e : GET m h = tagOf (0, true) := by rw [hq]; rfl
    have hs : GET_SIZE m h = 0 := size_of_tag m h (0, true) e rfl (by unfold U32; omega)
    simp [find_fit_loop1, HDRP, WSIZE, hs]
  | cons b bs ih =>
    intro h fuel hT hf
    simp only [Tiles] at hT
    obtain ⟨b1, b2, b3, b4, b5, hT1⟩ := hT
    obtain ⟨f, rfl⟩ : ∃ f, fuel = f + 1 := ⟨fuel - 1, by simp at hf; omega⟩
    have hs : GET_SIZE m h = b.1 := size_of_tag m h b b4 b2 b3
    have ha : GET_ALLOC m h = if b.2 then 1 else 0 := alloc_of_tag m h b b4 b2
    have hstep : find_fit_loop1 m asize (f + 1) (h + 4) =
        if (if b.2 then 1 else 0) = 0 ∧ asize ≤ b.1 then some (true, h + 4)
        else find_fit_loop1 m asize f (h + b.1 + 4) := by
      have e : h + 4 + b.1 = h + b.1 + 4 := by omega
      simp only [find_fit_loop1, HDRP, NEXT_BLKP, WSIZE, Nat.add_sub_cancel, hs, ha, e]
      rw [if_pos (by omega)]
    by_cases hfit : b.2 = false ∧ asize ≤ b.1
    · left
      obtain ⟨sz, a⟩ := b
      simp only at hfit
      obtain ⟨rfl, hle⟩ := hfit
      refine ⟨[], sz, bs, rfl, hle, by simp, ?_⟩
      rw [hstep]
      simp [bsum, hle]
    · have hno : b.2 = true ∨ b.1 < asize := by
        cases hb : b.2 with
        | true => exact Or.inl rfl
        | false => right; simp [hb] at hfit; exact hfit
      have hstep2 : find_fit_loop1 m asize (f + 1) (h + 4) =
          find_fit_loop1 m asize f (h + b.1 + 4) := by
        rw [hstep, if_neg]
        rintro ⟨h1, h2⟩
        rcases hno with h3 | h3
        · simp [h3] at h1
        · omega
      rcases ih (h + b.1) f hT1 (by simp at hf; omega) with
        ⟨pre, sz, post, e1, e2, e3, e4⟩ | ⟨e1, e2⟩
      · left
        refine ⟨b :: pre, sz, post, by simp [e1], e2, ?_, ?_⟩
        · intro c hc
          rcases List.mem_cons.1 hc with rfl | hc
          · exact hno
          · exact e3 c hc
        · rw [hstep2, e4]
          simp [bsum]; omega
      · right
        refine ⟨?_, by rw [hstep2, e2]⟩
        intro c hc
        rcases List.mem_cons.1 hc with rfl | hc
        · exact hno
        · exact e1 c hc

theorem find_fit_loop2_spec (m : Mem) (asize r : Nat) (bs : List Blk) :
    ∀ (h fuel : Nat), Tiles m h bs r → bs.length < fuel →
      (∃ pre sz post, bs = pre ++ (sz, false) :: post ∧ asize ≤ sz ∧
          (∀ b ∈ pre, b.2 = true ∨ b.1 < asize) ∧
          find_fit_loop2 m asize (r + 4) fuel (h + 4) = some (true, h + bsum pre + 4)) ∨
      ((∀ b ∈ bs, b.2 = true ∨ b.1 < asize) ∧
          find_fit_loop2 m asize (r + 4) fuel (h + 4) = some (false, r + 4)) := by
  induction bs with
  | nil =>
    intro h fuel hT hf
    simp only [Tiles] at hT
    subst hT
    right
    refine ⟨by simp, ?_⟩
    obtain ⟨f, rfl⟩ : ∃ f, fuel = f + 1 := ⟨fuel - 1, by simp at hf; omega⟩
    simp [find_fit_loop2]
  | cons b bs ih =>
    intro h fuel hT hf
    simp only [Tiles] at hT
    obtain ⟨b1, b2, b3, b4, b5, hT1⟩ := hT
    have he := Tiles_end _ _ _ _ hT1
    obtain ⟨f, rfl⟩ : ∃ f, fuel = f + 1 := ⟨fuel - 1, by simp at hf; omega⟩
    have hs : GET_SIZE m h = b.1 := size_of_tag m h b b4 b2 b3
    have ha : GET_ALLOC m h = if b.2 then 1 else 0 := alloc_of_tag m h b b4 b2
    have hstep : find_fit_loop2 m asize (r + 4) (f + 1) (h + 4) =
        if (if b.2 then 1 else 0) = 0 ∧ asize ≤ b.1 then some (true, h + 4)
        else find_fit_loop2 m asize (r + 4) f (h + b.1 + 4) := by
      have e : h + 4 + b.1 = h + b.1 + 4 := by omega
      simp only [find_fit_loop2, HDRP, NEXT_BLKP, WSIZE, Nat.add_sub_cancel, hs, ha, e]
      rw [if_pos (by omega)]
    by_cases hfit : b.2 = false ∧ asize ≤ b.1
    · left
      obtain ⟨sz, a⟩ := b
      simp only at hfit
      obtain ⟨rfl, hle⟩ := hfit
      refine ⟨[], sz, bs, rfl, hle, by simp, ?_⟩
      rw [hstep]
      simp [bsum, hle]
    · have hno : b.2 = true ∨ b.1 < asize := by
        cases hb : b.2 with
        | true => exact Or.inl rfl
        | false => right; simp [hb] at hfit; exact hfit
      have hstep2 : find_fit_loop2 m asize (r + 4) (f + 1) (h + 4) =
          find_fit_loop2 m asize (r + 4) f (h + b.1 + 4) := by
        rw [hstep, if_neg]
        rintro ⟨h1, h2⟩
        rcases hno with h3 | h3
        · simp [h3] at h1
        · omega
      rcases ih (h + b.1) f hT1 (by simp at hf; omega) with
        ⟨pre, sz, post, e1, e2, e3, e4⟩ | ⟨e1, e2⟩
      · left
        refine ⟨b :: pre, sz, post, by simp [e1], e2, ?_, ?_⟩
        · intro c hc
          rcases List.mem_cons.1 hc with rfl | hc
          · exact hno
          · exact e3 c hc
        · rw [hstep2, e4]
          simp [bsum]; omega
      · right
        refine ⟨?_, by rw [hstep2, e2]⟩
        intro c hc
        rcases List.mem_cons.1 hc with rfl | hc
        · exact hno
        · exact e1 c hc

theorem find_fit_spec (s : State) (full : List Blk) (asize : Nat)
    (hT : Tiles s.mem (s.heap_listp - 4) full (s.brk - 4)) (hq : GET s.mem (s.brk - 4) = 1)
    (hc : s.temp ∈ starts (s.heap_listp - 4) full) (ha : asize < U32)
    (hhl : 4 ≤ s.heap_listp) :
    (∃ pre sz post, full = pre ++ (sz, false) :: post ∧ asize ≤ sz ∧
        find_fit s asize = .ok (s.heap_listp - 4 + bsum pre + 4,
          { s with temp := s.heap_listp - 4 + bsum pre + 4 })) ∨
    ((∀ b ∈ full, b.2 = true ∨ b.1 < asize) ∧ find_fit s asize = .ok (0, s)) := by
  obtain ⟨pre, b, post, hfull, htemp⟩ := starts_split full _ _ hc
  subst hfull
  have hsizes := Tiles_sizes _ _ _ _ hT
  have hall8 : ∀ c ∈ pre ++ b :: post, 8 ≤ c.1 := fun c hc => (hsizes c hc).1
  have hlen := bsum_ge _ hall8
  have hend := Tiles_end _ _ _ _ hT
  have hT0 := hT
  rw [Tiles_append] at hT
  obtain ⟨hT1, hT2⟩ := hT
  have hamod : asize % U32 = asize := Nat.mod_eq_of_lt ha
  have hb8 : 8 ≤ b.1 := hall8 b (by simp)
  have hbs : bsum (pre ++ b :: post) = bsum pre + (b.1 + bsum post) := by
    simp [bsum_append, bsum]
  have hl1 : (b :: post).length < s.brk := by
    simp only [List.length_append, List.length_cons] at hlen ⊢; omega
  have hl2 : pre.length < s.brk := by
    simp only [List.length_append, List.length_cons] at hlen; omega
  have htemp' : s.temp = s.heap_listp - 4 + bsum pre + 4 := htemp
  rcases find_fit_loop1_spec s.mem asize (s.brk - 4) hq (b :: post) _ s.brk hT2 hl1 with
    ⟨pre1, sz, post1, e1, e2, _, e4⟩ | ⟨e1, e2⟩
  · left
    refine ⟨pre ++ pre1, sz, post1, by rw [e1]; simp, e2, ?_⟩
    unfold find_fit
    simp only [hamod, htemp', e4, bsum_append]
    have : s.heap_listp - 4 + bsum pre + bsum pre1 + 4 = s.heap_listp - 4 + (bsum pre + bsum pre1) + 4 := by
      omega
    rw [this]
  · rcases find_fit_loop2_spec s.mem asize _ pre _ s.brk hT1 hl2 with
      ⟨pre1, sz, post1, f1, f2, _, f4⟩ | ⟨f1, f2⟩
    · left
      have hh : s.heap_listp - 4 + 4 = s.heap_listp := by omega
      refine ⟨pre1, sz, post1 ++ b :: post, by rw [f1]; simp, f2, ?_⟩
      unfold find_fit
      rw [hh] at f4
      simp only [hamod, htemp', e2, f4]
    · right
      refine ⟨?_, ?_⟩
      · intro c hc
        rcases List.mem_append.1 hc with h | h
        · exact f1 c h
        · exact e1 c h
      · have hh : s.heap_listp - 4 + 4 = s.heap_listp := by omega
        unfold find_fit
        rw [hh] at f2
        simp only [hamod, htemp', e2, f2]
        have : ({ s with temp := s.heap_listp - 4 + bsum pre + 4 } : State) = s := by
          rw [← htemp']
        rw [this]

/-! ## `extend_heap` -/

theorem extend_heap_fail (s : State) (W : Nat) (h8 : W % 8 = 0) (hlt : W < U32)
    (hcap : ¬ s.brk + W ≤ s.lim) : extend_heap s (W / 4) = (0, s) := by
  have e1 : W / 4 % U32 = W / 4 := Nat.mod_eq_of_lt (by omega)
  have e2 : W / 4 % 2 = 0 := by omega
  have e3 : W / 4 * 4 % U32 = W := by
    have : W / 4 * 4 = W := by omega
    rw [this]; exact Nat.mod_eq_of_lt hlt
  unfold extend_heap mem_sbrk
  simp only [e1, e2, WSIZE, e3, ne_eq, not_true_eq_false, if_false, if_neg hcap]

theorem extend_heap_ok (s : State) (W : Nat) (h8 : W % 8 = 0) (h16 : 8 ≤ W) (hlt : W < U32)
    (hcap : s.brk + W ≤ s.lim) (hbrk : 4 ≤ s.brk) :
    extend_heap s (W / 4) = coalesce
      { s with
        brk := s.brk + W
        mem := PUT (PUT (PUT s.mem (s.brk - 4) (PACK W 0)) (s.brk + W - 8) (PACK W 0))
          (s.brk + W - 4) (PACK 0 1) } s.brk := by
  have e1 : W / 4 % U32 = W / 4 := Nat.mod_eq_of_lt (by omega)
  have e2 : W / 4 % 2 = 0 := by omega
  have e3 : W / 4 * 4 % U32 = W := by
    have : W / 4 * 4 = W := by omega
    rw [this]; exact Nat.mod_eq_of_lt hlt
  have e4 : GET_SIZE (PUT s.mem (s.brk - 4) (PACK W 0)) (s.brk - 4) = W :=
    GET_SIZE_PUT_same _ _ _ _ h8 hlt (by omega)
  have e5 : GET_SIZE (PUT (PUT s.mem (s.brk - 4) (PACK W 0)) (s.brk + W - 8) (PACK W 0))
      (s.brk - 4) = W := by
    rw [GET_SIZE_PUT_other _ _ _ _ (by omega)]; exact e4
  unfold extend_heap mem_sbrk
  simp only [e1, e2, WSIZE, DSIZE, e3, ne_eq, not_true_eq_false, if_false, if_pos hcap,
    HDRP, FTRP, NEXT_BLKP, e4, e5]

/-- Facts about a successful `extend_heap` on a heap whose blocks, prologue
included, are `pre ++ [prev]`. -/
theorem extend_heap_spec (s : State) (W : Nat) (pre : List Blk) (prev : Blk)
    (hT : Tiles s.mem (s.heap_listp - 4) (pre ++ [prev]) (s.brk - 4))
    (hhl : 4 ≤ s.heap_listp) (hsmall : s.lim < s.heap_listp + U32)
    (h8 : W % 8 = 0) (h16 : 8 ≤ W) (hcap : s.brk + W ≤ s.lim) :
    Coalesced
      { s with
        brk := s.brk + W
        mem := PUT (PUT (PUT s.mem (s.brk - 4) (PACK W 0)) (s.brk + W - 8) (PACK W 0))
          (s.brk + W - 4) (PACK 0 1) }
      (extend_heap s (W / 4)) (s.heap_listp - 4) (s.brk + W - 4)
      (pre ++ prev :: (W, false) :: []) (merged pre prev W [])
      (s.heap_listp - 4 + bsum (mergedPre pre prev)) (mergedSize prev W []) ∧
    GET (extend_heap s (W / 4)).2.mem (s.brk + W - 4) = 1 ∧
    (∀ a, a < s.heap_listp - 4 + bsum (mergedPre pre prev) →
      (extend_heap s (W / 4)).2.mem a = s.mem a) := by
  have hend := Tiles_end _ _ _ _ hT
  have hsz := Tiles_sizes _ _ _ _ hT
  have hp8 := (hsz prev (by simp)).1
  have hbs : bsum (pre ++ [prev]) = bsum pre + prev.1 := by simp [bsum_append, bsum]
  rw [hbs] at hend
  have hbrk : 4 ≤ s.brk := by omega
  have hWlt : W < U32 := by omega
  rw [extend_heap_ok s W h8 h16 hWlt hcap hbrk]
  set s1 : State :=
    { s with
      brk := s.brk + W
      mem := PUT (PUT (PUT s.mem (s.brk - 4) (PACK W 0)) (s.brk + W - 8) (PACK W 0))
        (s.brk + W - 4) (PACK 0 1) } with hs1
  have hT1 : Tiles s1.mem (s.heap_listp - 4) (pre ++ prev :: (W, false) :: []) (s.brk + W - 4) := by
    have : pre ++ prev :: (W, false) :: [] = (pre ++ [prev]) ++ [(W, false)] := by simp
    rw [this, Tiles_append]
    refine ⟨?_, ?_⟩
    · rw [hbs, ← hend]
      exact Tiles_PUT_right _ _ _ _ _ _ (Tiles_PUT_right _ _ _ _ _ _
        (Tiles_PUT_right _ _ _ _ _ _ hT (by omega)) (by omega)) (by omega)
    · rw [hbs, ← hend, Tiles_single]
      refine ⟨h16, h8, hWlt, ?_, ?_, by simp; omega⟩
      · rw [tagOf_free]
        show GET (PUT (PUT (PUT s.mem (s.brk - 4) (PACK W 0)) (s.brk + W - 8) (PACK W 0))
          (s.brk + W - 4) (PACK 0 1)) (s.brk - 4) = W
        rw [GET_PUT_other _ _ _ _ (by omega), GET_PUT_other _ _ _ _ (by omega)]
        exact GET_PUT_PACK _ _ _ _ h8 hWlt (by omega)
      · rw [tagOf_free]
        show GET (PUT (PUT (PUT s.mem (s.brk - 4) (PACK W 0)) (s.brk + W - 8) (PACK W 0))
          (s.brk + W - 4) (PACK 0 1)) (s.brk - 4 + W - 4) = W
        have : s.brk - 4 + W - 4 = s.brk + W - 8 := by omega
        rw [this, GET_PUT_other _ _ _ _ (by omega)]
        exact GET_PUT_PACK _ _ _ _ h8 hWlt (by omega)
  have hq1 : GET s1.mem (s.brk + W - 4) = 1 := by
    show GET (PUT (PUT (PUT s.mem (s.brk - 4) (PACK W 0)) (s.brk + W - 8) (PACK W 0))
          (s.brk + W - 4) (PACK 0 1)) (s.brk + W - 4) = 1
    have := GET_PUT_PACK (PUT (PUT s.mem (s.brk - 4) (PACK W 0)) (s.brk + W - 8) (PACK W 0))
      (s.brk + W - 4) 0 1 rfl (by unfold U32; omega) (by omega)
    simpa using this
  have hsm : bsum (pre ++ prev :: (W, false) :: []) < U32 := by
    have : bsum (pre ++ prev :: (W, false) :: []) = bsum pre + prev.1 + W := by
      simp [bsum_append, bsum]; omega
    rw [this]; omega
  have hC := coalesce_tiles s1 (s.heap_listp - 4) (s.brk + W - 4) s.brk W pre [] prev hT1 hq1
    (by omega) hsm
  refine ⟨hC, ?_, ?_⟩
  · have hS : mergedSize prev W [] = (if prev.2 then 0 else prev.1) + W := by simp [mergedSize]
    have hlo : s.heap_listp - 4 + bsum (mergedPre pre prev) + (mergedSize prev W []) =
        s.brk + W - 4 := by
      rw [hS]; unfold mergedPre
      split
      · rw [hbs]; omega
      · omega
    rw [GET_congr _ _ _ (fun a h1 h2 => hC.frame a (by omega) (by omega))]
    exact hq1
  · intro a ha
    have hlo : s.heap_listp - 4 + bsum (mergedPre pre prev) ≤ s.brk - 4 := by
      unfold mergedPre
      split
      · rw [hbs]; omega
      · omega
    have hS : 8 ≤ mergedSize prev W [] := by simp [mergedSize]; omega
    rw [hC.frame a (by omega) (by omega)]
    show PUT (PUT (PUT s.mem (s.brk - 4) (PACK W 0)) (s.brk + W - 8) (PACK W 0))
          (s.brk + W - 4) (PACK 0 1) a = s.mem a
    rw [PUT_outside _ _ _ _ (by omega), PUT_outside _ _ _ _ (by omega),
      PUT_outside _ _ _ _ (by omega)]

/-! ## Block-list invariants -/

theorem chain_last_swap {R : Blk → Blk → Prop} (a b : Blk) (h : ∀ c, R c a → R c b) :
    ∀ l : List Blk, List.Chain' R (l ++ [a]) → List.Chain' R (l ++ [b]) := by
  intro l
  induction l with
  | nil => intro _; exact List.chain'_singleton b
  | cons x l ih =>
    intro hc
    cases l with
    | nil =>
      simp only [List.cons_append, List.nil_append, List.chain'_pair] at hc ⊢
      exact h x hc
    | cons y l =>
      simp only [List.cons_append, List.chain'_cons] at hc ⊢
      exact ⟨hc.1, ih hc.2⟩

theorem chain_head_swap {R : Blk → Blk → Prop} (a b : Blk) (h : ∀ c, R a c → R b c)
    (l : List Blk) (hc : List.Chain' R (a :: l)) : List.Chain' R (b :: l) :=
  List.Chain'.imp_head (fun hz => h _ hz) hc

theorem naf_cons_alloc (sz : Nat) (bs : List Blk) :
    NoAdjFree ((sz, true) :: bs) ↔ NoAdjFree bs := by
  unfold NoAdjFree
  cases bs with
  | nil => simp
  | cons b bs => simp [List.chain'_cons]

theorem naf_append_alloc (sz : Nat) (bs : List Blk) (h : NoAdjFree bs) :
    NoAdjFree (bs ++ [(sz, true)]) := by
  unfold NoAdjFree at *
  exact List.Chain'.append h (List.chain'_singleton _) (by intro x _ y hy; simp at hy; simp [← hy])

theorem naf_merged (pre post : List Blk) (prev : Blk) (sz : Nat)
    (h : NoAdjFree (pre ++ prev :: (sz, true) :: post)) :
    NoAdjFree (merged pre prev sz post) := by
  unfold NoAdjFree at *
  rw [List.chain'_append_cons_cons] at h
  obtain ⟨h1, _, h3⟩ := h
  unfold merged
  rw [List.chain'_split]
  refine ⟨?_, ?_⟩
  · unfold mergedPre
    cases hp : prev.2 with
    | true =>
      simp only [if_true, List.append_assoc, List.singleton_append]
      rw [List.chain'_split]
      exact ⟨h1, List.chain'_pair.2 (Or.inl hp)⟩
    | false =>
      simp only [Bool.false_eq_true, if_false]
      refine chain_last_swap prev _ ?_ pre h1
      intro c hc
      rcases hc with hc | hc
      · exact Or.inl hc
      · rw [hp] at hc; cases hc
  · cases post with
    | nil => simp [mergedPost]
    | cons nb rest =>
      obtain ⟨ns, na⟩ := nb
      cases na with
      | true =>
        simp only [mergedPost]
        rw [List.chain'_cons]
        exact ⟨Or.inr rfl, h3.tail⟩
      | false =>
        simp only [mergedPost]
        have h4 : List.Chain' (fun a b : Blk => a.2 = true ∨ b.2 = true) ((ns, false) :: rest) :=
          h3.tail
        exact chain_head_swap (ns, false) (mergedSize prev sz ((ns, false) :: rest), false)
          (fun c hz => hz) rest h4

theorem naf_place (pre post : List Blk) (sz asize : Nat)
    (h : NoAdjFree (pre ++ (sz, false) :: post)) :
    NoAdjFree (pre ++ placeBlocks sz asize ++ post) := by
  unfold NoAdjFree at *
  rw [List.chain'_split] at h
  obtain ⟨h1, h2⟩ := h
  unfold placeBlocks
  split
  · simp only [List.append_assoc, List.singleton_append]
    rw [List.chain'_split]
    exact ⟨chain_last_swap _ _ (fun c _ => Or.inr rfl) pre h1,
      chain_head_swap (sz, false) (sz, true) (fun c _ => Or.inl rfl) post h2⟩
  · simp only [List.append_assoc, List.cons_append, List.nil_append]
    rw [List.chain'_append_cons_cons]
    exact ⟨chain_last_swap _ _ (fun c _ => Or.inr rfl) pre h1, Or.inl rfl,
      chain_head_swap (sz, false) (sz - asize, false) (fun c hz => hz) post h2⟩

theorem mem_mergedPost (post : List Blk) (b : Blk) (h : b ∈ mergedPost post) : b ∈ post := by
  unfold mergedPost at h
  split at h
  · exact List.mem_cons_of_mem _ h
  · exact h

theorem mem_mergedPre (pre : List Blk) (prev b : Blk) (h : b ∈ mergedPre pre prev) :
    b ∈ pre ∨ b = prev := by
  unfold mergedPre at h
  split at h
  · simpa using h
  · exact Or.inl h

theorem le_mergedSize (prev : Blk) (sz : Nat) (post : List Blk) :
    sz ≤ mergedSize prev sz post := by
  unfold mergedSize; omega

theorem mergedPre_cons (c : Blk) (pre : List Blk) (prev : Blk) :
    mergedPre (c :: pre) prev = c :: mergedPre pre prev := by
  unfold mergedPre; split <;> rfl

/-- After merging, the list still starts with the prologue and every other
block is an old block or at least as large as the coalesced block. -/
theorem head_merged (pre post bs0 : List Blk) (prev x : Blk) (sz : Nat)
    (h : pre ++ prev :: x :: post = (8, true) :: bs0) :
    ∃ bs1, merged pre prev sz post = (8, true) :: bs1 ∧
      ∀ b ∈ bs1, b ∈ bs0 ∨ sz ≤ b.1 := by
  cases pre with
  | nil =>
    simp only [List.nil_append, List.cons.injEq] at h
    obtain ⟨rfl, rfl⟩ := h
    refine ⟨(mergedSize (8, true) sz post, false) :: mergedPost post,
      by simp [merged, mergedPre], ?_⟩
    intro b hb
    rcases List.mem_cons.1 hb with rfl | hb
    · exact Or.inr (le_mergedSize _ _ _)
    · have := mem_mergedPost _ _ hb
      exact Or.inl (by simp [this])
  | cons c pre =>
    simp only [List.cons_append, List.cons.injEq] at h
    obtain ⟨rfl, rfl⟩ := h
    refine ⟨merged pre prev sz post, by simp [merged, mergedPre_cons], ?_⟩
    intro b hb
    unfold merged at hb
    rcases List.mem_append.1 hb with hb | hb
    · rcases mem_mergedPre _ _ _ hb with h1 | h1
      · exact Or.inl (by simp [h1])
      · exact Or.inl (by simp [h1])
    · rcases List.mem_cons.1 hb with rfl | hb
      · exact Or.inr (le_mergedSize _ _ _)
      · have := mem_mergedPost _ _ hb
        exact Or.inl (by simp [this])

/-- After placing, the list still starts with the prologue and every other
block is an old block or one of the placed blocks. -/
theorem head_place (pre post bs0 : List Blk) (sz asize : Nat)
    (h : pre ++ (sz, false) :: post = (8, true) :: bs0) :
    ∃ bs1, pre ++ placeBlocks sz asize ++ post = (8, true) :: bs1 ∧
      ∀ b ∈ bs1, b ∈ bs0 ∨ b ∈ placeBlocks sz asize := by
  cases pre with
  | nil =>
    simp only [List.nil_append, List.cons.injEq, Prod.mk.injEq] at h
    simp at h
  | cons c pre =>
    simp only [List.cons_append, List.cons.injEq] at h
    obtain ⟨rfl, rfl⟩ := h
    refine ⟨pre ++ placeBlocks sz asize ++ post, by simp, ?_⟩
    intro b hb
    simp only [List.mem_append] at hb
    rcases hb with (hb | hb) | hb
    · exact Or.inl (by simp [hb])
    · exact Or.inr hb
    · exact Or.inl (by simp [hb])

theorem placeBlocks_size (sz asize : Nat) (h16 : 16 ≤ asize) (hle : asize ≤ sz) :
    ∀ b ∈ placeBlocks sz asize, 16 ≤ b.1 := by
  intro b hb
  unfold placeBlocks at hb
  split at hb
  · simp at hb; subst hb; simp; omega
  · simp at hb
    rcases hb with rfl | rfl
    · exact h16
    · simp; omega

/-! ## `mm_free` -/

theorem starts_flag (xs ys : List Blk) (sz : Nat) (a b : Bool) (p : Nat) :
    starts p (xs ++ (sz, a) :: ys) = starts p (xs ++ (sz, b) :: ys) := by
  rw [starts_append, starts_append, starts_cons, starts_cons]

/-- Rewriting both tags of one block. -/
theorem Tiles_retag (m : Mem) (p0 q bp sz : Nat) (a b : Bool) (pre post : List Blk)
    (hT : Tiles m p0 (pre ++ (sz, a) :: post) q) (hbp : bp = p0 + bsum pre + 4) :
    Tiles (PUT (PUT m (bp - 4) (PACK sz (if b then 1 else 0))) (bp + sz - 8)
      (PACK sz (if b then 1 else 0))) p0 (pre ++ (sz, b) :: post) q := by
  rw [Tiles_append] at hT ⊢
  obtain ⟨hT1, hT2⟩ := hT
  simp only [Tiles] at hT2 ⊢
  obtain ⟨b1, b2, b3, _, _, hT3⟩ := hT2
  have hf : (if b then 1 else 0) ≤ 1 := by split <;> omega
  have ht : tagOf (sz, b) = sz + (if b then 1 else 0) := rfl
  refine ⟨Tiles_PUT_right _ _ _ _ _ _ (Tiles_PUT_right _ _ _ _ _ _ hT1 (by omega)) (by omega),
    b1, b2, b3, ?_, ?_, ?_⟩
  · have : p0 + bsum pre = bp - 4 := by omega
    rw [this, GET_PUT_other _ _ _ _ (by omega), ht]
    exact GET_PUT_PACK _ _ _ _ b2 b3 hf
  · have : p0 + bsum pre + sz - 4 = bp + sz - 8 := by omega
    rw [this, ht]
    exact GET_PUT_PACK _ _ _ _ b2 b3 hf
  · exact Tiles_PUT_left _ _ _ _ _ _ (Tiles_PUT_left _ _ _ _ _ _ hT3 (by omega)) (by omega)

theorem mm_free_eq (s : State) (bp sz : Nat) (hsz : GET_SIZE s.mem (bp - 4) = sz) :
    mm_free s bp = (coalesce
      { s with mem := PUT (PUT s.mem (bp - 4) (PACK sz 0)) (bp + sz - 8) (PACK sz 0) } bp).2 := by
  have h8 : sz % 8 = 0 := by rw [← hsz]; exact GET_SIZE_mod8 _ _
  have hlt : sz < U32 := by rw [← hsz]; exact GET_SIZE_lt _ _
  have e1 : GET_SIZE (PUT s.mem (bp - 4) (PACK sz 0)) (bp - 4) = sz :=
    GET_SIZE_PUT_same _ _ _ _ h8 hlt (by omega)
  unfold mm_free
  simp only [HDRP, FTRP, WSIZE, DSIZE, hsz, e1]

/-- A list that starts with the prologue ends with some block. -/
theorem exists_last (c : Blk) (l : List Blk) : ∃ pre prev, c :: l = pre ++ [prev] := by
  rcases List.eq_nil_or_concat (c :: l) with h | ⟨L, b, h⟩
  · cases h
  · exact ⟨L, b, by rw [h, List.concat_eq_append]⟩

/-- The epilogue header survives coalescing. -/
theorem coalesced_epi (s1 : State) (r : Nat × State) (p0 q : Nat) (old : List Blk)
    (pre post : List Blk) (prev : Blk) (sz : Nat)
    (hC : Coalesced s1 r p0 q old (merged pre prev sz post) (p0 + bsum (mergedPre pre prev))
      (mergedSize prev sz post)) (hq : GET s1.mem q = 1) : GET r.2.mem q = 1 := by
  have hend := Tiles_end _ _ _ _ hC.tiles
  have hS := (Tiles_sizes _ _ _ _ hC.tiles (mergedSize prev sz post, false)
    (by simp [merged])).1
  simp only at hS
  unfold merged at hend
  rw [bsum_append, bsum_cons] at hend
  simp only at hend
  rw [GET_congr _ _ _ (fun a h1 h2 => hC.frame a (by omega) (by omega))]
  exact hq

/-- The effect of `mm_free` on the block list. -/
theorem mm_free_tiles (s : State) (p0 q bp sz : Nat) (pre post : List Blk) (prev : Blk)
    (hT : Tiles s.mem p0 (pre ++ prev :: (sz, true) :: post) q) (hq : GET s.mem q = 1)
    (hbp : bp = p0 + bsum pre + prev.1 + 4)
    (hsmall : bsum (pre ++ prev :: (sz, true) :: post) < U32) :
    ∃ r, mm_free s bp = r.2 ∧
    Coalesced
      { s with mem := PUT (PUT s.mem (bp - 4) (PACK sz 0)) (bp + sz - 8) (PACK sz 0) }
      r p0 q (pre ++ prev :: (sz, false) :: post)
      (merged pre prev sz post) (p0 + bsum (mergedPre pre prev)) (mergedSize prev sz post) ∧
    GET (mm_free s bp).mem q = 1 ∧
    (∀ a, (a < p0 + bsum (mergedPre pre prev) ∨
        p0 + bsum (mergedPre pre prev) + mergedSize prev sz post ≤ a) →
      (mm_free s bp).mem a = s.mem a) := by
  have hsz0 := Tiles_sizes _ _ _ _ hT
  have hszb := hsz0 (sz, true) (by simp)
  have hT' : Tiles s.mem p0 ((pre ++ [prev]) ++ (sz, true) :: post) q := by simpa using hT
  have hbs : bsum (pre ++ [prev]) = bsum pre + prev.1 := by simp [bsum_append, bsum]
  have hR := Tiles_retag s.mem p0 q bp sz true false (pre ++ [prev]) post hT' (by rw [hbs]; omega)
  simp only [Bool.false_eq_true, if_false, List.append_assoc, List.singleton_append] at hR
  have hend := Tiles_end _ _ _ _ hT
  have hbsum : bsum (pre ++ prev :: (sz, true) :: post) = bsum pre + (prev.1 + (sz + bsum post)) := by
    simp [bsum_append, bsum]
  have hbsum' : bsum (pre ++ prev :: (sz, false) :: post) = bsum pre + (prev.1 + (sz + bsum post)) := by
    simp [bsum_append, bsum]
  have hsz : GET_SIZE s.mem (bp - 4) = sz := by
    rw [Tiles_append] at hT'
    have h2 := hT'.2
    simp only [Tiles] at h2
    have : p0 + bsum (pre ++ [prev]) = bp - 4 := by rw [hbs]; omega
    rw [this] at h2
    exact size_of_tag _ _ _ h2.2.2.2.1 h2.2.1 h2.2.2.1
  set s1 : State :=
    { s with mem := PUT (PUT s.mem (bp - 4) (PACK sz 0)) (bp + sz - 8) (PACK sz 0) } with hs1
  have hq1 : GET s1.mem q = 1 := by
    show GET (PUT (PUT s.mem (bp - 4) (PACK sz 0)) (bp + sz - 8) (PACK sz 0)) q = 1
    rw [GET_PUT_other _ _ _ _ (by omega), GET_PUT_other _ _ _ _ (by omega)]; exact hq
  have hC := coalesce_tiles s1 p0 q bp sz pre post prev hR hq1 hbp (by rw [hbsum']; omega)
  have hfree : mm_free s bp = (coalesce s1 bp).2 := mm_free_eq s bp sz hsz
  refine ⟨coalesce s1 bp, hfree, hC, ?_, ?_⟩
  · rw [hfree]; exact coalesced_epi s1 _ p0 q _ pre post prev sz hC hq1
  · intro a ha
    have hlo : p0 + bsum (mergedPre pre prev) ≤ bp - 4 := by
      unfold mergedPre
      split
      · rw [hbs]; omega
      · omega
    have hS : bp - 4 + sz ≤ p0 + bsum (mergedPre pre prev) + mergedSize prev sz post := by
      unfold mergedPre mergedSize
      split
      · rw [hbs]; omega
      · omega
    rw [hfree, hC.frame a (by omega) (by omega)]
    show PUT (PUT s.mem (bp - 4) (PACK sz 0)) (bp + sz - 8) (PACK sz 0) a = s.mem a
    rw [PUT_outside _ _ _ _ (by omega), PUT_outside _ _ _ _ (by omega)]

theorem coalesced_fields (s1 : State) (r : Nat × State) (p0 q : Nat) (old new : List Blk)
    (lo S : Nat) (hC : Coalesced s1 r p0 q old new lo S) :
    r.2.brk = s1.brk ∧ r.2.lim = s1.lim ∧ r.2.heap_listp = s1.heap_listp :=
  ⟨hC.brk, hC.lim, hC.hl⟩

/-- The effect of `mm_free` on a heap. -/
theorem mm_free_heap (s : State) (bs : List Blk) (p sz : Nat) (hH : Heap s bs)
    (hB : BlockAt s.heap_listp bs p sz true) :
    ∃ pre prev post bs1, (8, true) :: bs = pre ++ prev :: (sz, true) :: post ∧
      p = s.heap_listp - 4 + bsum pre + prev.1 + 4 ∧
      merged pre prev sz post = (8, true) :: bs1 ∧
      Heap (mm_free s p) bs1 ∧
      (CursorOK s bs → CursorOK (mm_free s p) bs1) ∧
      (∀ a, (a < s.heap_listp - 4 + bsum (mergedPre pre prev) ∨
          s.heap_listp - 4 + bsum (mergedPre pre prev) + mergedSize prev sz post ≤ a) →
        (mm_free s p).mem a = s.mem a) := by
  obtain ⟨pre0, post, hbs, hp⟩ := hB
  obtain ⟨pre, prev, hpre⟩ := exists_last (8, true) pre0
  have hfull : (8, true) :: bs = pre ++ prev :: (sz, true) :: post := by
    rw [hbs, ← List.cons_append, hpre]; simp
  have hsum : bsum pre + prev.1 = 8 + bsum pre0 := by
    have := congrArg bsum hpre
    simp [bsum_append, bsum] at this
    omega
  have hhl := hH.hl8
  have hbp : p = s.heap_listp - 4 + bsum pre + prev.1 + 4 := by omega
  have hT := hH.tiles
  rw [hfull] at hT
  have hend := Tiles_end _ _ _ _ hT
  have hsmall : bsum (pre ++ prev :: (sz, true) :: post) < U32 := by
    have h1 := hH.cap
    have h2 := hH.small
    omega
  obtain ⟨r, hr, hC, hq, hf⟩ := mm_free_tiles s (s.heap_listp - 4) (s.brk - 4) p sz pre post prev
    hT hH.epi hbp hsmall
  obtain ⟨bs1, hm, _⟩ := head_merged pre post bs prev (sz, true) sz hfull.symm
  obtain ⟨f1, f2, f3⟩ := coalesced_fields _ _ _ _ _ _ _ _ hC
  simp only at f1 f2 f3
  have g1 : (mm_free s p).brk = s.brk := by rw [hr]; exact f1
  have g2 : (mm_free s p).lim = s.lim := by rw [hr]; exact f2
  have g3 : (mm_free s p).heap_listp = s.heap_listp := by rw [hr]; exact f3
  refine ⟨pre, prev, post, bs1, hfull, hbp, hm, ?_, ?_, hf⟩
  · refine ⟨?_, ?_, ?_, ?_, ?_⟩
    · rw [g3]; exact hhl
    · rw [← hm, g3, g1, hr]; exact hC.tiles
    · rw [g1]; exact hq
    · rw [g1, g2]; exact hH.cap
    · rw [g2, g3]; exact hH.small
  · intro hc
    unfold CursorOK at *
    rw [← hm, g3, hr]
    apply hC.cursor
    show s.temp ∈ _
    have e1 : pre ++ prev :: (sz, false) :: post = (pre ++ [prev]) ++ (sz, false) :: post := by
      simp
    have e2 : (pre ++ [prev]) ++ (sz, true) :: post = (8, true) :: bs := by rw [hfull]; simp
    rw [e1, starts_flag _ _ sz false true, e2]; exact hc

theorem mm_free_inv (s : State) (p : Nat) (hI : Inv s) (hA : Allocated s p) :
    Inv (mm_free s p) := by
  obtain ⟨bs, hH, h16, hc, hn⟩ := hI
  obtain ⟨bs2, sz, hH2, hB⟩ := hA
  have hbs : bs2 = bs := by
    have := Tiles_unique _ _ _ _ _ hH2.tiles hH.tiles
    simpa using this
  subst hbs
  obtain ⟨pre, prev, post, bs1, hfull, hbp, hm, hH1, hc1, _⟩ := mm_free_heap s bs2 p sz hH2 hB
  obtain ⟨bs3, hm3, hmem⟩ := head_merged pre post bs2 prev (sz, true) sz hfull.symm
  have e : bs3 = bs1 := by rw [hm] at hm3; simpa using hm3.symm
  subst e
  have hsz16 : 16 ≤ sz := by
    obtain ⟨pre0, post0, hb, _⟩ := hB
    exact h16 (sz, true) (by rw [hb]; simp)
  refine ⟨bs3, hH1, ?_, hc1 hc, ?_⟩
  · intro b hb
    rcases hmem b hb with h | h
    · exact h16 b h
    · omega
  · have h1 : NoAdjFree ((8, true) :: bs2) := (naf_cons_alloc 8 bs2).2 hn
    rw [hfull] at h1
    have h2 := naf_merged pre post prev sz h1
    rw [hm] at h2
    exact (naf_cons_alloc 8 bs3).1 h2

/-! ## `place` on a heap -/

theorem starts_place (pre post : List Blk) (sz asize p x : Nat) (hle : asize ≤ sz)
    (h : x ∈ starts p (pre ++ (sz, false) :: post)) :
    x ∈ starts p (pre ++ placeBlocks sz asize ++ post) := by
  rw [starts_append, starts_cons] at h
  rw [List.append_assoc, starts_append]
  simp only [List.mem_append, List.mem_cons] at h ⊢
  unfold placeBlocks
  split
  · simp only [List.singleton_append, starts_cons, List.mem_cons]
    exact h
  · simp only [List.cons_append, List.nil_append, starts_cons, List.mem_cons]
    have : p + bsum pre + asize + (sz - asize) = p + bsum pre + sz := by omega
    simp only [this]
    tauto

/-- First block left by `place`: allocated, at least `asize` bytes. -/
theorem placeBlocks_head (sz asize : Nat) (hle : asize ≤ sz) :
    ∃ S rest, placeBlocks sz asize = (S, true) :: rest ∧ asize ≤ S ∧ S ≤ sz ∧
      bsum ((S, true) :: rest) = sz := by
  unfold placeBlocks
  split
  · exact ⟨sz, [], rfl, hle, le_refl _, by simp [bsum]⟩
  · exact ⟨asize, [(sz - asize, false)], rfl, le_refl _, hle, by simp [bsum]; omega⟩

/-- The effect of `place` on a heap: `bp` is the free block of size `sz` that
follows `pre`. -/
theorem place_heap (s : State) (bs : List Blk) (pre post : List Blk) (bp sz asize : Nat)
    (hH : Heap s bs) (hfull : (8, true) :: bs = pre ++ (sz, false) :: post)
    (hbp : bp = s.heap_listp - 4 + bsum pre + 4)
    (h8 : asize % 8 = 0) (h16 : 16 ≤ asize) (hle : asize ≤ sz) :
    ∃ bs1, pre ++ placeBlocks sz asize ++ post = (8, true) :: bs1 ∧
      Heap (place s bp asize) bs1 ∧
      (∀ b ∈ bs1, b ∈ bs ∨ b ∈ placeBlocks sz asize) ∧
      (NoAdjFree bs → NoAdjFree bs1) ∧
      (∀ x, x ∈ starts (s.heap_listp - 4) ((8, true) :: bs) →
        x ∈ starts (s.heap_listp - 4) ((8, true) :: bs1)) ∧
      bp ∈ starts (s.heap_listp - 4) ((8, true) :: bs1) ∧
      (∃ S, BlockAt s.heap_listp bs1 bp S true ∧ asize ≤ S ∧ S ≤ sz) ∧
      (∀ a, a < bp - 4 ∨ bp - 4 + sz ≤ a → (place s bp asize).mem a = s.mem a) := by
  have hT := hH.tiles
  rw [hfull] at hT
  obtain ⟨hT1, hfr⟩ := place_tiles s (s.heap_listp - 4) (s.brk - 4) bp sz asize pre post hT hbp
    h8 h16 hle
  obtain ⟨f1, f2, f3, f4⟩ := place_fields s bp asize
  obtain ⟨bs1, hm, hmem⟩ := head_place pre post bs sz asize hfull.symm
  have hend := Tiles_end _ _ _ _ hT
  have hbsum : bsum (pre ++ (sz, false) :: post) = bsum pre + (sz + bsum post) := by
    simp [bsum_append, bsum]
  rw [hbsum] at hend
  have hhl := hH.hl8
  refine ⟨bs1, hm, ?_, hmem, ?_, ?_, ?_, ?_, hfr⟩
  · refine ⟨by rw [f3]; exact hhl, ?_, ?_, by rw [f1, f2]; exact hH.cap,
      by rw [f2, f3]; exact hH.small⟩
    · rw [f3, f1, ← hm]; exact hT1
    · rw [f1, GET_congr _ _ _ (fun a h1 h2 => hfr a (by omega))]; exact hH.epi
  · intro hn
    have h1 : NoAdjFree ((8, true) :: bs) := (naf_cons_alloc 8 bs).2 hn
    rw [hfull] at h1
    have h2 := naf_place pre post sz asize h1
    rw [hm] at h2
    exact (naf_cons_alloc 8 bs1).1 h2
  · intro x hx
    rw [hfull] at hx
    rw [← hm]
    exact starts_place pre post sz asize _ x hle hx
  · obtain ⟨S, rest, hp, _, _, _⟩ := placeBlocks_head sz asize hle
    rw [← hm, hp, hbp, List.append_assoc, List.cons_append]
    exact starts_mem_of_split pre (rest ++ post) (S, true) _
  · obtain ⟨S, rest, hp, h1, h2, _⟩ := placeBlocks_head sz asize hle
    refine ⟨S, ?_, h1, h2⟩
    cases pre with
    | nil => simp at hfull
    | cons c pre1 =>
      simp only [List.cons_append, List.cons.injEq] at hfull hm
      obtain ⟨hc, _⟩ := hfull
      subst hc
      refine ⟨pre1, rest ++ post, ?_, ?_⟩
      · rw [← hm.2, hp]; simp
      · rw [hbp]; simp [bsum]; omega

/-! ## `mm_malloc` -/

theorem adjust_facts (n : Nat) (h1 : 1 ≤ n) (h2 : n ≤ MAXREQ) :
    16 ≤ adjust n ∧ adjust n % 8 = 0 ∧ n + 8 ≤ adjust n ∧ adjust n < n + 16 ∧
      adjust n < 2147483648 := by
  unfold MAXREQ at h2
  unfold adjust DSIZE U32
  split <;> omega

theorem max_chunk (a : Nat) (h : a < 2147483648) :
    (MAX (toInt a) (CHUNKSIZE : Nat)).toNat = if 4096 < a then a else 4096 := by
  have e : a % U32 = a := Nat.mod_eq_of_lt (by unfold U32; omega)
  unfold MAX toInt CHUNKSIZE
  rw [e, if_pos h]
  split
  · rename_i hgt
    have : 4096 < a := by exact_mod_cast hgt
    rw [if_pos this]; simp
  · rename_i hgt
    have : ¬ 4096 < a := by
      intro h'; apply hgt; exact_mod_cast h'
    rw [if_neg this]; simp

/-- Unfolding `mm_malloc` when a fit is found. -/
theorem mm_malloc_found (s s1 : State) (n bp : Nat) (h1 : 1 ≤ n) (h2 : n < U32)
    (hf : find_fit s (adjust n) = .ok (bp, s1)) (hbp : bp ≠ 0) :
    mm_malloc s n = .ok (bp, place s1 bp (adjust n)) := by
  have e : n % U32 = n := Nat.mod_eq_of_lt h2
  unfold mm_malloc
  simp only [e, hf]
  rw [if_neg (by omega), if_pos hbp]

/-- Unfolding `mm_malloc` when no fit is found. -/
theorem mm_malloc_extend (s s1 : State) (n : Nat) (h1 : 1 ≤ n) (h2 : n ≤ MAXREQ)
    (hf : find_fit s (adjust n) = .ok (0, s1)) :
    mm_malloc s n =
      if (extend_heap s1 ((if 4096 < adjust n then adjust n else 4096) / 4)).1 = 0 then
        .ok (0, (extend_heap s1 ((if 4096 < adjust n then adjust n else 4096) / 4)).2)
      else .ok ((extend_heap s1 ((if 4096 < adjust n then adjust n else 4096) / 4)).1,
        place (extend_heap s1 ((if 4096 < adjust n then adjust n else 4096) / 4)).2
          (extend_heap s1 ((if 4096 < adjust n then adjust n else 4096) / 4)).1 (adjust n)) := by
  have e : n % U32 = n := Nat.mod_eq_of_lt (by unfold MAXREQ at h2; unfold U32; omega)
  have hm := max_chunk (adjust n) (adjust_facts n h1 h2).2.2.2.2
  unfold mm_malloc
  simp only [e, hf, hm, WSIZE]
  rw [if_neg (by omega)]
  simp

theorem Heap_temp (s : State) (bs : List Blk) (t : Nat) (hH : Heap s bs) :
    Heap { s with temp := t } bs :=
  ⟨hH.hl8, hH.tiles, hH.epi, hH.cap, hH.small⟩

/-- The effect of a successful `extend_heap` on a heap. -/
theorem extend_heap_heap (s : State) (bs : List Blk) (W : Nat) (hH : Heap s bs)
    (h8 : W % 8 = 0) (h16 : 16 ≤ W) (hcap : s.brk + W ≤ s.lim) :
    ∃ bs1 pre S, (8, true) :: bs1 = pre ++ (S, false) :: [] ∧
      Heap (extend_heap s (W / 4)).2 bs1 ∧
      (extend_heap s (W / 4)).1 = s.heap_listp - 4 + bsum pre + 4 ∧
      W ≤ S ∧
      (extend_heap s (W / 4)).2.heap_listp = s.heap_listp ∧
      (extend_heap s (W / 4)).2.lim = s.lim ∧
      (extend_heap s (W / 4)).2.brk = s.brk + W ∧
      (CursorOK s bs → CursorOK (extend_heap s (W / 4)).2 bs1) ∧
      ((∀ b ∈ bs, 16 ≤ b.1) → ∀ b ∈ bs1, 16 ≤ b.1) ∧
      (NoAdjFree bs → NoAdjFree bs1) ∧
      (∀ b ∈ pre, b ∈ (8, true) :: bs) ∧
      (∀ a, a < s.heap_listp - 4 + bsum pre → (extend_heap s (W / 4)).2.mem a = s.mem a) := by
  obtain ⟨pre, prev, hpre⟩ := exists_last (8, true) bs
  have hT := hH.tiles
  rw [hpre] at hT
  have hhl := hH.hl8
  obtain ⟨hC, hq, hfr⟩ := extend_heap_spec s W pre prev hT (by omega) hH.small h8 (by omega) hcap
  have hfull0 : pre ++ prev :: (W, false) :: [] = (8, true) :: (bs ++ [(W, false)]) := by
    rw [← List.cons_append, hpre]; simp
  obtain ⟨bs1, hm, hmem⟩ := head_merged pre [] (bs ++ [(W, false)]) prev (W, false) W hfull0
  obtain ⟨f1, f2, f3⟩ := coalesced_fields _ _ _ _ _ _ _ _ hC
  simp only at f1 f2 f3
  have hmp : mergedPost ([] : List Blk) = [] := rfl
  refine ⟨bs1, mergedPre pre prev, mergedSize prev W [], ?_, ?_, ?_, le_mergedSize _ _ _,
    f3, f2, f1, ?_, ?_, ?_, ?_, hfr⟩
  · rw [← hm]; unfold merged; rw [hmp]
  · refine ⟨by rw [f3]; exact hhl, ?_, ?_, by rw [f1, f2]; exact hcap, by rw [f2, f3]; exact hH.small⟩
    · rw [f3, f1, ← hm]; exact hC.tiles
    · rw [f1]; exact hq
  · exact hC.ptr
  · intro hc
    unfold CursorOK at *
    rw [f3, ← hm]
    apply hC.cursor
    show s.temp ∈ _
    rw [hpre] at hc
    have : pre ++ prev :: (W, false) :: [] = (pre ++ [prev]) ++ [(W, false)] := by simp
    rw [this, starts_append]
    exact List.mem_append_left _ hc
  · intro hall b hb
    rcases hmem b hb with h | h
    · rcases List.mem_append.1 h with h | h
      · exact hall b h
      · simp at h; subst h; exact h16
    · omega
  · intro hn
    have h1 : NoAdjFree ((8, true) :: (bs ++ [(W, true)])) :=
      (naf_cons_alloc 8 _).2 (naf_append_alloc W bs hn)
    have h2 : (8, true) :: (bs ++ [(W, true)]) = pre ++ prev :: (W, true) :: [] := by
      rw [← List.cons_append, hpre]; simp
    rw [h2] at h1
    have h3 := naf_merged pre [] prev W h1
    rw [hm] at h3
    exact (naf_cons_alloc 8 bs1).1 h3
  · intro b hb
    rw [hpre]
    rcases mem_mergedPre _ _ _ hb with h | h
    · exact List.mem_append_left _ h
    · simp [h]

/-- The effect of `mm_malloc` on a heap with a valid cursor. -/
theorem mm_malloc_heap (s : State) (bs : List Blk) (n : Nat) (hH : Heap s bs)
    (hc : CursorOK s bs) (h1 : 1 ≤ n) (h2 : n ≤ MAXREQ) :
    ∃ p s1 bs1, mm_malloc s n = .ok (p, s1) ∧ Heap s1 bs1 ∧ CursorOK s1 bs1 ∧
      ((∀ b ∈ bs, 16 ≤ b.1) → ∀ b ∈ bs1, 16 ≤ b.1) ∧
      (NoAdjFree bs → NoAdjFree bs1) ∧
      s1.heap_listp = s.heap_listp ∧ s1.lim = s.lim ∧
      ((p = 0 ∧ s1 = s) ∨ (∃ S, BlockAt s1.heap_listp bs1 p S true ∧ adjust n ≤ S)) := by
  obtain ⟨a16, a8, age, alt, asm⟩ := adjust_facts n h1 h2
  have hhl := hH.hl8
  have hnlt : n < U32 := by unfold MAXREQ at h2; unfold U32; omega
  rcases find_fit_spec s ((8, true) :: bs) (adjust n) hH.tiles hH.epi hc
      (by unfold U32; omega) (by omega) with ⟨pre, sz, post, hfull, hle, hff⟩ | ⟨hno, hff⟩
  · -- a fit is found
    set bp := s.heap_listp - 4 + bsum pre + 4 with hbp
    have hmm := mm_malloc_found s _ n bp h1 hnlt hff (by omega)
    have hH1 : Heap { s with temp := bp } bs := Heap_temp s bs bp hH
    obtain ⟨bs1, hm, hHp, hmem, hnaf, hst, hbpin, ⟨S, hB, hS1, hS2⟩, hfr⟩ :=
      place_heap { s with temp := bp } bs pre post bp sz (adjust n) hH1 hfull hbp a8 a16 hle
    obtain ⟨f1, f2, f3, f4⟩ := place_fields { s with temp := bp } bp (adjust n)
    simp only at f1 f2 f3 f4
    refine ⟨bp, _, bs1, hmm, hHp, ?_, ?_, hnaf, f3, f2, Or.inr ⟨S, ?_, hS1⟩⟩
    · unfold CursorOK
      rw [f3, f4]; exact hbpin
    · intro hall b hb
      rcases hmem b hb with h | h
      · exact hall b h
      · exact placeBlocks_size sz (adjust n) a16 hle b h
    · rw [f3]; exact hB
  · -- no fit: extend the heap
    have hmm := mm_malloc_extend s s n h1 h2 hff
    set W := (if 4096 < adjust n then adjust n else 4096) with hW
    have hW8 : W % 8 = 0 := by rw [hW]; split <;> omega
    have hW16 : 16 ≤ W := by rw [hW]; split <;> omega
    have hWa : adjust n ≤ W := by rw [hW]; split <;> omega
    have hWlt : W < U32 := by rw [hW]; unfold U32; split <;> omega
    by_cases hcap : s.brk + W ≤ s.lim
    · obtain ⟨bsx, pre, S, hfx, hHx, hptr, hWS, g3, g2, g1, hcx, h16x, hnx, _, hfrx⟩ :=
        extend_heap_heap s bs W hH hW8 hW16 hcap
      set r := extend_heap s (W / 4) with hr
      have hr1 : r.1 ≠ 0 := by rw [hptr]; omega
      rw [if_neg hr1] at hmm
      have hbp : r.1 = r.2.heap_listp - 4 + bsum pre + 4 := by rw [g3]; exact hptr
      obtain ⟨bs1, hm, hHp, hmem, hnaf, hst, hbpin, ⟨S1, hB, hS1, hS2⟩, hfr⟩ :=
        place_heap r.2 bsx pre [] r.1 S (adjust n) hHx hfx hbp a8 a16 (by omega)
      obtain ⟨f1, f2, f3, f4⟩ := place_fields r.2 r.1 (adjust n)
      refine ⟨r.1, _, bs1, hmm, hHp, ?_, ?_, fun h => hnaf (hnx h), by rw [f3, g3],
        by rw [f2, g2], Or.inr ⟨S1, ?_, hS1⟩⟩
      · unfold CursorOK
        rw [f3, f4]
        exact hst _ (hcx hc)
      · intro hall b hb
        rcases hmem b hb with h | h
        · exact h16x hall b h
        · exact placeBlocks_size S (adjust n) a16 (by omega) b h
      · rw [f3]; exact hB
    · have hfail := extend_heap_fail s W hW8 hWlt hcap
      rw [hfail] at hmm
      simp only [if_true] at hmm
      exact ⟨0, s, bs, hmm, hH, hc, fun h => h, fun h => h, rfl, rfl, Or.inl ⟨rfl, rfl⟩⟩

theorem mm_malloc_inv (s s1 : State) (n p : Nat) (hI : Inv s) (h1 : 1 ≤ n) (h2 : n ≤ MAXREQ)
    (hm : mm_malloc s n = .ok (p, s1)) : Inv s1 := by
  obtain ⟨bs, hH, h16, hc, hn⟩ := hI
  obtain ⟨p1, s2, bs1, hmm, hH1, hc1, h16', hn', _⟩ := mm_malloc_heap s bs n hH hc h1 h2
  rw [hm] at hmm
  simp only [Except.ok.injEq, Prod.mk.injEq] at hmm
  obtain ⟨_, rfl⟩ := hmm
  exact ⟨bs1, hH1, h16' h16, hc1, hn' hn⟩

/-! ## `mm_init` -/

/-- The state in which `mm_init` calls `extend_heap`. -/
theorem mm_init_eq (m : Mem) (base lim : Nat) (hcap : base + 16 ≤ lim) :
    mm_init (fresh m base lim) =
      (if (extend_heap
          { mem := PUT (PUT (PUT (PUT m base 0) (base + 4) (PACK 8 1)) (base + 8) (PACK 8 1))
              (base + 12) (PACK 0 1)
            brk := base + 16, lim := lim, heap_listp := base + 8, temp := base + 8 }
          (4096 / 4)).1 = 0
       then (-1, (extend_heap
          { mem := PUT (PUT (PUT (PUT m base 0) (base + 4) (PACK 8 1)) (base + 8) (PACK 8 1))
              (base + 12) (PACK 0 1)
            brk := base + 16, lim := lim, heap_listp := base + 8, temp := base + 8 }
          (4096 / 4)).2)
       else (0, (extend_heap
          { mem := PUT (PUT (PUT (PUT m base 0) (base + 4) (PACK 8 1)) (base + 8) (PACK 8 1))
              (base + 12) (PACK 0 1)
            brk := base + 16, lim := lim, heap_listp := base + 8, temp := base + 8 }
          (4096 / 4)).2)) := by
  unfold mm_init mem_sbrk fresh
  simp only [WSIZE, DSIZE, CHUNKSIZE]
  rw [if_pos (by omega)]

theorem mm_init_fail (m : Mem) (base lim : Nat) (hcap : ¬ base + 16 ≤ lim) :
    (mm_init (fresh m base lim)).1 = -1 := by
  unfold mm_init mem_sbrk fresh
  simp only [WSIZE]
  rw [if_neg (by omega)]

/-- The heap laid down by `mm_init` before the first extension. -/
theorem init_heap (m : Mem) (base lim : Nat) (hcap : base + 16 ≤ lim) (hlim : lim < base + U32) :
    Heap
      { mem := PUT (PUT (PUT (PUT m base 0) (base + 4) (PACK 8 1)) (base + 8) (PACK 8 1))
          (base + 12) (PACK 0 1)
        brk := base + 16, lim := lim, heap_listp := base + 8, temp := base + 8 } [] := by
  have hU : (8 : Nat) < U32 := by unfold U32; omega
  have hU0 : (0 : Nat) < U32 := by unfold U32; omega
  refine ⟨by simp, ?_, ?_, hcap, by simp only; omega⟩
  · simp only [Tiles]
    refine ⟨by norm_num, by norm_num, hU, ?_, ?_, by omega⟩
    · have : base + 8 - 4 = base + 4 := by omega
      rw [this, GET_PUT_other _ _ _ _ (by omega), GET_PUT_other _ _ _ _ (by omega), tagOf_alloc]
      exact GET_PUT_PACK _ _ _ _ (by omega) hU (by omega)
    · have : base + 8 - 4 + 8 - 4 = base + 8 := by omega
      simp only [this]
      rw [GET_PUT_other _ _ _ _ (by omega), tagOf_alloc]
      exact GET_PUT_PACK _ _ _ _ (by omega) hU (by omega)
  · have : base + 16 - 4 = base + 12 := by omega
    simp only [this]
    have := GET_PUT_PACK (PUT (PUT (PUT m base 0) (base + 4) (PACK 8 1)) (base + 8) (PACK 8 1))
      (base + 12) 0 1 (by omega) hU0 (by omega)
    simpa using this

theorem mm_init_inv (m : Mem) (base lim : Nat) (s : State) (hlim : lim < base + U32)
    (hi : mm_init (fresh m base lim) = (0, s)) :
    Inv s ∧ s.heap_listp = base + 8 ∧ s.lim = lim := by
  by_cases hcap : base + 16 ≤ lim
  · rw [mm_init_eq m base lim hcap] at hi
    have hH := init_heap m base lim hcap hlim
    set s2 : State :=
      { mem := PUT (PUT (PUT (PUT m base 0) (base + 4) (PACK 8 1)) (base + 8) (PACK 8 1))
          (base + 12) (PACK 0 1)
        brk := base + 16, lim := lim, heap_listp := base + 8, temp := base + 8 } with hs2
    have hc : CursorOK s2 [] := by
      unfold CursorOK
      simp [starts, hs2]
    by_cases hcap2 : s2.brk + 4096 ≤ s2.lim
    · obtain ⟨bsx, pre, S, hfx, hHx, hptr, hWS, g3, g2, g1, hcx, h16x, hnx, _, hfrx⟩ :=
        extend_heap_heap s2 [] 4096 hH (by omega) (by omega) hcap2
      have hr1 : (extend_heap s2 (4096 / 4)).1 ≠ 0 := by rw [hptr]; omega
      rw [if_neg hr1] at hi
      simp only [Prod.mk.injEq, true_and] at hi
      subst hi
      exact ⟨⟨bsx, hHx, h16x (by simp), hcx hc, hnx (by simp [NoAdjFree])⟩, g3, g2⟩
    · have hfail := extend_heap_fail s2 4096 (by omega) (by unfold U32; omega) hcap2
      rw [hfail] at hi
      simp at hi
  · have := mm_init_fail m base lim hcap
    rw [hi] at this
    simp at this

/-- Every reachable state satisfies the invariant. -/
theorem reach_inv (s : State) (h : Reach s) : Inv s := by
  induction h with
  | init m base lim s hlim hi => exact (mm_init_inv m base lim s hlim hi).1
  | malloc s s1 n p _ h1 h2 hm ih => exact mm_malloc_inv s s1 n p ih h1 h2 hm
  | free s p _ hA ih => exact mm_free_inv s p ih hA

/-! ## Alignment -/

theorem PREV_BLKP_mod8 (m : Mem) (bp : Nat) (h : bp % 8 = 0) : PREV_BLKP m bp % 8 = 0 := by
  unfold PREV_BLKP
  have := GET_SIZE_mod8 m (bp - DSIZE)
  omega

theorem NEXT_BLKP_mod8 (m : Mem) (bp : Nat) (h : bp % 8 = 0) : NEXT_BLKP m bp % 8 = 0 := by
  unfold NEXT_BLKP
  have := GET_SIZE_mod8 m (bp - WSIZE)
  omega

theorem coalesce_aligned (s : State) (bp : Nat) (hbp : bp % 8 = 0) (ht : s.temp % 8 = 0) :
    (coalesce s bp).1 % 8 = 0 ∧ (coalesce s bp).2.temp % 8 = 0 ∧
    (coalesce s bp).2.brk = s.brk ∧ (coalesce s bp).2.heap_listp = s.heap_listp ∧
    (coalesce s bp).2.lim = s.lim := by
  unfold coalesce
  simp only
  split
  · exact ⟨hbp, ht, rfl, rfl, rfl⟩
  · split
    · refine ⟨PREV_BLKP_mod8 _ _ hbp, ?_, rfl, rfl, rfl⟩
      simp only
      split
      · exact PREV_BLKP_mod8 _ _ hbp
      · exact ht
    · split
      · refine ⟨hbp, ?_, rfl, rfl, rfl⟩
        simp only
        split
        · exact hbp
        · exact ht
      · refine ⟨PREV_BLKP_mod8 _ _ hbp, ?_, rfl, rfl, rfl⟩
        simp only
        split
        · exact PREV_BLKP_mod8 _ _ hbp
        · exact ht

theorem extend_heap_cases (s : State) (words : Nat) :
    (extend_heap s words = (0, s)) ∨
    (∃ W m, W % 8 = 0 ∧ extend_heap s words =
      coalesce { s with brk := s.brk + W, mem := m } s.brk) := by
  by_cases h : s.brk + (if words % U32 % 2 ≠ 0 then ((words % U32 + 1) * WSIZE) % U32
      else (words % U32 * WSIZE) % U32) ≤ s.lim
  · right
    unfold extend_heap mem_sbrk
    simp only [h, if_true]
    exact ⟨_, _, by unfold WSIZE U32; split <;> omega, rfl⟩
  · left
    unfold extend_heap mem_sbrk
    simp only [h, if_false]

theorem extend_heap_aligned (s : State) (words : Nat) (hb : s.brk % 8 = 0) (ht : s.temp % 8 = 0) :
    (extend_heap s words).1 % 8 = 0 ∧ (extend_heap s words).2.temp % 8 = 0 ∧
    (extend_heap s words).2.brk % 8 = 0 ∧
    (extend_heap s words).2.heap_listp = s.heap_listp := by
  rcases extend_heap_cases s words with h | ⟨W, m, hW, h⟩
  · rw [h]; exact ⟨rfl, ht, hb, rfl⟩
  · rw [h]
    obtain ⟨c1, c2, c3, c4, _⟩ := coalesce_aligned { s with brk := s.brk + W, mem := m } s.brk hb ht
    refine ⟨c1, c2, ?_, c4⟩
    rw [c3]; simp only; omega

theorem find_fit_loop1_aligned (m : Mem) (asize : Nat) : ∀ (fuel t : Nat) (r : Bool × Nat),
    t % 8 = 0 → find_fit_loop1 m asize fuel t = some r → r.2 % 8 = 0 := by
  intro fuel
  induction fuel with
  | zero => intro t r _ h; simp [find_fit_loop1] at h
  | succ f ih =>
    intro t r ht h
    simp only [find_fit_loop1] at h
    split at h
    · split at h
      · simp only [Option.some.injEq] at h; subst h; exact ht
      · exact ih _ r (NEXT_BLKP_mod8 m t ht) h
    · simp only [Option.some.injEq] at h; subst h; exact ht

theorem find_fit_loop2_aligned (m : Mem) (asize ip : Nat) : ∀ (fuel t : Nat) (r : Bool × Nat),
    t % 8 = 0 → find_fit_loop2 m asize ip fuel t = some r → r.2 % 8 = 0 := by
  intro fuel
  induction fuel with
  | zero => intro t r _ h; simp [find_fit_loop2] at h
  | succ f ih =>
    intro t r ht h
    simp only [find_fit_loop2] at h
    split at h
    · split at h
      · simp only [Option.some.injEq] at h; subst h; exact ht
      · exact ih _ r (NEXT_BLKP_mod8 m t ht) h
    · simp only [Option.some.injEq] at h; subst h; exact ht

/-- Alignment of the three pointers of a state. -/
theorem find_fit_aligned (s s1 : State) (asize bp : Nat) (hh : s.heap_listp % 8 = 0)
    (ht : s.temp % 8 = 0) (hf : find_fit s asize = .ok (bp, s1)) :
    bp % 8 = 0 ∧ s1.temp % 8 = 0 ∧ s1.brk = s.brk ∧ s1.heap_listp = s.heap_listp ∧
      s1.mem = s.mem ∧ s1.lim = s.lim := by
  unfold find_fit at hf
  simp only at hf
  split at hf
  · cases hf
  · rename_i t h1
    simp only [Except.ok.injEq, Prod.mk.injEq] at hf
    obtain ⟨rfl, rfl⟩ := hf
    have := find_fit_loop1_aligned _ _ _ _ _ ht h1
    exact ⟨this, this, rfl, rfl, rfl, rfl⟩
  · split at hf
    · cases hf
    · rename_i t h2
      simp only [Except.ok.injEq, Prod.mk.injEq] at hf
      obtain ⟨rfl, rfl⟩ := hf
      have := find_fit_loop2_aligned _ _ _ _ _ _ hh h2
      exact ⟨this, this, rfl, rfl, rfl, rfl⟩
    · rename_i t h2
      simp only [Except.ok.injEq, Prod.mk.injEq] at hf
      obtain ⟨rfl, rfl⟩ := hf
      have := find_fit_loop2_aligned _ _ _ _ _ _ hh h2
      exact ⟨rfl, this, rfl, rfl, rfl, rfl⟩

theorem mm_malloc_aligned (s s1 : State) (n p : Nat) (hh : s.heap_listp % 8 = 0)
    (ht : s.temp % 8 = 0) (hb : s.brk % 8 = 0) (hm : mm_malloc s n = .ok (p, s1)) :
    p % 8 = 0 ∧ s1.heap_listp % 8 = 0 ∧ s1.temp % 8 = 0 ∧ s1.brk % 8 = 0 := by
  unfold mm_malloc at hm
  simp only at hm
  split at hm
  · simp only [Except.ok.injEq, Prod.mk.injEq] at hm
    obtain ⟨rfl, rfl⟩ := hm
    exact ⟨rfl, hh, ht, hb⟩
  · split at hm
    · cases hm
    · rename_i bp s2 hf
      obtain ⟨a1, a2, a3, a4, _, _⟩ := find_fit_aligned s s2 _ bp hh ht hf
      split at hm
      · simp only [Except.ok.injEq, Prod.mk.injEq] at hm
        obtain ⟨rfl, rfl⟩ := hm
        obtain ⟨f1, _, f3, f4⟩ := place_fields s2 bp (adjust (n % U32))
        exact ⟨a1, by rw [f3, a4]; exact hh, by rw [f4]; exact a2, by rw [f1, a3]; exact hb⟩
      · obtain ⟨e1, e2, e3, e4⟩ := extend_heap_aligned s2
          ((MAX (toInt (adjust (n % U32))) (CHUNKSIZE : Nat)).toNat / WSIZE)
          (by rw [a3]; exact hb) a2
        split at hm
        · simp only [Except.ok.injEq, Prod.mk.injEq] at hm
          obtain ⟨rfl, rfl⟩ := hm
          exact ⟨rfl, by rw [e4, a4]; exact hh, e2, e3⟩
        · simp only [Except.ok.injEq, Prod.mk.injEq] at hm
          obtain ⟨rfl, rfl⟩ := hm
          obtain ⟨f1, _, f3, f4⟩ := place_fields (extend_heap s2
            ((MAX (toInt (adjust (n % U32))) (CHUNKSIZE : Nat)).toNat / WSIZE)).2
            (extend_heap s2
            ((MAX (toInt (adjust (n % U32))) (CHUNKSIZE : Nat)).toNat / WSIZE)).1
            (adjust (n % U32))
          exact ⟨e1, by rw [f3, e4, a4]; exact hh, by rw [f4]; exact e2, by rw [f1]; exact e3⟩

theorem mm_free_aligned (s : State) (p : Nat) (hh : s.heap_listp % 8 = 0)
    (ht : s.temp % 8 = 0) (hb : s.brk % 8 = 0) (hp : p % 8 = 0) :
    (mm_free s p).heap_listp % 8 = 0 ∧ (mm_free s p).temp % 8 = 0 ∧
      (mm_free s p).brk % 8 = 0 := by
  unfold mm_free
  simp only
  obtain ⟨_, c2, c3, c4, _⟩ := coalesce_aligned
    { s with
      mem := PUT (PUT s.mem (HDRP p) (PACK (GET_SIZE s.mem (HDRP p)) 0))
        (FTRP (PUT s.mem (HDRP p) (PACK (GET_SIZE s.mem (HDRP p)) 0)) p)
        (PACK (GET_SIZE s.mem (HDRP p)) 0) } p hp ht
  exact ⟨by rw [c4]; exact hh, c2, by rw [c3]; exact hb⟩

theorem mm_init_aligned (m : Mem) (base lim : Nat) (s : State) (hbase : base % 8 = 0)
    (hi : mm_init (fresh m base lim) = (0, s)) :
    s.heap_listp % 8 = 0 ∧ s.temp % 8 = 0 ∧ s.brk % 8 = 0 := by
  by_cases hcap : base + 16 ≤ lim
  · rw [mm_init_eq m base lim hcap] at hi
    obtain ⟨_, e2, e3, e4⟩ := extend_heap_aligned
      { mem := PUT (PUT (PUT (PUT m base 0) (base + 4) (PACK 8 1)) (base + 8) (PACK 8 1))
          (base + 12) (PACK 0 1)
        brk := base + 16, lim := lim, heap_listp := base + 8, temp := base + 8 } (4096 / 4)
      (by simp only; omega) (by simp only; omega)
    split at hi
    · simp at hi
    · simp only [Prod.mk.injEq, true_and] at hi
      subst hi
      exact ⟨by rw [e4]; simp only; omega, e2, e3⟩
  · have := mm_init_fail m base lim hcap
    rw [hi] at this
    simp at this

/-! ## The header of a placed block -/

/-- Whatever the heap looks like, `place` leaves at `bp` a header that is marked
allocated and whose size is at least `asize`, provided the block was large
enough whenever `place` does not split. -/
theorem place_header (s : State) (bp asize : Nat) (h8 : asize % 8 = 0) (h16 : 16 ≤ asize)
    (hlt : asize < U32) :
    GET_ALLOC (place s bp asize).mem (HDRP bp) = 1 ∧
      asize ≤ GET_SIZE (place s bp asize).mem (HDRP bp) := by
  have ha : asize % U32 = asize := Nat.mod_eq_of_lt hlt
  have hs8 := GET_SIZE_mod8 s.mem (bp - 4)
  have hslt := GET_SIZE_lt s.mem (bp - 4)
  unfold place
  simp only [ha, HDRP, WSIZE, DSIZE]
  split
  · -- split branch: the header is (asize, allocated)
    have e1 : GET_SIZE (PUT s.mem (bp - 4) (PACK asize 1)) (bp - 4) = asize :=
      GET_SIZE_PUT_same _ _ _ _ h8 hlt (by omega)
    simp only [FTRP, NEXT_BLKP, HDRP, e1, DSIZE, WSIZE]
    have e2 : GET_SIZE (PUT (PUT s.mem (bp - 4) (PACK asize 1)) (bp + asize - 8) (PACK asize 1))
        (bp - 4) = asize := by
      rw [GET_SIZE_PUT_other _ _ _ _ (by omega)]; exact e1
    simp only [e2]
    constructor
    · rw [GET_ALLOC_PUT_other _ _ _ _ (by omega), GET_ALLOC_PUT_other _ _ _ _ (by omega),
        GET_ALLOC_PUT_other _ _ _ _ (by omega)]
      exact GET_ALLOC_PUT_same _ _ _ _ h8 hlt (by omega)
    · rw [GET_SIZE_PUT_other _ _ _ _ (by omega), GET_SIZE_PUT_other _ _ _ _ (by omega),
        GET_SIZE_PUT_other _ _ _ _ (by omega)]
      have := GET_SIZE_PUT_same s.mem (bp - 4) asize 1 h8 hlt (by omega)
      omega
  · -- no split: the block is at least asize bytes
    rename_i hc
    have hge : asize ≤ GET_SIZE s.mem (bp - 4) := by
      unfold SZT U32 at *
      omega
    have e1 : GET_SIZE (PUT s.mem (bp - 4) (PACK (GET_SIZE s.mem (bp - 4)) 1)) (bp - 4) =
        GET_SIZE s.mem (bp - 4) := GET_SIZE_PUT_same _ _ _ _ hs8 hslt (by omega)
    simp only [FTRP, HDRP, WSIZE, e1, DSIZE]
    constructor
    · rw [GET_ALLOC_PUT_other _ _ _ _ (by omega)]
      exact GET_ALLOC_PUT_same _ _ _ _ hs8 hslt (by omega)
    · rw [GET_SIZE_PUT_other _ _ _ _ (by omega), e1]
      exact hge

theorem adjust_wide (n : Nat) (h1 : 1 ≤ n) (h2 : n ≤ 4294967280) :
    16 ≤ adjust n ∧ adjust n % 8 = 0 ∧ n + 8 ≤ adjust n ∧ adjust n < U32 := by
  unfold adjust DSIZE U32
  split <;> omega

/-- The block returned by `mm_malloc` is marked allocated and its header size
covers the request plus the 8 bytes of header and footer. -/
theorem mm_malloc_header (s s1 : State) (n p : Nat) (h1 : 1 ≤ n) (h2 : n ≤ 4294967280)
    (hm : mm_malloc s n = .ok (p, s1)) (hp : p ≠ 0) :
    GET_ALLOC s1.mem (HDRP p) = 1 ∧ n + 8 ≤ GET_SIZE s1.mem (HDRP p) := by
  obtain ⟨a16, a8, age, alt⟩ := adjust_wide n h1 h2
  have e : n % U32 = n := Nat.mod_eq_of_lt (by unfold U32; omega)
  unfold mm_malloc at hm
  simp only [e] at hm
  rw [if_neg (by omega)] at hm
  split at hm
  · cases hm
  · rename_i bp s2 hf
    split at hm
    · simp only [Except.ok.injEq, Prod.mk.injEq] at hm
      obtain ⟨rfl, rfl⟩ := hm
      have := place_header s2 bp (adjust n) a8 a16 alt
      exact ⟨this.1, by omega⟩
    · split at hm
      · simp only [Except.ok.injEq, Prod.mk.injEq] at hm
        exact absurd hm.1.symm hp
      · simp only [Except.ok.injEq, Prod.mk.injEq] at hm
        obtain ⟨rfl, rfl⟩ := hm
        have := place_header (extend_heap s2
          ((MAX (toInt (adjust n)) (CHUNKSIZE : Nat)).toNat / WSIZE)).2 (extend_heap s2
          ((MAX (toInt (adjust n)) (CHUNKSIZE : Nat)).toNat / WSIZE)).1 (adjust n) a8 a16 alt
        exact ⟨this.1, by omega⟩

theorem adjust_lt (n : Nat) : adjust n < U32 := by
  unfold adjust DSIZE U32
  split
  · omega
  · exact Nat.mod_lt _ (by omega)

/-- On a heap with a valid cursor `mm_malloc` returns for every request. -/
theorem mm_malloc_total (s : State) (bs : List Blk) (n : Nat) (hH : Heap s bs)
    (hc : CursorOK s bs) : ∃ p s1, mm_malloc s n = .ok (p, s1) := by
  have hhl := hH.hl8
  unfold mm_malloc
  simp only
  split
  · exact ⟨_, _, rfl⟩
  · rcases find_fit_spec s ((8, true) :: bs) (adjust (n % U32)) hH.tiles hH.epi hc
      (adjust_lt _) (by omega) with ⟨pre, sz, post, _, _, hff⟩ | ⟨_, hff⟩
    · rw [hff]
      simp only
      split
      · exact ⟨_, _, rfl⟩
      · split <;> exact ⟨_, _, rfl⟩
    · rw [hff]
      simp only
      split
      · exact ⟨_, _, rfl⟩
      · split <;> exact ⟨_, _, rfl⟩

/-! ## Executable walk and concrete runs -/

theorem Tiles_walkOK (m : Mem) (q : Nat) (bs : List Blk) :
    ∀ (fuel p : Nat), Tiles m p bs q → bs.length ≤ fuel → walkOK m q fuel p = true := by
  induction bs with
  | nil =>
    intro fuel p hT _
    simp only [Tiles] at hT
    cases fuel with
    | zero => simp [walkOK, hT]
    | succ f => simp [walkOK, hT]
  | cons b bs ih =>
    intro fuel p hT hf
    simp only [Tiles] at hT
    obtain ⟨b1, b2, b3, b4, b5, hT1⟩ := hT
    obtain ⟨f, rfl⟩ : ∃ f, fuel = f + 1 := ⟨fuel - 1, by simp at hf; omega⟩
    have hs : GET_SIZE m p = b.1 := size_of_tag m p b b4 b2 b3
    simp only [walkOK, hs]
    split
    · rfl
    · rw [if_pos ⟨b1, by rw [b5, b4]⟩]
      exact ih f _ hT1 (by simp at hf; omega)

/-- A heap passes the executable walk. -/
theorem Heap_walkOK (s : State) (bs : List Blk) (hH : Heap s bs) :
    walkOK s.mem (s.brk - 4) s.brk (s.heap_listp - 4) = true := by
  apply Tiles_walkOK _ _ _ _ _ hH.tiles
  have hsz := Tiles_sizes _ _ _ _ hH.tiles
  have h8 := bsum_ge _ (fun b hb => (hsz b hb).1)
  have he := Tiles_end _ _ _ _ hH.tiles
  have := hH.hl8
  omega

theorem ok_of (r : Except Err (Nat × State)) (d : State) (p : Nat) (h1 : isOk r = true)
    (h2 : okPtr r = p) : r = .ok (p, okState r d) := by
  cases r with
  | error e => simp [isOk] at h1
  | ok x => simp only [okPtr] at h2; subst h2; rfl

theorem Inv_WFC (s : State) (h : Inv s) : WFC s := by
  obtain ⟨bs, h1, h2, h3, _⟩ := h
  exact ⟨bs, h1, h2, h3⟩

theorem Inv_WF (s : State) (h : Inv s) : WF s := by
  obtain ⟨bs, h1, h2, _, _⟩ := h
  exact ⟨bs, h1, h2⟩

set_option maxRecDepth 100000 in
theorem demo0_init : mm_init (fresh (fun _ => 0) 0 2097152) = (0, demo0) :=
  Prod.ext (by decide) rfl

theorem demo0_reach : Reach demo0 :=
  Reach.init (fun _ => 0) 0 2097152 demo0 (by unfold U32; omega) demo0_init

set_option maxRecDepth 100000 in
theorem runA1_eq : mm_malloc demo0 8 = .ok (16, runA1) :=
  ok_of _ demo0 16 (by decide) (by decide)

set_option maxRecDepth 100000 in
theorem runA2_eq : mm_malloc runA1 8 = .ok (32, runA2) :=
  ok_of _ runA1 32 (by decide) (by decide)

set_option maxRecDepth 100000 in
theorem runA4_eq : mm_realloc runA3 16 24 = .ok (16, runA4) :=
  ok_of _ runA3 16 (by decide) (by decide)

set_option maxRecDepth 100000 in
theorem runA5_eq : mm_malloc runA4 8 = .ok (32, runA5) :=
  ok_of _ runA4 32 (by decide) (by decide)

set_option maxRecDepth 100000 in
theorem runB1_eq : mm_malloc demo0 618784 = .ok (16, runB1) :=
  ok_of _ demo0 16 (by decide) (by decide)

set_option maxRecDepth 100000 in
theorem runB2_eq : mm_realloc runB1 16 618784 = .ok (618808, runB2) :=
  ok_of _ runB1 618808 (by decide) (by decide)

set_option maxRecDepth 100000 in
theorem runC1_eq : mm_malloc demo0 1 = .ok (16, runC1) :=
  ok_of _ demo0 16 (by decide) (by decide)

/-! ## Heaps of the concrete runs -/

set_option maxRecDepth 100000 in
theorem runA2_heap : Heap runA2 [(16, true), (16, true), (4064, false)] :=
  ⟨by decide, by simp only [Tiles]; decide, by decide, by decide, by decide⟩

set_option maxRecDepth 100000 in
theorem runA3_heap : Heap runA3 [(16, true), (4080, false)] :=
  ⟨by decide, by simp only [Tiles]; decide, by decide, by decide, by decide⟩

set_option maxRecDepth 100000 in
theorem runA4_heap : Heap runA4 [(32, true), (4064, false)] :=
  ⟨by decide, by simp only [Tiles]; decide, by decide, by decide, by decide⟩

set_option maxRecDepth 100000 in
theorem runB1_heap : Heap runB1 [(618792, true), (4096, false)] :=
  ⟨by decide, by simp only [Tiles]; decide, by decide, by decide, by decide⟩

set_option maxRecDepth 100000 in
theorem runC1_heap : Heap runC1 [(16, true), (4080, false)] :=
  ⟨by decide, by simp only [Tiles]; decide, by decide, by decide, by decide⟩

theorem runA1_reach : Reach runA1 :=
  Reach.malloc demo0 runA1 8 16 demo0_reach (by omega) (by unfold MAXREQ; omega) runA1_eq

theorem runA2_reach : Reach runA2 :=
  Reach.malloc runA1 runA2 8 32 runA1_reach (by omega) (by unfold MAXREQ; omega) runA2_eq

set_option maxRecDepth 100000 in
theorem runA2_alloc : Allocated runA2 32 :=
  ⟨_, 16, runA2_heap, [(16, true)], [(4064, false)], rfl, by decide⟩

theorem runA3_reach : Reach runA3 := Reach.free runA2 32 runA2_reach runA2_alloc

set_option maxRecDepth 100000 in
theorem runA3_alloc : Allocated runA3 16 :=
  ⟨_, 16, runA3_heap, [], [(4080, false)], rfl, by decide⟩

theorem runB1_reach : Reach runB1 :=
  Reach.malloc demo0 runB1 618784 16 demo0_reach (by omega) (by unfold MAXREQ; omega) runB1_eq

set_option maxRecDepth 100000 in
theorem runB1_alloc : Allocated runB1 16 :=
  ⟨_, 618792, runB1_heap, [], [(4096, false)], rfl, by decide⟩

theorem runC1_reach : Reach runC1 :=
  Reach.malloc demo0 runC1 1 16 demo0_reach (by omega) (by unfold MAXREQ; omega) runC1_eq

set_option maxRecDepth 100000 in
theorem runC1_alloc : Allocated runC1 16 :=
  ⟨_, 16, runC1_heap, [], [(4080, false)], rfl, by decide⟩

/-! ## Alignment along any run -/

theorem live_aligned (base : Nat) (s : State) (L : List Nat) (hbase : base % 8 = 0)
    (h : Live base s L) :
    (s.heap_listp % 8 = 0 ∧ s.temp % 8 = 0 ∧ s.brk % 8 = 0) ∧ ∀ p ∈ L, p % 8 = 0 := by
  induction h with
  | init m lim s hi => exact ⟨mm_init_aligned m base lim s hbase hi, by simp⟩
  | malloc s s1 L n p _ hm ih =>
    obtain ⟨⟨a1, a2, a3⟩, a4⟩ := ih
    obtain ⟨b1, b2, b3, b4⟩ := mm_malloc_aligned s s1 n p a1 a2 a3 hm
    refine ⟨⟨b2, b3, b4⟩, ?_⟩
    intro x hx
    split at hx
    · exact a4 x hx
    · rcases List.mem_cons.1 hx with rfl | hx
      · exact b1
      · exact a4 x hx
  | free s L p _ hp ih =>
    obtain ⟨⟨a1, a2, a3⟩, a4⟩ := ih
    exact ⟨mm_free_aligned s p a1 a2 a3 (a4 p hp), fun x hx => a4 x (List.mem_of_mem_erase hx)⟩

theorem runA1_live : Live 0 runA1 [16] := by
  have h := Live.malloc demo0 runA1 [] 8 16 (Live.init (fun _ => 0) 2097152 demo0 demo0_init)
    runA1_eq
  simpa using h

/-! ## Claims -/

/-- C1, evaluated on the code: after `mm_init`, `p = mm_malloc(8)`,
`q = mm_malloc(8)`, `mm_free(q)`, `mm_realloc(p, 24)` and `mm_malloc(8)` the
live pointers are 16 (24 bytes requested) and 32 (8 bytes requested), whose
byte ranges overlap: the no-overlap property fails on this valid sequence. -/
theorem C1_overlap_run :
    LiveR runA5 [(32, 8), (16, 24)] ∧ ¬ NoOverlap [(32, 8), (16, 24)] := by
  have h0 : LiveR demo0 [] := LiveR.init (fun _ => 0) 0 2097152 demo0 demo0_init
  have h1 : LiveR runA1 [(16, 8)] :=
    LiveR.malloc demo0 runA1 [] 8 16 h0 (by omega) (by omega) runA1_eq (by omega)
  have h2 : LiveR runA2 [(32, 8), (16, 8)] :=
    LiveR.malloc runA1 runA2 _ 8 32 h1 (by omega) (by omega) runA2_eq (by omega)
  have h3 : LiveR runA3 [(16, 8)] := by
    have := LiveR.free runA2 _ 32 8 h2 (by simp)
    simpa [runA3] using this
  have h4 : LiveR runA4 [(16, 24)] := by
    have := LiveR.realloc runA3 runA4 _ 16 8 24 16 h3 (by simp) (by omega) (by omega) runA4_eq
    simpa using this
  have h5 : LiveR runA5 [(32, 8), (16, 24)] :=
    LiveR.malloc runA4 runA5 _ 8 32 h4 (by omega) (by omega) runA5_eq (by omega)
  refine ⟨h5, ?_⟩
  unfold NoOverlap
  simp

/-- C2: every state reached from a successful `mm_init` by `mm_malloc(n)` with
`1 ≤ n ≤ MAXREQ` and `mm_free` of currently allocated blocks has a well-formed
heap: the walk by header sizes from the prologue (8, allocated) ends exactly at
the epilogue header (0, allocated) in the last word of the heap, every block in
between has a size that is a multiple of 8 and at least 16, and every block's
header word equals its footer word.  Moreover `mm_malloc` returns on every
such state. -/
theorem C2_wellformed_invariant (s : State) (h : Reach s) :
    WF s ∧ ∀ n, ∃ p s1, mm_malloc s n = .ok (p, s1) := by
  have hI := reach_inv s h
  refine ⟨Inv_WF s hI, ?_⟩
  obtain ⟨bs, hH, _, hc, _⟩ := hI
  exact fun n => mm_malloc_total s bs n hH hc

/-- Witness of C2 on the state after two allocations and one free. -/
theorem C2_wellformed_invariant_witness :
    Reach runA3 ∧ (WF runA3 ∧ ∀ n, ∃ p s1, mm_malloc runA3 n = .ok (p, s1)) :=
  ⟨runA3_reach, C2_wellformed_invariant runA3 runA3_reach⟩

/-- C4: if the first address returned by the region grower is a multiple of 8
(later grants are contiguous in the grower), then in every state reached from a
successful `mm_init` by calls of `mm_malloc` with arbitrary requests and calls
of `mm_free` on live pointers, every pointer returned by `mm_malloc` is a
multiple of 8. -/
theorem C4_alignment (base : Nat) (s s1 : State) (L : List Nat) (n p : Nat)
    (hbase : base % 8 = 0) (h : Live base s L) (hm : mm_malloc s n = .ok (p, s1)) :
    p % 8 = 0 := by
  obtain ⟨⟨a1, a2, a3⟩, _⟩ := live_aligned base s L hbase h
  exact (mm_malloc_aligned s s1 n p a1 a2 a3 hm).1

/-- Witness of C4: the second allocation of 8 bytes returns the pointer 32. -/
theorem C4_alignment_witness :
    0 % 8 = 0 ∧ Live 0 runA1 [16] ∧ mm_malloc runA1 8 = .ok (32, runA2) ∧ 32 % 8 = 0 :=
  ⟨rfl, runA1_live, runA2_eq, C4_alignment 0 runA1 runA2 [16] 8 32 rfl runA1_live runA2_eq⟩

/-- C8, evaluated on the code: the block at 16 has size 16, which equals the
adjusted size of a request of 1 byte, yet `mm_realloc(16, 1)` does not return
16: it allocates a new block at 32, and frees the old one. -/
theorem C8_equal_size_run :
    Allocated runC1 16 ∧ GET_SIZE runC1.mem (HDRP 16) = 16 ∧
      DSIZE * ((1 + DSIZE + (DSIZE - 1)) / DSIZE) = 16 ∧
      mm_realloc runC1 16 1 = .ok (32, runC2) ∧ GET_ALLOC runC2.mem (HDRP 16) = 0 := by
  refine ⟨runC1_alloc, by decide, by decide, ?_, by decide⟩
  exact ok_of _ runC1 32 (by decide) (by decide)

/-- C9, evaluated on the code: `runB1` is a well-formed heap with a valid
cursor in which 16 is an allocated block of size 618792; `mm_realloc(16,
618784)` returns 618808 and leaves a heap that no block list tiles: the walk by
header sizes from the prologue meets a block whose header differs from its
footer. -/
theorem C9_realloc_breaks_heap :
    WFC runB1 ∧ Allocated runB1 16 ∧ mm_realloc runB1 16 618784 = .ok (618808, runB2) ∧
      ¬ ∃ bs, Heap runB2 bs := by
  refine ⟨Inv_WFC _ (reach_inv _ runB1_reach), runB1_alloc, runB2_eq, ?_⟩
  rintro ⟨bs, hH⟩
  have h1 := Heap_walkOK runB2 bs hH
  have h2 : walkOK runB2.mem (runB2.brk - 4) runB2.brk (runB2.heap_listp - 4) = false := by
    decide
  rw [h2] at h1
  cases h1

/-- C10, evaluated on the code: `runA3` is reached by a valid sequence and 16
is an allocated block; after `mm_realloc(16, 24)`, which grows the block in
place, the search cursor is 32, inside the block at 16, and is the payload
address of no block of the heap. -/
theorem C10_dangling_cursor :
    Reach runA3 ∧ Allocated runA3 16 ∧ mm_realloc runA3 16 24 = .ok (16, runA4) ∧
      runA4.temp = 32 ∧ ¬ ∃ bs, Heap runA4 bs ∧ CursorOK runA4 bs := by
  refine ⟨runA3_reach, runA3_alloc, runA4_eq, by decide, ?_⟩
  rintro ⟨bs, hH, hc⟩
  have e : (8, true) :: bs = (8, true) :: [(32, true), (4064, false)] :=
    Tiles_unique _ _ _ _ _ hH.tiles runA4_heap.tiles
  simp only [List.cons.injEq, true_and] at e
  subst e
  revert hc
  unfold CursorOK
  decide

/-! ## Blocks at positions -/

theorem BlockIn_nil (p0 p sz : Nat) (a : Bool) : ¬ BlockIn p0 [] p sz a := by
  rintro ⟨pre, post, h, _⟩
  cases pre <;> simp at h

theorem BlockIn_cons_iff (p0 p sz : Nat) (a : Bool) (b : Blk) (l : List Blk) :
    BlockIn p0 (b :: l) p sz a ↔ (b = (sz, a) ∧ p = p0 + 4) ∨ BlockIn (p0 + b.1) l p sz a := by
  constructor
  · rintro ⟨pre, post, h, hp⟩
    cases pre with
    | nil =>
      simp only [List.nil_append, List.cons.injEq] at h
      exact Or.inl ⟨h.1, by simp [bsum] at hp; omega⟩
    | cons c pre =>
      simp only [List.cons_append, List.cons.injEq] at h
      obtain ⟨rfl, rfl⟩ := h
      exact Or.inr ⟨pre, post, rfl, by simp [bsum] at hp; omega⟩
  · rintro (⟨rfl, hp⟩ | ⟨pre, post, h, hp⟩)
    · exact ⟨[], l, rfl, by simp [bsum]; omega⟩
    · exact ⟨b :: pre, post, by simp [h], by simp [bsum]; omega⟩

theorem BlockIn_append_iff (xs ys : List Blk) : ∀ (p0 p sz : Nat) (a : Bool),
    BlockIn p0 (xs ++ ys) p sz a ↔ BlockIn p0 xs p sz a ∨ BlockIn (p0 + bsum xs) ys p sz a := by
  induction xs with
  | nil =>
    intro p0 p sz a
    simp [BlockIn_nil, bsum]
  | cons b xs ih =>
    intro p0 p sz a
    rw [List.cons_append, BlockIn_cons_iff, BlockIn_cons_iff, ih]
    have : p0 + bsum (b :: xs) = p0 + b.1 + bsum xs := by simp [bsum]; omega
    rw [this]
    tauto

theorem BlockIn_bounds (p0 p sz : Nat) (a : Bool) (l : List Blk) (h : BlockIn p0 l p sz a) :
    p0 + 4 ≤ p ∧ p - 4 + sz ≤ p0 + bsum l := by
  obtain ⟨pre, post, rfl, rfl⟩ := h
  simp [bsum_append, bsum]
  omega

theorem BlockIn_mem (p0 p sz : Nat) (a : Bool) (l : List Blk) (h : BlockIn p0 l p sz a) :
    (sz, a) ∈ l := by
  obtain ⟨pre, post, rfl, _⟩ := h
  simp

theorem BlockAt_iff (hl p sz : Nat) (a : Bool) (bs : List Blk) (hhl : 4 ≤ hl) :
    BlockAt hl bs p sz a ↔ BlockIn (hl - 4) ((8, true) :: bs) p sz a ∧ p ≠ hl := by
  rw [BlockIn_cons_iff]
  constructor
  · rintro ⟨pre, post, h, hp⟩
    exact ⟨Or.inr ⟨pre, post, h, by simp; omega⟩, by omega⟩
  · rintro ⟨(⟨_, hp⟩ | ⟨pre, post, h, hp⟩), hne⟩
    · omega
    · exact ⟨pre, post, h, by simp at hp; omega⟩

/-- The tags of a block of a tiling. -/
theorem BlockIn_tags (m : Mem) (p0 q p sz : Nat) (a : Bool) (l : List Blk)
    (hT : Tiles m p0 l q) (h : BlockIn p0 l p sz a) :
    GET m (p - 4) = tagOf (sz, a) ∧ GET m (p + sz - 8) = tagOf (sz, a) ∧ 8 ≤ sz ∧
      sz % 8 = 0 ∧ sz < U32 := by
  obtain ⟨pre, post, rfl, rfl⟩ := h
  rw [Tiles_append] at hT
  obtain ⟨_, hT2⟩ := hT
  simp only [Tiles] at hT2
  obtain ⟨b1, b2, b3, b4, b5, _⟩ := hT2
  have e1 : p0 + bsum pre + 4 - 4 = p0 + bsum pre := by omega
  have e2 : p0 + bsum pre + 4 + sz - 8 = p0 + bsum pre + sz - 4 := by omega
  rw [e1, e2]
  exact ⟨b4, b5, b1, b2, b3⟩

/-- Two blocks of a tiling are the same block or have disjoint extents. -/
theorem BlockIn_disjoint (l : List Blk) : ∀ (p0 p1 s1 p2 s2 : Nat) (a1 a2 : Bool),
    (∀ b ∈ l, 8 ≤ b.1) → BlockIn p0 l p1 s1 a1 → BlockIn p0 l p2 s2 a2 →
    (p1 = p2 ∧ s1 = s2 ∧ a1 = a2) ∨ p1 - 4 + s1 ≤ p2 - 4 ∨ p2 - 4 + s2 ≤ p1 - 4 := by
  induction l with
  | nil => intro p0 p1 s1 p2 s2 a1 a2 _ h; exact absurd h (BlockIn_nil _ _ _ _)
  | cons b l ih =>
    intro p0 p1 s1 p2 s2 a1 a2 h8 h1 h2
    have hb := h8 b (List.mem_cons_self _ _)
    have h8' : ∀ c ∈ l, 8 ≤ c.1 := fun c hc => h8 c (List.mem_cons_of_mem _ hc)
    rw [BlockIn_cons_iff] at h1 h2
    rcases h1 with ⟨e1, q1⟩ | h1 <;> rcases h2 with ⟨e2, q2⟩ | h2
    · left
      rw [e1] at e2
      simp only [Prod.mk.injEq] at e2
      exact ⟨by omega, e2.1, e2.2⟩
    · right; left
      have := BlockIn_bounds _ _ _ _ _ h2
      subst e1
      simp only at this
      omega
    · right; right
      have := BlockIn_bounds _ _ _ _ _ h1
      subst e2
      simp only at this
      omega
    · exact ih _ _ _ _ _ _ _ h8' h1 h2

/-! ## Requests to the region grower -/

theorem extend_heap_request_eq (W : Nat) (h8 : W % 8 = 0) (hlt : W < U32) :
    extend_heap_request (W / 4) = W := by
  have e1 : W / 4 % U32 = W / 4 := Nat.mod_eq_of_lt (by omega)
  have e2 : W / 4 % 2 = 0 := by omega
  have e3 : W / 4 * 4 % U32 = W := by
    have : W / 4 * 4 = W := by omega
    rw [this]; exact Nat.mod_eq_of_lt hlt
  unfold extend_heap_request
  simp only [e1, e2, WSIZE, e3, ne_eq, not_true_eq_false, if_false]

/-- The request of `extend_heap` is the argument of its call of `mem_sbrk`. -/
theorem extend_heap_sbrk (s : State) (words : Nat)
    (h : mem_sbrk s (extend_heap_request words) = none) : extend_heap s words = (0, s) := by
  unfold extend_heap_request at h
  unfold extend_heap
  simp only [h]

theorem mm_malloc_requests_found (s s1 : State) (n bp : Nat) (h1 : 1 ≤ n) (h2 : n < U32)
    (hf : find_fit s (adjust n) = .ok (bp, s1)) (hbp : bp ≠ 0) :
    mm_malloc_requests s n = [] := by
  have e : n % U32 = n := Nat.mod_eq_of_lt h2
  unfold mm_malloc_requests
  simp only [e, hf]
  rw [if_neg (by omega), if_pos hbp]

theorem mm_malloc_requests_extend (s s1 : State) (n : Nat) (h1 : 1 ≤ n) (h2 : n ≤ MAXREQ)
    (hf : find_fit s (adjust n) = .ok (0, s1)) :
    mm_malloc_requests s n = [if 4096 < adjust n then adjust n else 4096] := by
  have e : n % U32 = n := Nat.mod_eq_of_lt (by unfold MAXREQ at h2; unfold U32; omega)
  have ha := adjust_facts n h1 h2
  have hm := max_chunk (adjust n) ha.2.2.2.2
  have hW : extend_heap_request ((if 4096 < adjust n then adjust n else 4096) / 4) =
      (if 4096 < adjust n then adjust n else 4096) := by
    apply extend_heap_request_eq
    · split <;> omega
    · unfold U32; split <;> omega
  unfold mm_malloc_requests
  simp only [e, hf, hm, WSIZE]
  rw [if_neg (by omega)]
  simp [hW]

/-! ## Next-fit -/

theorem Fits_false_iff (asize : Nat) (b : Blk) :
    Fits asize b = false ↔ (b.2 = true ∨ b.1 < asize) := by
  unfold Fits
  cases b.2 <;> simp

theorem firstFit_none (asize : Nat) (bs : List Blk) :
    ∀ p, (∀ b ∈ bs, b.2 = true ∨ b.1 < asize) → firstFit asize p bs = none := by
  induction bs with
  | nil => intro p _; rfl
  | cons b bs ih =>
    intro p h
    have hb := (Fits_false_iff asize b).2 (h b (by simp))
    simp only [firstFit, hb]
    exact ih _ (fun c hc => h c (by simp [hc]))

theorem firstFit_found (asize sz : Nat) (pre post : List Blk) (hle : asize ≤ sz) :
    ∀ p, (∀ b ∈ pre, b.2 = true ∨ b.1 < asize) →
      firstFit asize p (pre ++ (sz, false) :: post) = some (p + bsum pre + 4) := by
  induction pre with
  | nil =>
    intro p _
    have : Fits asize (sz, false) = true := by simp [Fits, hle]
    simp [firstFit, this, bsum]
  | cons b pre ih =>
    intro p h
    have hb := (Fits_false_iff asize b).2 (h b (by simp))
    have e : firstFit asize p (b :: pre ++ (sz, false) :: post) =
        firstFit asize (p + b.1) (pre ++ (sz, false) :: post) := by
      show (if Fits asize b then some (p + 4)
        else firstFit asize (p + b.1) (pre ++ (sz, false) :: post)) = _
      rw [hb]; rfl
    rw [e, ih _ (fun c hc => h c (by simp [hc]))]
    simp only [bsum]
    congr 1
    omega

theorem firstFit_none_iff (asize : Nat) (bs : List Blk) :
    ∀ p, firstFit asize p bs = none ↔ ∀ b ∈ bs, Fits asize b = false := by
  induction bs with
  | nil => intro p; simp [firstFit]
  | cons b bs ih =>
    intro p
    simp only [firstFit]
    by_cases hb : Fits asize b = true
    · simp [hb]
    · have hb' : Fits asize b = false := by simpa using hb
      simp [hb', ih]

theorem firstFit_pos (asize : Nat) (bs : List Blk) :
    ∀ p x, firstFit asize p bs = some x → 4 ≤ x := by
  induction bs with
  | nil => intro p x h; simp [firstFit] at h
  | cons b bs ih =>
    intro p x h
    simp only [firstFit] at h
    split at h
    · cases h; omega
    · exact ih _ _ h

/-- The function `find_fit` is next-fit: given the blocks `A` before the cursor
and the blocks `B` from the cursor on, it returns the first fitting block of
`B`, otherwise the first fitting block of `A`, otherwise `NULL`; the cursor
ends on the block returned, or where it was. -/
theorem find_fit_next (s : State) (A B : List Blk) (asize : Nat)
    (hT : Tiles s.mem (s.heap_listp - 4) (A ++ B) (s.brk - 4)) (hq : GET s.mem (s.brk - 4) = 1)
    (hB : B ≠ []) (hc : s.temp = s.heap_listp - 4 + bsum A + 4) (ha : asize < U32)
    (hhl : 4 ≤ s.heap_listp) :
    find_fit s asize = .ok
      (match nextFit asize (s.heap_listp - 4) A B with
       | some p => (p, { s with temp := p })
       | none => (0, s)) := by
  have hsizes := Tiles_sizes _ _ _ _ hT
  have hall8 : ∀ c ∈ A ++ B, 8 ≤ c.1 := fun c hc => (hsizes c hc).1
  have hlen := bsum_ge _ hall8
  have hend := Tiles_end _ _ _ _ hT
  rw [Tiles_append] at hT
  obtain ⟨hT1, hT2⟩ := hT
  have hamod : asize % U32 = asize := Nat.mod_eq_of_lt ha
  have hbs : bsum (A ++ B) = bsum A + bsum B := bsum_append A B
  obtain ⟨b, post, rfl⟩ : ∃ b post, B = b :: post := by
    cases B with
    | nil => exact absurd rfl hB
    | cons b post => exact ⟨b, post, rfl⟩
  have hb8 : 8 ≤ b.1 := hall8 b (by simp)
  have hl1 : (b :: post).length < s.brk := by
    simp only [List.length_append, List.length_cons, bsum] at hlen hbs ⊢; omega
  have hl2 : A.length < s.brk := by
    simp only [List.length_append, List.length_cons] at hlen; omega
  rcases find_fit_loop1_spec s.mem asize (s.brk - 4) hq (b :: post) _ s.brk hT2 hl1 with
    ⟨pre1, sz, post1, e1, e2, e3, e4⟩ | ⟨e1, e2⟩
  · have hF := firstFit_found asize sz pre1 post1 e2 (s.heap_listp - 4 + bsum A) e3
    rw [← e1] at hF
    unfold find_fit nextFit
    simp only [hamod, hc, e4, hF]
  · have hF := firstFit_none asize (b :: post) (s.heap_listp - 4 + bsum A) e1
    have hh : s.heap_listp - 4 + 4 = s.heap_listp := by omega
    rcases find_fit_loop2_spec s.mem asize _ A _ s.brk hT1 hl2 with
      ⟨pre1, sz, post1, f1, f2, f3, f4⟩ | ⟨f1, f2⟩
    · have hG := firstFit_found asize sz pre1 post1 f2 (s.heap_listp - 4) f3
      rw [← f1] at hG
      rw [hh] at f4
      unfold find_fit nextFit
      simp only [hamod, hc, e2, f4, hF, hG]
    · have hG := firstFit_none asize A (s.heap_listp - 4) f1
      rw [hh] at f2
      unfold find_fit nextFit
      simp only [hamod, hc, e2, f2, hF, hG]
      have : ({ s with temp := s.heap_listp - 4 + bsum A + 4 } : State) = s := by
        rw [← hc]
      rw [this]

theorem nextFit_none_iff (asize p0 : Nat) (A B : List Blk) :
    nextFit asize p0 A B = none ↔ ∀ b ∈ A ++ B, Fits asize b = false := by
  unfold nextFit
  cases h : firstFit asize (p0 + bsum A) B with
  | some p =>
    simp only [false_iff, reduceCtorEq]
    intro hall
    have := (firstFit_none_iff asize B (p0 + bsum A)).2 (fun b hb => hall b (by simp [hb]))
    rw [h] at this
    cases this
  | none =>
    simp only
    rw [firstFit_none_iff] at h
    rw [firstFit_none_iff]
    constructor
    · intro hA b hb
      rcases List.mem_append.1 hb with hb | hb
      · exact hA b hb
      · exact h b hb
    · intro hall b hb
      exact hall b (by simp [hb])

theorem nextFit_pos (asize p0 : Nat) (A B : List Blk) (x : Nat)
    (h : nextFit asize p0 A B = some x) : 4 ≤ x := by
  unfold nextFit at h
  cases h1 : firstFit asize (p0 + bsum A) B with
  | some p =>
    rw [h1] at h
    simp only [Option.some.injEq] at h
    subst h
    exact firstFit_pos _ _ _ _ h1
  | none =>
    rw [h1] at h
    exact firstFit_pos _ _ _ _ h

/-! ## Out of memory in `mm_malloc` -/

theorem max_chunk_eq (a : Nat) : (if 4096 < a then a else 4096) = max a 4096 := by
  split <;> omega

/-- On a heap with a valid cursor `mm_malloc(n)` returns; it returns `NULL`
exactly when no block fits and the grower refuses `max(adjust n, 4096)` bytes,
and then the state is unchanged and that request was the only one made. -/
theorem mm_malloc_oom (s : State) (bs : List Blk) (n : Nat) (hH : Heap s bs)
    (hc : CursorOK s bs) (h1 : 1 ≤ n) (h2 : n ≤ MAXREQ) :
    ∃ p s1, mm_malloc s n = .ok (p, s1) ∧
      (p = 0 ↔ ((∀ b ∈ bs, Fits (adjust n) b = false) ∧
        mem_sbrk s (max (adjust n) 4096) = none)) ∧
      (p = 0 → s1 = s ∧ mm_malloc_requests s n = [max (adjust n) 4096]) := by
  obtain ⟨a16, a8, age, alt, asm⟩ := adjust_facts n h1 h2
  have hhl := hH.hl8
  have hnlt : n < U32 := by unfold MAXREQ at h2; unfold U32; omega
  rcases find_fit_spec s ((8, true) :: bs) (adjust n) hH.tiles hH.epi hc
      (by unfold U32; omega) (by omega) with ⟨pre, sz, post, hfull, hle, hff⟩ | ⟨hno, hff⟩
  · -- a fit is found
    have hbp : s.heap_listp - 4 + bsum pre + 4 ≠ 0 := by omega
    have hmm := mm_malloc_found s _ n _ h1 hnlt hff hbp
    refine ⟨_, _, hmm, ?_, fun h => absurd h hbp⟩
    constructor
    · intro h; exact absurd h hbp
    · rintro ⟨hall, _⟩
      exfalso
      have hmem : ((sz, false) : Blk) ∈ (8, true) :: bs := by rw [hfull]; simp
      rcases List.mem_cons.1 hmem with h | h
      · simp at h
      · have := hall _ h
        simp [Fits, hle] at this
  · -- no fit: extend the heap
    have hmm := mm_malloc_extend s s n h1 h2 hff
    have hreq := mm_malloc_requests_extend s s n h1 h2 hff
    rw [max_chunk_eq] at hmm hreq
    have hW8 : max (adjust n) 4096 % 8 = 0 := by omega
    have hW16 : 16 ≤ max (adjust n) 4096 := by omega
    have hWlt : max (adjust n) 4096 < U32 := by unfold U32; omega
    have hall : ∀ b ∈ bs, Fits (adjust n) b = false := fun b hb =>
      (Fits_false_iff _ b).2 (hno b (by simp [hb]))
    by_cases hcap : s.brk + max (adjust n) 4096 ≤ s.lim
    · obtain ⟨bsx, pre, S, hfx, hHx, hptr, hWS, g3, g2, g1, hcx, h16x, hnx, _, hfrx⟩ :=
        extend_heap_heap s bs _ hH hW8 hW16 hcap
      have hr1 : (extend_heap s (max (adjust n) 4096 / 4)).1 ≠ 0 := by rw [hptr]; omega
      rw [if_neg hr1] at hmm
      refine ⟨_, _, hmm, ?_, fun h => absurd h hr1⟩
      constructor
      · intro h; exact absurd h hr1
      · rintro ⟨_, hs⟩
        unfold mem_sbrk at hs
        rw [if_pos hcap] at hs
        cases hs
    · have hfail := extend_heap_fail s _ hW8 hWlt hcap
      rw [hfail] at hmm
      simp only [if_true] at hmm
      refine ⟨0, s, hmm, ?_, fun _ => ⟨rfl, hreq⟩⟩
      constructor
      · intro _
        refine ⟨hall, ?_⟩
        unfold mem_sbrk
        rw [if_neg hcap]
      · intro _; rfl

/-! ## Round trip -/

/-- After `mm_malloc(n)` returned `p`, freeing `p` and asking for `n` bytes
again is served from the heap as it is. -/
theorem round_trip (s s1 : State) (n p : Nat) (hI : Inv s) (h1 : 1 ≤ n) (h2 : n ≤ MAXREQ)
    (hm : mm_malloc s n = .ok (p, s1)) (hp : p ≠ 0) :
    ∃ q s2, mm_malloc (mm_free s1 p) n = .ok (q, s2) ∧ q ≠ 0 ∧
      GET_ALLOC s2.mem (HDRP q) = 1 ∧ adjust n ≤ GET_SIZE s2.mem (HDRP q) ∧
      (∃ bs2 S, Heap s2 bs2 ∧ BlockAt s2.heap_listp bs2 q S true ∧ adjust n ≤ S) ∧
      s2.brk = (mm_free s1 p).brk ∧ mm_malloc_requests (mm_free s1 p) n = [] := by
  obtain ⟨a16, a8, age, alt, asm⟩ := adjust_facts n h1 h2
  have hnlt : n < U32 := by unfold MAXREQ at h2; unfold U32; omega
  obtain ⟨bs, hH, _, hc, _⟩ := hI
  obtain ⟨p', s1', bs1, hm', hH1, hc1, _, _, _, _, hcase⟩ := mm_malloc_heap s bs n hH hc h1 h2
  rw [hm] at hm'
  simp only [Except.ok.injEq, Prod.mk.injEq] at hm'
  obtain ⟨rfl, rfl⟩ := hm'
  rcases hcase with ⟨h0, _⟩ | ⟨S, hB, hS⟩
  · exact absurd h0 hp
  obtain ⟨pre, prev, post, bs2, hfull, hpeq, hmerged, hH2, hc2, _⟩ :=
    mm_free_heap s1 bs1 p S hH1 hB
  have hc2' := hc2 hc1
  have hhl := hH2.hl8
  have hfitin : ((mergedSize prev S post, false) : Blk) ∈ (8, true) :: bs2 := by
    rw [← hmerged]; unfold merged; simp
  have hSle := le_mergedSize prev S post
  rcases find_fit_spec (mm_free s1 p) ((8, true) :: bs2) (adjust n) hH2.tiles hH2.epi hc2'
      (by unfold U32; omega) (by omega) with ⟨pre2, sz, post2, hfull2, hle, hff⟩ | ⟨hno, hff⟩
  · set f := mm_free s1 p with hf
    set bp := f.heap_listp - 4 + bsum pre2 + 4 with hbp
    have hbp0 : bp ≠ 0 := by omega
    have hmm := mm_malloc_found f _ n bp h1 hnlt hff hbp0
    have hreq := mm_malloc_requests_found f _ n bp h1 hnlt hff hbp0
    have hHt : Heap { f with temp := bp } bs2 := Heap_temp f bs2 bp hH2
    obtain ⟨bs3, _, hHp, _, _, _, _, ⟨S3, hB3, hS3, _⟩, _⟩ :=
      place_heap { f with temp := bp } bs2 pre2 post2 bp sz (adjust n) hHt hfull2 hbp a8 a16 hle
    obtain ⟨f1, f2, f3, f4⟩ := place_fields { f with temp := bp } bp (adjust n)
    obtain ⟨g1, g2⟩ := place_header { f with temp := bp } bp (adjust n) a8 a16
      (by unfold U32; omega)
    refine ⟨bp, _, hmm, hbp0, g1, g2, ⟨bs3, S3, hHp, ?_, hS3⟩, f1, hreq⟩
    rw [f3]; exact hB3
  · exfalso
    rcases hno _ hfitin with h | h
    · simp at h
    · simp only at h; omega

/-! ## The result of `mm_init` -/

/-- The memory that a successful `mm_init` leaves: the words written by
`mm_init` itself, then the words written by `extend_heap`. -/
theorem mm_init_ok (m : Mem) (base lim : Nat) (hcap : base + 4112 ≤ lim) :
    mm_init (fresh m base lim) = (0,
      { mem := PUT (PUT (PUT (PUT (PUT (PUT (PUT m base 0) (base + 4) (PACK 8 1)) (base + 8)
          (PACK 8 1)) (base + 12) (PACK 0 1)) (base + 12) (PACK 4096 0)) (base + 4104)
          (PACK 4096 0)) (base + 4108) (PACK 0 1)
        brk := base + 4112, lim := lim, heap_listp := base + 8, temp := base + 8 }) := by
  have hU8 : (8 : Nat) < U32 := by unfold U32; omega
  have hU0 : (0 : Nat) < U32 := by unfold U32; omega
  have hU : (4096 : Nat) < U32 := by unfold U32; omega
  rw [mm_init_eq m base lim (by omega)]
  have hext := extend_heap_ok
    { mem := PUT (PUT (PUT (PUT m base 0) (base + 4) (PACK 8 1)) (base + 8) (PACK 8 1))
        (base + 12) (PACK 0 1)
      brk := base + 16, lim := lim, heap_listp := base + 8, temp := base + 8 }
    4096 (by omega) (by omega) hU (by simp only; omega) (by simp only; omega)
  have e1 : base + 16 - 4 = base + 12 := by omega
  have e2 : base + 16 + 4096 - 8 = base + 4104 := by omega
  have e3 : base + 16 + 4096 - 4 = base + 4108 := by omega
  have e4 : base + 16 + 4096 = base + 4112 := by omega
  simp only [e1, e2, e3, e4] at hext
  have hA : Around
      (PUT (PUT (PUT (PUT (PUT (PUT (PUT m base 0) (base + 4) (PACK 8 1)) (base + 8)
        (PACK 8 1)) (base + 12) (PACK 0 1)) (base + 12) (PACK 4096 0)) (base + 4104)
        (PACK 4096 0)) (base + 4108) (PACK 0 1))
      (base + 16) 8 1 4096 0 1 := by
    refine ⟨by omega, by omega, by omega, by unfold U32; omega, ?_, ?_, ?_, ?_, ?_, ?_, ?_⟩
    · rw [e1, GET_SIZE_PUT_other _ _ _ _ (by omega), GET_SIZE_PUT_other _ _ _ _ (by omega)]
      exact GET_SIZE_PUT_same _ _ _ _ (by omega) hU (by omega)
    · have : base + 16 - 8 = base + 8 := by omega
      rw [this, GET_SIZE_PUT_other _ _ _ _ (by omega), GET_SIZE_PUT_other _ _ _ _ (by omega),
        GET_SIZE_PUT_other _ _ _ _ (by omega), GET_SIZE_PUT_other _ _ _ _ (by omega)]
      exact GET_SIZE_PUT_same _ _ _ _ (by omega) hU8 (by omega)
    · have : base + 16 - 8 - 4 = base + 4 := by omega
      rw [this, GET_SIZE_PUT_other _ _ _ _ (by omega), GET_SIZE_PUT_other _ _ _ _ (by omega),
        GET_SIZE_PUT_other _ _ _ _ (by omega), GET_SIZE_PUT_other _ _ _ _ (by omega),
        GET_SIZE_PUT_other _ _ _ _ (by omega)]
      exact GET_SIZE_PUT_same _ _ _ _ (by omega) hU8 (by omega)
    · have : base + 16 - 8 = base + 8 := by omega
      rw [this, GET_ALLOC_PUT_other _ _ _ _ (by omega), GET_ALLOC_PUT_other _ _ _ _ (by omega),
        GET_ALLOC_PUT_other _ _ _ _ (by omega), GET_ALLOC_PUT_other _ _ _ _ (by omega)]
      exact GET_ALLOC_PUT_same _ _ _ _ (by omega) hU8 (by omega)
    · have : base + 16 + 4096 - 4 = base + 4108 := by omega
      rw [this]
      exact GET_SIZE_PUT_same _ _ _ _ (by omega) hU0 (by omega)
    · have : base + 16 + 4096 - 4 = base + 4108 := by omega
      rw [this]
      exact GET_ALLOC_PUT_same _ _ _ _ (by omega) hU0 (by omega)
    · intro h; omega
  have hco := coalesce_case1
    { mem := PUT (PUT (PUT (PUT (PUT (PUT (PUT m base 0) (base + 4) (PACK 8 1)) (base + 8)
        (PACK 8 1)) (base + 12) (PACK 0 1)) (base + 12) (PACK 4096 0)) (base + 4104)
        (PACK 4096 0)) (base + 4108) (PACK 0 1)
      brk := base + 4112, lim := lim, heap_listp := base + 8, temp := base + 8 }
    (base + 16) 8 1 4096 0 1 hA (by omega) (by omega)
  rw [hco] at hext
  rw [hext]
  simp only
  rw [if_neg (by omega)]

theorem mm_init_fail2 (m : Mem) (base lim : Nat) (hcap1 : base + 16 ≤ lim)
    (hcap2 : ¬ base + 4112 ≤ lim) : (mm_init (fresh m base lim)).1 = -1 := by
  rw [mm_init_eq m base lim hcap1]
  have hfail := extend_heap_fail
    { mem := PUT (PUT (PUT (PUT m base 0) (base + 4) (PACK 8 1)) (base + 8) (PACK 8 1))
        (base + 12) (PACK 0 1)
      brk := base + 16, lim := lim, heap_listp := base + 8, temp := base + 8 }
    4096 (by omega) (by unfold U32; omega) (by simp only; omega)
  rw [hfail]
  simp

/-- The words of the heap after a successful `mm_init`. -/
theorem init_words (m : Mem) (base : Nat) :
    GET (PUT (PUT (PUT (PUT (PUT (PUT (PUT m base 0) (base + 4) (PACK 8 1)) (base + 8)
          (PACK 8 1)) (base + 12) (PACK 0 1)) (base + 12) (PACK 4096 0)) (base + 4104)
          (PACK 4096 0)) (base + 4108) (PACK 0 1)) base = 0 ∧
    Tiles (PUT (PUT (PUT (PUT (PUT (PUT (PUT m base 0) (base + 4) (PACK 8 1)) (base + 8)
          (PACK 8 1)) (base + 12) (PACK 0 1)) (base + 12) (PACK 4096 0)) (base + 4104)
          (PACK 4096 0)) (base + 4108) (PACK 0 1)) (base + 4)
      [(8, true), (4096, false)] (base + 4108) ∧
    GET (PUT (PUT (PUT (PUT (PUT (PUT (PUT m base 0) (base + 4) (PACK 8 1)) (base + 8)
          (PACK 8 1)) (base + 12) (PACK 0 1)) (base + 12) (PACK 4096 0)) (base + 4104)
          (PACK 4096 0)) (base + 4108) (PACK 0 1)) (base + 4108) = 1 := by
  have hU8 : (8 : Nat) < U32 := by unfold U32; omega
  have hU0 : (0 : Nat) < U32 := by unfold U32; omega
  have hU : (4096 : Nat) < U32 := by unfold U32; omega
  refine ⟨?_, ?_, ?_⟩
  · rw [GET_PUT_other _ _ _ _ (by omega), GET_PUT_other _ _ _ _ (by omega),
      GET_PUT_other _ _ _ _ (by omega), GET_PUT_other _ _ _ _ (by omega),
      GET_PUT_other _ _ _ _ (by omega), GET_PUT_other _ _ _ _ (by omega), GET_PUT_same]
    unfold U32; omega
  · simp only [Tiles]
    refine ⟨by norm_num, by norm_num, hU8, ?_, ?_, by norm_num, by norm_num, hU, ?_, ?_,
      by simp only⟩
    · rw [GET_PUT_other _ _ _ _ (by omega), GET_PUT_other _ _ _ _ (by omega),
        GET_PUT_other _ _ _ _ (by omega), GET_PUT_other _ _ _ _ (by omega),
        GET_PUT_other _ _ _ _ (by omega), tagOf_alloc]
      exact GET_PUT_PACK _ _ _ _ (by omega) hU8 (by omega)
    · have : base + 4 + 8 - 4 = base + 8 := by omega
      simp only [this]
      rw [GET_PUT_other _ _ _ _ (by omega), GET_PUT_other _ _ _ _ (by omega),
        GET_PUT_other _ _ _ _ (by omega), GET_PUT_other _ _ _ _ (by omega), tagOf_alloc]
      exact GET_PUT_PACK _ _ _ _ (by omega) hU8 (by omega)
    · have : base + 4 + 8 = base + 12 := by omega
      simp only [this]
      rw [GET_PUT_other _ _ _ _ (by omega), GET_PUT_other _ _ _ _ (by omega), tagOf_free]
      have := GET_PUT_PACK (PUT (PUT (PUT (PUT m base 0) (base + 4) (PACK 8 1)) (base + 8)
          (PACK 8 1)) (base + 12) (PACK 0 1)) (base + 12) 4096 0 (by omega) hU (by omega)
      simpa using this
    · have : base + 4 + 8 + 4096 - 4 = base + 4104 := by omega
      simp only [this]
      rw [GET_PUT_other _ _ _ _ (by omega), tagOf_free]
      have := GET_PUT_PACK (PUT (PUT (PUT (PUT (PUT m base 0) (base + 4) (PACK 8 1)) (base + 8)
          (PACK 8 1)) (base + 12) (PACK 0 1)) (base + 12) (PACK 4096 0)) (base + 4104) 4096 0
          (by omega) hU (by omega)
      simpa using this
  · have := GET_PUT_PACK (PUT (PUT (PUT (PUT (PUT (PUT m base 0) (base + 4) (PACK 8 1)) (base + 8)
          (PACK 8 1)) (base + 12) (PACK 0 1)) (base + 12) (PACK 4096 0)) (base + 4104)
          (PACK 4096 0)) (base + 4108) 0 1 (by omega) hU0 (by omega)
    simpa using this

/-! ## The outcome of `coalesce` -/

/-- The block that `coalesce` returns is free with header equal to footer, and
nothing outside it has changed. -/
theorem coalesce_merged (s : State) (p0 q bp sz : Nat) (pre post : List Blk) (prev : Blk)
    (hT : Tiles s.mem p0 (pre ++ prev :: (sz, false) :: post) q) (hq : GET s.mem q = 1)
    (hbp : bp = p0 + bsum pre + prev.1 + 4)
    (hsmall : bsum (pre ++ prev :: (sz, false) :: post) < U32) :
    MergedAt s (coalesce s bp) (p0 + bsum (mergedPre pre prev) + 4) (mergedSize prev sz post) ∧
      Tiles (coalesce s bp).2.mem p0 (merged pre prev sz post) q := by
  have hC := coalesce_tiles s p0 q bp sz pre post prev hT hq hbp hsmall
  refine ⟨?_, hC.tiles⟩
  have hT1 := hC.tiles
  unfold merged at hT1
  rw [Tiles_append] at hT1
  obtain ⟨_, hT2⟩ := hT1
  simp only [Tiles] at hT2
  obtain ⟨t1, t2, t3, t4, t5, _⟩ := hT2
  rw [tagOf_free] at t4 t5
  have hP := PACK_free _ t2 t3
  have hsize := size_of_tag _ _ _ (by rw [t4, tagOf_free]) t2 t3
  simp only at hsize
  have hH : HDRP (p0 + bsum (mergedPre pre prev) + 4) = p0 + bsum (mergedPre pre prev) := by
    unfold HDRP WSIZE; omega
  have hF : FTRP (coalesce s bp).2.mem (p0 + bsum (mergedPre pre prev) + 4) =
      p0 + bsum (mergedPre pre prev) + mergedSize prev sz post - 4 := by
    unfold FTRP
    rw [hH, hsize]
    unfold DSIZE; omega
  refine ⟨hC.ptr, ?_, ?_, ?_, ?_⟩
  · rw [hH, hP]; exact t4
  · rw [hF, hP]; exact t5
  · rw [hH]; exact hsize
  · intro a ha
    apply hC.frame
    · omega
    · omega

/-- With both neighbours allocated `coalesce` changes nothing. -/
theorem coalesce_both_alloc (s : State) (p0 q bp sz : Nat) (pre post : List Blk) (prev : Blk)
    (hT : Tiles s.mem p0 (pre ++ prev :: (sz, false) :: post) q) (hq : GET s.mem q = 1)
    (hbp : bp = p0 + bsum pre + prev.1 + 4)
    (hsmall : bsum (pre ++ prev :: (sz, false) :: post) < U32)
    (hp : prev.2 = true) (hn : ∀ ns rest, post ≠ (ns, false) :: rest) :
    coalesce s bp = (bp, s) := by
  obtain ⟨ns, na, hA, hcase⟩ := coalesce_around s.mem p0 q bp sz pre post prev false hT hq hbp
    hsmall
  rcases hcase with ⟨hna, _, _⟩ | ⟨_, rest, hrest⟩
  · rw [hp] at hA
    exact coalesce_case1 s bp _ _ sz ns na hA (by simp) (by omega)
  · exact absurd hrest (hn ns rest)

/-! ## The outcome of `place` -/

/-- The function `place` on a free block of size `b`, stated without the
surrounding heap. -/
theorem place_block (s : State) (bp b asize : Nat) (hbp : 4 ≤ bp)
    (hT : Tiles s.mem (bp - 4) [(b, false)] (bp - 4 + b))
    (h8 : asize % 8 = 0) (h16 : 16 ≤ asize) (hle : asize ≤ b) :
    Tiles (place s bp asize).mem (bp - 4)
        (if 16 ≤ b - asize then [(asize, true), (b - asize, false)] else [(b, true)])
        (bp - 4 + b) ∧
      (∀ a, a < bp - 4 ∨ bp - 4 + b ≤ a → (place s bp asize).mem a = s.mem a) := by
  have h := place_tiles s (bp - 4) (bp - 4 + b) bp b asize [] [] hT (by simp [bsum]; omega)
    h8 h16 hle
  simp only [List.nil_append, List.append_nil] at h
  have e : placeBlocks b asize =
      (if 16 ≤ b - asize then [(asize, true), (b - asize, false)] else [(b, true)]) := by
    unfold placeBlocks
    by_cases hc : b < asize + 16
    · rw [if_pos hc, if_neg (by omega)]
    · rw [if_neg hc, if_pos (by omega)]
  rw [e] at h
  exact h

/-! ## The adjusted size -/

theorem adjust_least (n : Nat) (h1 : 1 ≤ n) (h2 : n ≤ 4294967280) :
    adjust n = (if n ≤ 8 then 16 else 8 * ((n + 15) / 8)) ∧
      adjust n % 8 = 0 ∧ n + 8 ≤ adjust n ∧ (∀ k, k % 8 = 0 → n + 8 ≤ k → adjust n ≤ k) ∧
      16 ≤ adjust n ∧ adjust n < n + 16 := by
  have e : adjust n = (if n ≤ 8 then 16 else 8 * ((n + 15) / 8)) := by
    unfold adjust DSIZE U32
    split
    · rfl
    · omega
  rw [e]
  refine ⟨rfl, ?_, ?_, ?_, ?_, ?_⟩
  · split <;> omega
  · split <;> omega
  · intro k hk1 hk2
    split <;> omega
  · split <;> omega
  · split <;> omega

/-! ## Facts about the further concrete runs -/

set_option maxRecDepth 100000 in
theorem tiny0_heap : Heap tiny0 [(4096, false)] :=
  ⟨by decide, by simp only [Tiles]; decide, by decide, by decide, by decide⟩

set_option maxRecDepth 100000 in
theorem tiny0_cursor : CursorOK tiny0 [(4096, false)] := by
  unfold CursorOK; decide

set_option maxRecDepth 100000 in
theorem runE1_eq : mm_malloc demo0 24 = .ok (16, runE1) :=
  ok_of _ demo0 16 (by decide) (by decide)

set_option maxRecDepth 100000 in
theorem runE2_eq : mm_malloc runE1 24 = .ok (48, runE2) :=
  ok_of _ runE1 48 (by decide) (by decide)

set_option maxRecDepth 100000 in
theorem runE3_eq : mm_malloc runE2 24 = .ok (80, runE3) :=
  ok_of _ runE2 80 (by decide) (by decide)

set_option maxRecDepth 100000 in
theorem runE4a_heap : Heap runE4a [(32, false), (32, false), (32, true), (4000, false)] :=
  ⟨by decide, by simp only [Tiles]; decide, by decide, by decide, by decide⟩

set_option maxRecDepth 100000 in
theorem runE5_eq : runE5 = (coalesce runE4a 16).2 :=
  mm_free_eq runE4 16 32 (by decide)

set_option maxRecDepth 100000 in
theorem runF2_eq : mm_malloc runA1 16 = .ok (32, runF2) :=
  ok_of _ runA1 32 (by decide) (by decide)

set_option maxRecDepth 100000 in
theorem runF3_eq : mm_malloc runF2 8 = .ok (56, runF3) :=
  ok_of _ runF2 56 (by decide) (by decide)

set_option maxRecDepth 100000 in
theorem runF3_heap : Heap runF3 [(16, true), (24, true), (16, true), (4040, false)] :=
  ⟨by decide, by simp only [Tiles]; decide, by decide, by decide, by decide⟩

set_option maxRecDepth 100000 in
theorem runF4_heap : Heap runF4 [(16, true), (24, false), (16, true), (4040, false)] :=
  ⟨by decide, by simp only [Tiles]; decide, by decide, by decide, by decide⟩

set_option maxRecDepth 100000 in
theorem runF5_heap : Heap runF5 [(32, true), (8, false), (16, true), (4040, false)] :=
  ⟨by decide, by simp only [Tiles]; decide, by decide, by decide, by decide⟩

set_option maxRecDepth 100000 in
theorem runF5_eq : mm_realloc runF4 16 24 = .ok (16, runF5) :=
  ok_of _ runF4 16 (by decide) (by decide)

theorem runF2_reach : Reach runF2 :=
  Reach.malloc runA1 runF2 16 32 runA1_reach (by omega) (by unfold MAXREQ; omega) runF2_eq

theorem runF3_reach : Reach runF3 :=
  Reach.malloc runF2 runF3 8 56 runF2_reach (by omega) (by unfold MAXREQ; omega) runF3_eq

set_option maxRecDepth 100000 in
theorem runF3_alloc : Allocated runF3 32 :=
  ⟨_, 24, runF3_heap, [(16, true)], [(16, true), (4040, false)], rfl, by decide⟩

theorem runF4_reach : Reach runF4 := Reach.free runF3 32 runF3_reach runF3_alloc

set_option maxRecDepth 100000 in
theorem runF4_alloc : Allocated runF4 16 :=
  ⟨_, 16, runF4_heap, [], [(24, false), (16, true), (4040, false)], rfl, by decide⟩

set_option maxRecDepth 100000 in
theorem runH3_eq : mm_malloc runA2 700000 = .ok (48, runH3) :=
  ok_of _ runA2 48 (by decide) (by decide)

set_option maxRecDepth 100000 in
theorem runH6_eq : mm_realloc runH5 16 24 = .ok (16, runH6) :=
  ok_of _ runH5 16 (by decide) (by decide)

set_option maxRecDepth 100000 in
theorem runH7_eq : mm_realloc runH6 16 24 = .ok (32, runH7) :=
  ok_of _ runH6 32 (by decide) (by decide)

set_option maxRecDepth 100000 in
theorem runH6_heap : Heap runH6 [(32, true), (704072, false)] :=
  ⟨by decide, by simp only [Tiles]; decide, by decide, by decide, by decide⟩

set_option maxRecDepth 100000 in
theorem runH6_alloc : Allocated runH6 16 :=
  ⟨_, 32, runH6_heap, [], [(704072, false)], rfl, by decide⟩

theorem runH6_live : LiveR runH6 [(16, 24)] := by
  have h0 : LiveR demo0 [] := LiveR.init (fun _ => 0) 0 2097152 demo0 demo0_init
  have h1 : LiveR runA1 [(16, 8)] :=
    LiveR.malloc demo0 runA1 [] 8 16 h0 (by omega) (by omega) runA1_eq (by omega)
  have h2 : LiveR runA2 [(32, 8), (16, 8)] :=
    LiveR.malloc runA1 runA2 _ 8 32 h1 (by omega) (by omega) runA2_eq (by omega)
  have h3 : LiveR runH3 [(48, 700000), (32, 8), (16, 8)] :=
    LiveR.malloc runA2 runH3 _ 700000 48 h2 (by omega) (by omega) runH3_eq (by omega)
  have h4 : LiveR runH4 [(32, 8), (16, 8)] := by
    have := LiveR.free runH3 _ 48 700000 h3 (by simp)
    simpa [runH4] using this
  have h5 : LiveR runH5 [(16, 8)] := by
    have := LiveR.free runH4 _ 32 8 h4 (by simp)
    simpa [runH5] using this
  have := LiveR.realloc runH5 runH6 _ 16 8 24 16 h5 (by simp) (by omega) (by omega) runH6_eq
  simpa using this

set_option maxRecDepth 100000 in
theorem runH6_payload : GET_SIZE runH6.mem (HDRP 16) - 8 = 24 ∧ runH6.temp = 32 := by decide

set_option maxRecDepth 100000 in
theorem runH7_byte : runH7.mem (32 + 12) ≠ runH6.mem (16 + 12) := by decide

set_option maxRecDepth 100000 in
theorem runG1_eq : mm_malloc demo0 2147483648 = .ok (16, runG1) :=
  ok_of _ demo0 16 (by decide) (by decide)

set_option maxRecDepth 100000 in
theorem big0_init : mm_init (fresh (fun _ => 0) 0 4294967295) = (0, big0) :=
  Prod.ext (by decide) rfl

theorem big0_reach : Reach big0 :=
  Reach.init (fun _ => 0) 0 4294967295 big0 (by unfold U32; omega) big0_init

set_option maxRecDepth 100000 in
theorem big1_eq : mm_malloc big0 4088 = .ok (16, big1) :=
  ok_of _ big0 16 (by decide) (by decide)

set_option maxRecDepth 100000 in
theorem big2_eq : mm_malloc big1 1073741816 = .ok (4112, big2) :=
  ok_of _ big1 4112 (by decide) (by decide)

set_option maxRecDepth 100000 in
theorem big3_eq : mm_malloc big2 1073741816 = .ok (1073745936, big3) :=
  ok_of _ big2 1073745936 (by decide) (by decide)

set_option maxRecDepth 100000 in
theorem big3_heap : Heap big3 [(4096, true), (1073741824, true), (1073741824, true)] :=
  ⟨by decide, by simp only [Tiles]; decide, by decide, by decide, by decide⟩

set_option maxRecDepth 100000 in
theorem big4_heap : Heap big4 [(4096, true), (1073741824, false), (1073741824, true)] :=
  ⟨by decide, by simp only [Tiles]; decide, by decide, by decide, by decide⟩

set_option maxRecDepth 100000 in
theorem big5_heap : Heap big5 [(4096, true), (2147483648, false)] :=
  ⟨by decide, by simp only [Tiles]; decide, by decide, by decide, by decide⟩

theorem big3_reach : Reach big3 :=
  Reach.malloc big2 big3 1073741816 1073745936
    (Reach.malloc big1 big2 1073741816 4112
      (Reach.malloc big0 big1 4088 16 big0_reach (by omega) (by unfold MAXREQ; omega) big1_eq)
      (by omega) (by unfold MAXREQ; omega) big2_eq)
    (by omega) (by unfold MAXREQ; omega) big3_eq

set_option maxRecDepth 100000 in
theorem big3_alloc : Allocated big3 4112 :=
  ⟨_, 1073741824, big3_heap, [(4096, true)], [(1073741824, true)], rfl, by decide⟩

set_option maxRecDepth 100000 in
theorem big4_alloc : Allocated big4 1073745936 :=
  ⟨_, 1073741824, big4_heap, [(4096, true), (1073741824, false)], [], rfl, by decide⟩

theorem big5_reach : Reach big5 :=
  Reach.free big4 1073745936 (Reach.free big3 4112 big3_reach big3_alloc) big4_alloc

set_option maxRecDepth 100000 in
theorem big6_eq : mm_malloc big5 4294967288 = .ok (4112, big6) :=
  ok_of _ big5 4112 (by decide) (by decide)

theorem big7_live : Live 0 big7 [16] := by
  have h0 : Live 0 big0 [] := Live.init (fun _ => 0) 4294967295 big0 big0_init
  have h1 : Live 0 big1 [16] := by
    have := Live.malloc big0 big1 [] 4088 16 h0 big1_eq
    simpa using this
  have h2 : Live 0 big2 [4112, 16] := by
    have := Live.malloc big1 big2 _ 1073741816 4112 h1 big2_eq
    simpa using this
  have h3 : Live 0 big3 [1073745936, 4112, 16] := by
    have := Live.malloc big2 big3 _ 1073741816 1073745936 h2 big3_eq
    simpa using this
  have h4 : Live 0 big4 [1073745936, 16] := by
    have := Live.free big3 _ 4112 h3 (by simp)
    simpa [big4] using this
  have h5 : Live 0 big5 [16] := by
    have := Live.free big4 _ 1073745936 h4 (by simp)
    simpa [big5] using this
  have h6 : Live 0 big6 [4112, 16] := by
    have := Live.malloc big5 big6 _ 4294967288 4112 h5 big6_eq
    simpa using this
  have := Live.free big6 _ 4112 h6 (by simp)
  simpa [big7] using this

set_option maxRecDepth 100000 in
theorem big8_eq : mm_malloc big7 8 = .ok (2147487760, big8) :=
  ok_of _ big7 2147487760 (by decide) (by decide)

set_option maxRecDepth 100000 in
theorem big10_eq : mm_malloc big9 8 = .ok (2147483664, big10) :=
  ok_of _ big9 2147483664 (by decide) (by decide)

set_option maxRecDepth 100000 in
theorem big9_requests : mm_malloc_requests big9 8 = [4096] := by decide

set_option maxRecDepth 100000 in
theorem big10_brk : big10.brk = big9.brk + 4096 := by decide

set_option maxRecDepth 100000 in
theorem runD1_eq : mm_malloc demo0 4294967295 = .ok (16, runD1) :=
  ok_of _ demo0 16 (by decide) (by decide)

set_option maxRecDepth 100000 in
theorem runD1_header :
    GET_ALLOC runD1.mem (HDRP 16) = 1 ∧ GET_SIZE runD1.mem (HDRP 16) = 8 := by decide

set_option maxRecDepth 100000 in
theorem runG1_header :
    GET_SIZE runG1.mem (HDRP 16) = 2147483656 ∧ runG1.brk = 8208 := by decide

set_option maxRecDepth 100000 in
theorem runK1_eq : mm_malloc demo0 4294967288 = .ok (16, runK1) :=
  ok_of _ demo0 16 (by decide) (by decide)

set_option maxRecDepth 100000 in
theorem runK2_eq : mm_malloc runK1 8 = .ok (16, runK2) :=
  ok_of _ runK1 16 (by decide) (by decide)

set_option maxRecDepth 100000 in
theorem runK3_eq : mm_malloc runK2 8 = .ok (32, runK3) :=
  ok_of _ runK2 32 (by decide) (by decide)

theorem runK4_live : Live 0 runK4 [32, 16] := by
  have h0 : Live 0 demo0 [] := Live.init (fun _ => 0) 2097152 demo0 demo0_init
  have h1 : Live 0 runK1 [16] := by
    have := Live.malloc demo0 runK1 [] 4294967288 16 h0 runK1_eq
    simpa using this
  have h2 : Live 0 runK2 [16, 16] := by
    have := Live.malloc runK1 runK2 _ 8 16 h1 runK2_eq
    simpa using this
  have h3 : Live 0 runK3 [32, 16, 16] := by
    have := Live.malloc runK2 runK3 _ 8 32 h2 runK3_eq
    simpa using this
  have := Live.free runK3 _ 16 h3 (by simp)
  simpa [runK4] using this

set_option maxRecDepth 100000 in
theorem runK3_header :
    GET_ALLOC runK3.mem (HDRP 16) = 1 ∧ GET_SIZE runK3.mem (HDRP 16) = 16 := by decide

set_option maxRecDepth 100000 in
theorem runK4_first :
    runK4.heap_listp = 8 ∧ NEXT_BLKP runK4.mem 8 = 16 ∧
      GET_SIZE runK4.mem (HDRP 16) = 32 ∧ GET_ALLOC runK4.mem (HDRP 16) = 0 ∧
      NEXT_BLKP runK4.mem 16 = 48 := by decide

set_option maxRecDepth 100000 in
theorem runK4_second :
    GET_SIZE runK4.mem (HDRP 48) = 4064 ∧ GET_ALLOC runK4.mem (HDRP 48) = 0 ∧
      NEXT_BLKP runK4.mem 48 = runK4.brk ∧ GET runK4.mem (HDRP runK4.brk) = 1 := by decide

/-! ## Claims C7 and C11 to C20 -/

/-- C7, evaluated on the code: `runH6` is reached by the valid sequence
`a = mm_malloc(8)`, `b = mm_malloc(8)`, `c = mm_malloc(700000)`, `mm_free(c)`,
`mm_free(b)`, `mm_realloc(a, 24)`; its heap is well-formed and `a = 16` is an
allocated block with a usable payload of 24 bytes.  A second
`mm_realloc(a, 24)` returns 32, and the byte at offset 12 of the returned block
differs from the byte at offset 12 of `a` before the call, although
`12 < min(24, 24)`. -/
theorem C7_content_lost :
    LiveR runH6 [(16, 24)] ∧ WF runH6 ∧ Allocated runH6 16 ∧
      GET_SIZE runH6.mem (HDRP 16) - 8 = 24 ∧ runH6.temp = 32 ∧
      mm_realloc runH6 16 24 = .ok (32, runH7) ∧ 12 < min 24 24 ∧
      runH7.mem (32 + 12) ≠ runH6.mem (16 + 12) := by
  refine ⟨runH6_live, ⟨_, runH6_heap, ?_⟩, runH6_alloc, runH6_payload.1, runH6_payload.2,
    runH7_eq, by omega, runH7_byte⟩
  intro b hb
  simp only [List.mem_cons, List.mem_singleton, List.not_mem_nil, or_false] at hb
  rcases hb with rfl | rfl <;> simp

/-- C11: in every state `mm_malloc(0)` returns `NULL`, and the state after the
call is the state before it, so that every heap word, the heap end and the
search cursor are unchanged; the call makes no request to the region
grower. -/
theorem C11_zero_size (s : State) :
    mm_malloc s 0 = .ok (0, s) ∧ mm_malloc_requests s 0 = [] := by
  constructor
  · unfold mm_malloc; simp
  · unfold mm_malloc_requests; simp

/-- C12: on every heap with a valid search cursor and for every request
`1 ≤ n ≤ MAXREQ` (nothing wraps), `mm_malloc(n)` returns, and it returns `NULL`
if and only if no block of the heap is free with size at least the adjusted
size and the region grower refuses the request of `max(adjust n, 4096)`
bytes; in that case this request is the only one made to the grower and the
state after the call (heap words, heap end, search cursor) is the state before
it. -/
theorem C12_out_of_memory (s : State) (bs : List Blk) (n : Nat) (hH : Heap s bs)
    (hc : CursorOK s bs) (h1 : 1 ≤ n) (h2 : n ≤ MAXREQ) :
    ∃ p s1, mm_malloc s n = .ok (p, s1) ∧
      (p = 0 ↔ ((∀ b ∈ bs, Fits (adjust n) b = false) ∧
        mem_sbrk s (max (adjust n) 4096) = none)) ∧
      (p = 0 → s1 = s ∧ mm_malloc_requests s n = [max (adjust n) 4096]) :=
  mm_malloc_oom s bs n hH hc h1 h2

/-- Witness of C12: a heap whose grower is exhausted, and a request of 5000
bytes. -/
theorem C12_out_of_memory_witness :
    Heap tiny0 [(4096, false)] ∧ CursorOK tiny0 [(4096, false)] ∧ 1 ≤ 5000 ∧ 5000 ≤ MAXREQ ∧
      ∃ p s1, mm_malloc tiny0 5000 = .ok (p, s1) ∧
        (p = 0 ↔ ((∀ b ∈ [((4096, false) : Blk)], Fits (adjust 5000) b = false) ∧
          mem_sbrk tiny0 (max (adjust 5000) 4096) = none)) ∧
        (p = 0 → s1 = tiny0 ∧ mm_malloc_requests tiny0 5000 = [max (adjust 5000) 4096]) :=
  ⟨tiny0_heap, tiny0_cursor, by omega, by unfold MAXREQ; omega,
    C12_out_of_memory tiny0 [(4096, false)] 5000 tiny0_heap tiny0_cursor (by omega)
      (by unfold MAXREQ; omega)⟩

/-- C14: `mm_init` returns -1 if and only if the region grower refuses the
first request (16 bytes) or, having granted it, refuses the second request
(4096 bytes), and returns 0 otherwise.  On success the heap starts at the
grower's first address `base` and ends at `base + 4112`; it consists of a zero
pad word, the prologue block (8, allocated) and one free block of size 4096,
each with header word equal to footer word, and the epilogue header
(0, allocated) in the last word. -/
theorem C14_mm_init_result (m : Mem) (base lim : Nat) :
    ((mm_init (fresh m base lim)).1 = -1 ↔
      (mem_sbrk (fresh m base lim) 16 = none ∨
        ∃ p s1, mem_sbrk (fresh m base lim) 16 = some (p, s1) ∧ mem_sbrk s1 4096 = none)) ∧
    ((mm_init (fresh m base lim)).1 = 0 ∨ (mm_init (fresh m base lim)).1 = -1) ∧
    ((mm_init (fresh m base lim)).1 = 0 →
      (mm_init (fresh m base lim)).2.heap_listp = base + 8 ∧
      (mm_init (fresh m base lim)).2.brk = base + 4112 ∧
      GET (mm_init (fresh m base lim)).2.mem base = 0 ∧
      Tiles (mm_init (fresh m base lim)).2.mem (base + 4) [(8, true), (4096, false)]
        (base + 4108) ∧
      GET (mm_init (fresh m base lim)).2.mem (base + 4108) = 1) := by
  by_cases h1 : base + 16 ≤ lim
  · have hs1 : mem_sbrk (fresh m base lim) 16 =
        some (base, { fresh m base lim with brk := base + 16 }) := by
      unfold mem_sbrk fresh
      simp only
      rw [if_pos h1]
    by_cases h2 : base + 4112 ≤ lim
    · have hok := mm_init_ok m base lim h2
      obtain ⟨w1, w2, w3⟩ := init_words m base
      rw [hok]
      refine ⟨?_, Or.inl rfl, fun _ => ⟨rfl, rfl, w1, w2, w3⟩⟩
      constructor
      · intro h; simp at h
      · rintro (h | ⟨p, s1, h, h'⟩)
        · rw [hs1] at h; cases h
        · rw [hs1] at h
          simp only [Option.some.injEq, Prod.mk.injEq] at h
          obtain ⟨_, rfl⟩ := h
          unfold mem_sbrk fresh at h'
          simp only at h'
          rw [if_pos (by omega)] at h'
          cases h'
    · have hf := mm_init_fail2 m base lim h1 h2
      refine ⟨?_, Or.inr hf, fun h => ?_⟩
      · constructor
        · intro _
          right
          refine ⟨_, _, hs1, ?_⟩
          unfold mem_sbrk fresh
          simp only
          rw [if_neg (by omega)]
        · intro _; exact hf
      · rw [hf] at h; simp at h
  · have hf := mm_init_fail m base lim h1
    refine ⟨?_, Or.inr hf, fun h => ?_⟩
    · constructor
      · intro _
        left
        unfold mem_sbrk fresh
        simp only
        rw [if_neg h1]
      · intro _; exact hf
    · rw [hf] at h; simp at h

/-- Witness of C14: `mm_init` on a zeroed region at address 0 with 2 MiB
succeeds and lays out the heap as stated. -/
theorem C14_mm_init_result_witness :
    (mm_init (fresh (fun _ => 0) 0 2097152)).1 = 0 ∧
      demo0.heap_listp = 8 ∧ demo0.brk = 4112 ∧ GET demo0.mem 0 = 0 ∧
      Tiles demo0.mem 4 [(8, true), (4096, false)] 4108 ∧ GET demo0.mem 4108 = 1 :=
  ⟨by decide, (C14_mm_init_result (fun _ => 0) 0 2097152).2.2 (by decide)⟩

/-- C15: on every heap whose search cursor is the payload address of a block
(the blocks `A` lie before the cursor, the blocks `B` start at the cursor) and
for every 32-bit `asize`, `find_fit(asize)` returns (the loops terminate) the
lowest-address free block of size at least `asize` among `B` if there is one,
otherwise the lowest-address such block among `A`, otherwise `NULL`.  On a
non-NULL result the cursor is the block returned, on `NULL` the state is the
one before the call, and in both cases the memory is untouched.  A returned
block pointer is never 0, and the result is `NULL` if and only if no block of
the heap is free with size at least `asize`. -/
theorem C15_next_fit (s : State) (bs A B : List Blk) (asize : Nat) (hH : Heap s bs)
    (hAB : (8, true) :: bs = A ++ B) (hB : B ≠ [])
    (hc : s.temp = s.heap_listp - 4 + bsum A + 4) (ha : asize < U32) :
    find_fit s asize = .ok
      (match nextFit asize (s.heap_listp - 4) A B with
       | some p => (p, { s with temp := p })
       | none => (0, s)) ∧
    (∀ p, nextFit asize (s.heap_listp - 4) A B = some p → p ≠ 0) ∧
    (nextFit asize (s.heap_listp - 4) A B = none ↔ ∀ b ∈ bs, Fits asize b = false) := by
  have hT := hH.tiles
  rw [hAB] at hT
  have hhl := hH.hl8
  refine ⟨find_fit_next s A B asize hT hH.epi hB hc ha (by omega), ?_, ?_⟩
  · intro p hp
    have := nextFit_pos _ _ _ _ _ hp
    omega
  · rw [nextFit_none_iff, ← hAB]
    constructor
    · intro h b hb
      exact h b (by simp [hb])
    · intro h b hb
      rcases List.mem_cons.1 hb with rfl | hb
      · simp [Fits]
      · exact h b hb

/-- Witness of C15: in the heap `runF4` the cursor is at 56 and the free
blocks are at 32 (size 24) and 72 (size 4040); `find_fit(24)` returns 72, the
first fitting block from the cursor on. -/
theorem C15_next_fit_witness :
    Heap runF4 [(16, true), (24, false), (16, true), (4040, false)] ∧
      runF4.temp = 56 ∧ okPtr (find_fit runF4 24) = 72 ∧
      nextFit 24 (runF4.heap_listp - 4) [(8, true), (16, true), (24, false)]
        [(16, true), (4040, false)] = some 72 ∧
      find_fit runF4 24 = .ok (72, { runF4 with temp := 72 }) := by
  have h := C15_next_fit runF4 _ [(8, true), (16, true), (24, false)]
    [(16, true), (4040, false)] 24 runF4_heap rfl (by simp) (by decide) (by unfold U32; omega)
  have hn : nextFit 24 (runF4.heap_listp - 4) [(8, true), (16, true), (24, false)]
      [(16, true), (4040, false)] = some 72 := by decide
  refine ⟨runF4_heap, by decide, by decide, hn, ?_⟩
  have h1 := h.1
  rw [hn] at h1
  exact h1

/-- C16: let the heap of `s` consist of the blocks `pre`, `prev`, a free block
of size `sz` at `bp`, and `post` (prologue first, so `prev` may be the
prologue; `post` is empty when the successor is the epilogue).  Then
`coalesce(bp)` returns `bp` and leaves the state as it is when `prev` and the
successor are allocated; it returns `bp` as a free block of size `sz + ns`
when only the successor, of size `ns`, is free; it returns the address
`bp - prev.1` of the predecessor as a free block of size `prev.1 + sz` when
only the predecessor is free, and of size `prev.1 + sz + ns` when both are
free.  In each case the header word of the returned block equals its footer
word and no byte outside the returned block is changed. -/
theorem C16_coalesce_cases (s : State) (bs pre post : List Blk) (prev : Blk) (bp sz : Nat)
    (hH : Heap s bs) (hsplit : (8, true) :: bs = pre ++ prev :: (sz, false) :: post)
    (hbp : bp = s.heap_listp - 4 + bsum pre + prev.1 + 4) :
    (prev.2 = true → (∀ ns rest, post ≠ (ns, false) :: rest) → coalesce s bp = (bp, s)) ∧
    (prev.2 = true → ∀ ns rest, post = (ns, false) :: rest →
      MergedAt s (coalesce s bp) bp (sz + ns)) ∧
    (prev.2 = false → (∀ ns rest, post ≠ (ns, false) :: rest) →
      MergedAt s (coalesce s bp) (bp - prev.1) (prev.1 + sz)) ∧
    (prev.2 = false → ∀ ns rest, post = (ns, false) :: rest →
      MergedAt s (coalesce s bp) (bp - prev.1) (prev.1 + sz + ns)) := by
  have hT := hH.tiles
  rw [hsplit] at hT
  have hend := Tiles_end _ _ _ _ hT
  have hsmall : bsum (pre ++ prev :: (sz, false) :: post) < U32 := by
    have := hH.small
    have := hH.cap
    have := hH.hl8
    omega
  have hM := (coalesce_merged s _ _ bp sz pre post prev hT hH.epi hbp hsmall).1
  have hp8 := (Tiles_sizes _ _ _ _ hT prev (by simp)).1
  refine ⟨fun hp hn => coalesce_both_alloc s _ _ bp sz pre post prev hT hH.epi hbp hsmall hp hn,
    ?_, ?_, ?_⟩
  · intro hp ns rest hpost
    have e1 : s.heap_listp - 4 + bsum (mergedPre pre prev) + 4 = bp := by
      unfold mergedPre; rw [if_pos hp, bsum_append]; simp only [bsum]; omega
    have e2 : mergedSize prev sz post = sz + ns := by
      unfold mergedSize; rw [if_pos hp, hpost]; simp
    rw [e1, e2] at hM
    exact hM
  · intro hp hn
    have hp' : ¬ prev.2 = true := by rw [hp]; simp
    have e1 : s.heap_listp - 4 + bsum (mergedPre pre prev) + 4 = bp - prev.1 := by
      unfold mergedPre; rw [if_neg hp']; omega
    have e2 : mergedSize prev sz post = prev.1 + sz := by
      unfold mergedSize
      rw [if_neg hp']
      cases post with
      | nil => simp
      | cons c rest =>
        obtain ⟨cs, ca⟩ := c
        cases ca with
        | true => simp
        | false => exact absurd rfl (hn cs rest)
    rw [e1, e2] at hM
    exact hM
  · intro hp ns rest hpost
    have hp' : ¬ prev.2 = true := by rw [hp]; simp
    have e1 : s.heap_listp - 4 + bsum (mergedPre pre prev) + 4 = bp - prev.1 := by
      unfold mergedPre; rw [if_neg hp']; omega
    have e2 : mergedSize prev sz post = prev.1 + sz + ns := by
      unfold mergedSize; rw [if_neg hp', hpost]
    rw [e1, e2] at hM
    exact hM

/-- Witness of C16, the scenario of the claim: on the fresh heap the blocks
`a = 16`, `b = 48`, `c = 80` of size 32 are allocated; after `mm_free(b)`,
inside `mm_free(a)` the function `coalesce` runs on `runE4a` with the prologue
before `a` and the free block `b` after it, and returns `a` as a free block of
size 64; the block `c` after it is still allocated; `mm_free(c)` then leaves
one free block of size 4096 at `a`, up to the epilogue. -/
theorem C16_coalesce_cases_witness :
    mm_malloc demo0 24 = .ok (16, runE1) ∧ mm_malloc runE1 24 = .ok (48, runE2) ∧
      mm_malloc runE2 24 = .ok (80, runE3) ∧
      Heap runE4a [(32, false), (32, false), (32, true), (4000, false)] ∧
      MergedAt runE4a (coalesce runE4a 16) 16 (32 + 32) ∧
      runE5 = (coalesce runE4a 16).2 ∧
      GET runE5.mem (HDRP 16) = 64 ∧ GET runE5.mem (FTRP runE5.mem 16) = 64 ∧
      GET runE5.mem (HDRP 80) = 33 ∧
      GET runE6.mem (HDRP 16) = 4096 ∧ GET runE6.mem (FTRP runE6.mem 16) = 4096 ∧
      GET runE6.mem (HDRP (NEXT_BLKP runE6.mem 16)) = 1 :=
  ⟨runE1_eq, runE2_eq, runE3_eq, runE4a_heap,
    (C16_coalesce_cases runE4a _ [] [(32, false), (32, true), (4000, false)] (8, true) 16 32
      runE4a_heap rfl (by decide)).2.1 rfl 32 _ rfl,
    runE5_eq, by decide, by decide, by decide, by decide, by decide, by decide⟩

/-- C17: for a free block at `bp` of size `b` (header and footer words equal
to `b`) and every `asize` that is a multiple of 8 with `16 ≤ asize ≤ b`,
`place(bp, asize)` leaves, in the same `b` bytes, an allocated block of size
`asize` followed by a free block of size `b - asize` when `b - asize ≥ 16`,
and one allocated block of size `b` otherwise, each with header word equal to
footer word; no byte outside the original block is changed, nor are the heap
end and the globals. -/
theorem C17_place_split (s : State) (bp b asize : Nat) (hbp : 4 ≤ bp)
    (hT : Tiles s.mem (bp - 4) [(b, false)] (bp - 4 + b))
    (h8 : asize % 8 = 0) (h16 : 16 ≤ asize) (hle : asize ≤ b) :
    Tiles (place s bp asize).mem (bp - 4)
        (if 16 ≤ b - asize then [(asize, true), (b - asize, false)] else [(b, true)])
        (bp - 4 + b) ∧
      (∀ a, a < bp - 4 ∨ bp - 4 + b ≤ a → (place s bp asize).mem a = s.mem a) ∧
      (place s bp asize).brk = s.brk ∧ (place s bp asize).heap_listp = s.heap_listp ∧
      (place s bp asize).temp = s.temp := by
  obtain ⟨k1, k2⟩ := place_block s bp b asize hbp hT h8 h16 hle
  obtain ⟨f1, _, f3, f4⟩ := place_fields s bp asize
  exact ⟨k1, k2, f1, f3, f4⟩

/-- Witness of C17: placing 16 bytes in the free block of size 4096 of the
fresh heap. -/
theorem C17_place_split_witness :
    4 ≤ 16 ∧ Tiles demo0.mem (16 - 4) [(4096, false)] (16 - 4 + 4096) ∧
      Tiles (place demo0 16 16).mem (16 - 4)
        (if 16 ≤ 4096 - 16 then [(16, true), (4096 - 16, false)] else [(4096, true)])
        (16 - 4 + 4096) :=
  ⟨by omega, by simp only [Tiles]; decide,
    (C17_place_split demo0 16 4096 16 (by omega) (by simp only [Tiles]; decide) (by omega)
      (by omega) (by omega)).1⟩

/-- C18, evaluated on the code: `runF4` is reached by a valid sequence, 16 is an
allocated block of size 16 followed by a free block of size 24;
`mm_realloc(16, 24)` returns 16 and enlarges that block in place to 32 bytes,
and the free block that remains after it, at 48, has size 8, below the
minimum block size of 16. -/
theorem C18_small_remainder :
    Reach runF4 ∧ Allocated runF4 16 ∧
      Heap runF4 [(16, true), (24, false), (16, true), (4040, false)] ∧
      mm_realloc runF4 16 24 = .ok (16, runF5) ∧
      Heap runF5 [(32, true), (8, false), (16, true), (4040, false)] ∧
      GET_SIZE runF5.mem (HDRP 16) = 32 ∧ NEXT_BLKP runF5.mem 16 = 48 ∧
      GET_ALLOC runF5.mem (HDRP 48) = 0 ∧ GET_SIZE runF5.mem (HDRP 48) = 8 ∧
      ¬ 16 ≤ GET_SIZE runF5.mem (HDRP 48) :=
  ⟨runF4_reach, runF4_alloc, runF4_heap, runF5_eq, runF5_heap, by decide, by decide, by decide,
    by decide, by decide⟩

/-- C19: for every request `1 ≤ n ≤ 2^32 - 16` the adjusted size computed by
`mm_malloc` is 16 when `n ≤ 8` and `8 * ((n + 15) / 8)` otherwise (nothing
wraps); it is a multiple of 8, at least `n + 8`, and no multiple of 8 that is
at least `n + 8` is smaller; it is at least 16 and less than `n + 16`. -/
theorem C19_adjusted_size (n : Nat) (h1 : 1 ≤ n) (h2 : n ≤ 4294967280) :
    adjust n = (if n ≤ 8 then 16 else 8 * ((n + 15) / 8)) ∧
      adjust n % 8 = 0 ∧ n + 8 ≤ adjust n ∧ (∀ k, k % 8 = 0 → n + 8 ≤ k → adjust n ≤ k) ∧
      16 ≤ adjust n ∧ adjust n < n + 16 :=
  adjust_least n h1 h2

/-- Witness of C19 at the largest request of the range, `2^32 - 16`, whose
adjusted size is `2^32 - 8`. -/
theorem C19_adjusted_size_witness :
    1 ≤ 4294967280 ∧ 4294967280 ≤ 4294967280 ∧ adjust 4294967280 = 4294967288 ∧
      (adjust 4294967280 = (if 4294967280 ≤ 8 then 16 else 8 * ((4294967280 + 15) / 8)) ∧
      adjust 4294967280 % 8 = 0 ∧ 4294967280 + 8 ≤ adjust 4294967280 ∧
      (∀ k, k % 8 = 0 → 4294967280 + 8 ≤ k → adjust 4294967280 ≤ k) ∧
      16 ≤ adjust 4294967280 ∧ adjust 4294967280 < 4294967280 + 16) :=
  ⟨by omega, by omega, by decide, C19_adjusted_size 4294967280 (by omega) (by omega)⟩

/-- C20, evaluated on the code: on the fresh heap, a well-formed heap with a
valid cursor, the request `n = 2^31` has adjusted size `2^31 + 8`, which no
free block fits (`find_fit` returns `NULL`); `mm_malloc(n)` asks the region
grower for 4096 bytes, not for `max(2^31 + 8, 4096)`; the grower succeeds, the
heap end moves by 4096 bytes, and the free block handed to `place`, at 16,
has size 8192, less than the adjusted size. -/
theorem C20_extension_amount :
    WFC demo0 ∧ adjust 2147483648 = 2147483656 ∧
      isOk (find_fit demo0 (adjust 2147483648)) = true ∧
      okPtr (find_fit demo0 (adjust 2147483648)) = 0 ∧
      mm_malloc_requests demo0 2147483648 = [4096] ∧
      max (adjust 2147483648) 4096 ≠ 4096 ∧
      (extend_heap demo0 (4096 / WSIZE)).1 = 16 ∧
      (extend_heap demo0 (4096 / WSIZE)).2.brk = demo0.brk + 4096 ∧
      GET_SIZE (extend_heap demo0 (4096 / WSIZE)).2.mem (HDRP 16) = 8192 ∧
      mm_malloc demo0 2147483648 = .ok (16, runG1) ∧ runG1.brk = demo0.brk + 4096 :=
  ⟨Inv_WFC _ (reach_inv _ demo0_reach), by decide, by decide, by decide, by decide, by decide,
    by decide, by decide, by decide, runG1_eq, by decide⟩

/-! ## Where `coalesce` and `mm_free` write -/

theorem FTRP_ge (m : Mem) (bp : Nat) : bp - 8 ≤ FTRP m bp := by
  unfold FTRP DSIZE; omega

theorem NEXT_BLKP_ge (m : Mem) (bp : Nat) : bp ≤ NEXT_BLKP m bp := by
  unfold NEXT_BLKP; omega

/-- Below `bp - 8`, `coalesce` writes at most the header word of the predecessor,
and only when the predecessor is free. -/
theorem coalesce_low (s : State) (bp a : Nat) (hfree : GET_ALLOC s.mem (bp - 4) = 0)
    (ha : a < bp - 8) (hch : (coalesce s bp).2.mem a ≠ s.mem a) :
    GET_ALLOC s.mem (FTRP s.mem (PREV_BLKP s.mem bp)) = 0 ∧
      PREV_BLKP s.mem bp - 4 ≤ a ∧ a < PREV_BLKP s.mem bp - 4 + 4 := by
  by_contra hcon
  apply hch
  unfold coalesce
  simp only
  split
  · rfl
  · rename_i h1
    split
    · -- predecessor free, successor allocated
      rename_i h2
      obtain ⟨hp, hn⟩ := h2
      simp only
      have hsz : GET_SIZE s.mem (bp - 4) ≠ 0 := by
        intro h0
        apply hn
        unfold HDRP NEXT_BLKP WSIZE
        rw [h0]
        exact hfree
      have h8 := GET_SIZE_mod8 s.mem (bp - 4)
      have hF : FTRP s.mem bp = bp + GET_SIZE s.mem (bp - 4) - 8 := rfl
      have hprev : PREV_BLKP (PUT s.mem (FTRP s.mem bp) (PACK (GET_SIZE s.mem (HDRP bp) +
          GET_SIZE s.mem (HDRP (PREV_BLKP s.mem bp))) 0)) bp = PREV_BLKP s.mem bp := by
        unfold PREV_BLKP DSIZE
        rw [GET_SIZE_PUT_other _ _ _ _ (by omega)]
      rw [hprev]
      have hout : a < PREV_BLKP s.mem bp - 4 ∨ PREV_BLKP s.mem bp - 4 + 4 ≤ a := by
        by_contra hc
        apply hcon
        exact ⟨hp, by omega, by omega⟩
      have hout2 : a < FTRP s.mem bp ∨ FTRP s.mem bp + 4 ≤ a := by omega
      have hH : HDRP (PREV_BLKP s.mem bp) = PREV_BLKP s.mem bp - 4 := rfl
      rw [hH, PUT_outside _ _ _ _ hout, PUT_outside _ _ _ _ hout2]
    · split
      · -- predecessor allocated, successor free
        simp only
        have hF := FTRP_ge (PUT s.mem (HDRP bp) (PACK (GET_SIZE s.mem (HDRP bp) +
          GET_SIZE s.mem (HDRP (NEXT_BLKP s.mem bp))) 0)) bp
        have hH : HDRP bp = bp - 4 := rfl
        rw [PUT_outside _ _ _ _ (by omega), PUT_outside _ _ _ _ (by rw [hH]; omega)]
      · -- both free
        rename_i h2 h3
        simp only
        have hp : GET_ALLOC s.mem (FTRP s.mem (PREV_BLKP s.mem bp)) = 0 := by
          by_contra hp
          by_cases hn : GET_ALLOC s.mem (HDRP (NEXT_BLKP s.mem bp)) = 0
          · exact h3 ⟨hp, hn⟩
          · exact h1 ⟨hp, hn⟩
        have hout : a < PREV_BLKP s.mem bp - 4 ∨ PREV_BLKP s.mem bp - 4 + 4 ≤ a := by
          by_contra hc
          apply hcon
          exact ⟨hp, by omega, by omega⟩
        have hF := FTRP_ge (PUT s.mem (HDRP (PREV_BLKP s.mem bp)) (PACK (GET_SIZE s.mem (HDRP bp) +
          GET_SIZE s.mem (HDRP (PREV_BLKP s.mem bp)) +
          GET_SIZE s.mem (FTRP s.mem (NEXT_BLKP s.mem bp))) 0))
          (NEXT_BLKP (PUT s.mem (HDRP (PREV_BLKP s.mem bp)) (PACK (GET_SIZE s.mem (HDRP bp) +
          GET_SIZE s.mem (HDRP (PREV_BLKP s.mem bp)) +
          GET_SIZE s.mem (FTRP s.mem (NEXT_BLKP s.mem bp))) 0)) bp)
        have hN := NEXT_BLKP_ge (PUT s.mem (HDRP (PREV_BLKP s.mem bp)) (PACK (GET_SIZE s.mem (HDRP bp) +
          GET_SIZE s.mem (HDRP (PREV_BLKP s.mem bp)) +
          GET_SIZE s.mem (FTRP s.mem (NEXT_BLKP s.mem bp))) 0)) bp
        have hH : HDRP (PREV_BLKP s.mem bp) = PREV_BLKP s.mem bp - 4 := rfl
        rw [PUT_outside _ _ _ _ (by omega), hH, PUT_outside _ _ _ _ hout]

theorem PACK_zero_le (v : Nat) : PACK v 0 ≤ v := by
  unfold PACK
  simp only [Nat.zero_and, Nat.or_zero]
  exact Nat.mod_le _ _

theorem GET_SIZE_PUT_PACK_le (m : Mem) (p v : Nat) : GET_SIZE (PUT m p (PACK v 0)) p ≤ v := by
  have h1 := GET_SIZE_le (PUT m p (PACK v 0)) p
  rw [GET_PUT_same] at h1
  have h2 := Nat.mod_le (PACK v 0) U32
  have h3 := PACK_zero_le v
  omega

theorem PUT_HDRP_PREV_outside (m m1 : Mem) (bp v a : Nat) (h : bp + 4 ≤ a) :
    PUT m (HDRP (PREV_BLKP m1 bp)) v a = m a :=
  PUT_outside _ _ _ _ (Or.inr (by unfold HDRP PREV_BLKP WSIZE; omega))

theorem NEXT_BLKP_PUT_other (m : Mem) (p v bp : Nat) (h : bp - 4 + 4 ≤ p ∨ p + 4 ≤ bp - 4) :
    NEXT_BLKP (PUT m p v) bp = NEXT_BLKP m bp := by
  unfold NEXT_BLKP WSIZE
  rw [GET_SIZE_PUT_other _ _ _ _ h]

theorem FTRP_PUT_other (m : Mem) (p v bp : Nat) (h : bp - 4 + 4 ≤ p ∨ p + 4 ≤ bp - 4) :
    FTRP (PUT m p v) bp = FTRP m bp := by
  unfold FTRP HDRP WSIZE
  rw [GET_SIZE_PUT_other _ _ _ _ h]

theorem FTRP_PUT_PACK_le (m : Mem) (bp v : Nat) :
    FTRP (PUT m (HDRP bp) (PACK v 0)) bp ≤ bp + v - 8 := by
  have := GET_SIZE_PUT_PACK_le m (HDRP bp) v
  unfold FTRP DSIZE
  omega

/-- From the successor's header on, `coalesce` writes at most the footer word
of the successor, and only when the successor is free. -/
theorem coalesce_high (s : State) (bp a : Nat) (hsz : 8 ≤ GET_SIZE s.mem (bp - 4))
    (hps : 8 ≤ GET_SIZE s.mem (bp - 8)) (hbp : GET_SIZE s.mem (bp - 8) + 4 ≤ bp)
    (ha : bp + GET_SIZE s.mem (bp - 4) - 4 ≤ a) (hch : (coalesce s bp).2.mem a ≠ s.mem a) :
    GET_ALLOC s.mem (bp + GET_SIZE s.mem (bp - 4) - 4) = 0 ∧
      a < bp + GET_SIZE s.mem (bp - 4) + GET_SIZE s.mem (bp + GET_SIZE s.mem (bp - 4) - 4) - 4 := by
  have hHb : HDRP bp = bp - 4 := rfl
  have hN : HDRP (NEXT_BLKP s.mem bp) = bp + GET_SIZE s.mem (bp - 4) - 4 := rfl
  have hNs : GET_SIZE s.mem (HDRP (NEXT_BLKP s.mem bp)) =
      GET_SIZE s.mem (bp + GET_SIZE s.mem (bp - 4) - 4) := rfl
  have hHs : GET_SIZE s.mem (HDRP bp) = GET_SIZE s.mem (bp - 4) := rfl
  have hP : HDRP (PREV_BLKP s.mem bp) = bp - GET_SIZE s.mem (bp - 8) - 4 := rfl
  have hF : FTRP s.mem bp = bp + GET_SIZE s.mem (bp - 4) - 8 := rfl
  have hFN : FTRP s.mem (NEXT_BLKP s.mem bp) =
      bp + GET_SIZE s.mem (bp - 4) + GET_SIZE s.mem (bp + GET_SIZE s.mem (bp - 4) - 4) - 8 := rfl
  by_contra hcon
  apply hch
  unfold coalesce
  simp only
  split
  · rfl
  · rename_i h1
    split
    · -- predecessor free, successor allocated
      simp only
      rw [PUT_HDRP_PREV_outside _ _ _ _ _ (by omega), PUT_outside _ _ _ _ (by omega)]
    · split
      · -- predecessor allocated, successor free
        rename_i h2
        obtain ⟨_, hn⟩ := h2
        rw [hN] at hn
        simp only
        have hle := FTRP_PUT_PACK_le s.mem bp (GET_SIZE s.mem (HDRP bp) +
          GET_SIZE s.mem (HDRP (NEXT_BLKP s.mem bp)))
        have hout : a < FTRP (PUT s.mem (HDRP bp) (PACK (GET_SIZE s.mem (HDRP bp) +
            GET_SIZE s.mem (HDRP (NEXT_BLKP s.mem bp))) 0)) bp ∨
            FTRP (PUT s.mem (HDRP bp) (PACK (GET_SIZE s.mem (HDRP bp) +
            GET_SIZE s.mem (HDRP (NEXT_BLKP s.mem bp))) 0)) bp + 4 ≤ a := by
          by_contra hc
          apply hcon
          refine ⟨hn, ?_⟩
          omega
        rw [PUT_outside _ _ _ _ hout, PUT_outside _ _ _ _ (by omega)]
      · -- both free
        rename_i h2 h3
        have hn : GET_ALLOC s.mem (bp + GET_SIZE s.mem (bp - 4) - 4) = 0 := by
          by_contra hn
          by_cases hp : GET_ALLOC s.mem (FTRP s.mem (PREV_BLKP s.mem bp)) = 0
          · exact h2 ⟨hp, by rw [hN]; exact hn⟩
          · exact h1 ⟨hp, by rw [hN]; exact hn⟩
        simp only
        rw [NEXT_BLKP_PUT_other _ _ _ _ (by omega)]
        have hq : NEXT_BLKP s.mem bp = bp + GET_SIZE s.mem (bp - 4) := rfl
        rw [FTRP_PUT_other _ _ _ _ (by omega)]
        have hout : a < FTRP s.mem (NEXT_BLKP s.mem bp) ∨
            FTRP s.mem (NEXT_BLKP s.mem bp) + 4 ≤ a := by
          by_contra hc
          apply hcon
          exact ⟨hn, by omega⟩
        rw [PUT_outside _ _ _ _ hout, PUT_outside _ _ _ _ (by omega)]

/-! ## Neighbours of a block, and `memcpy` -/

theorem BlockIn_pred (p0 p sz : Nat) (a : Bool) (l : List Blk) (h : BlockIn p0 l p sz a)
    (hne : p ≠ p0 + 4) :
    ∃ psz pa, BlockIn p0 l (p - psz) psz pa ∧ psz + p0 + 4 ≤ p := by
  obtain ⟨pre, post, rfl, rfl⟩ := h
  rcases List.eq_nil_or_concat pre with h0 | ⟨pre1, P, h1⟩
  · subst h0; simp [bsum] at hne
  · rw [List.concat_eq_append] at h1
    subst h1
    refine ⟨P.1, P.2, ⟨pre1, (sz, a) :: post, by simp, ?_⟩, ?_⟩
    · simp only [bsum_append, bsum]; omega
    · simp only [bsum_append, bsum]; omega

theorem BlockIn_succ (p0 p sz : Nat) (a : Bool) (l : List Blk) (h : BlockIn p0 l p sz a) :
    p + sz - 4 = p0 + bsum l ∨ ∃ nsz na, BlockIn p0 l (p + sz) nsz na := by
  obtain ⟨pre, post, rfl, rfl⟩ := h
  cases post with
  | nil => left; simp only [bsum_append, bsum]; omega
  | cons n rest =>
    right
    refine ⟨n.1, n.2, pre ++ [(sz, a)], rest, by simp, ?_⟩
    simp only [bsum_append, bsum]; omega

theorem memcpy_outside (m : Mem) (dst src n a : Nat) (h : a < dst ∨ dst + n ≤ a) :
    memcpy m dst src n a = m a := by
  unfold memcpy
  rw [if_neg (by omega)]

theorem GET_memcpy_outside (m : Mem) (dst src n x : Nat) (h : x + 4 ≤ dst ∨ dst + n ≤ x) :
    GET (memcpy m dst src n) x = GET m x :=
  GET_congr _ _ _ (fun a h1 h2 => memcpy_outside _ _ _ _ _ (by omega))

theorem GET_memcpy_inside (m : Mem) (dst src n x : Nat) (h1 : dst ≤ x) (h2 : x + 4 ≤ dst + n) :
    GET (memcpy m dst src n) x = GET m (src + (x - dst)) := by
  have e1 : src + (x + 1 - dst) = src + (x - dst) + 1 := by omega
  have e2 : src + (x + 2 - dst) = src + (x - dst) + 2 := by omega
  have e3 : src + (x + 3 - dst) = src + (x - dst) + 3 := by omega
  unfold GET memcpy
  rw [if_pos (by omega), if_pos (by omega), if_pos (by omega), if_pos (by omega), e1, e2, e3]

theorem GET_SIZE_congr (m m1 : Mem) (p : Nat) (h : GET m1 p = GET m p) :
    GET_SIZE m1 p = GET_SIZE m p := by
  unfold GET_SIZE; rw [h]

theorem GET_ALLOC_congr (m m1 : Mem) (p : Nat) (h : GET m1 p = GET m p) :
    GET_ALLOC m1 p = GET_ALLOC m p := by
  unfold GET_ALLOC; rw [h]

/-! ## Freeing the old block after the copy -/

/-- If the successor of `bp` is allocated, or ends before `lim`, then `coalesce`
changes no byte from `lim` on. -/
theorem coalesce_keeps_high (s : State) (bp I lim a : Nat)
    (hI : GET_SIZE s.mem (bp - 4) = I) (hI8 : 8 ≤ I)
    (hps : 8 ≤ GET_SIZE s.mem (bp - 8)) (hbp : GET_SIZE s.mem (bp - 8) + 4 ≤ bp)
    (hnext : GET_ALLOC s.mem (bp + I - 4) ≠ 0 ∨ bp + I + GET_SIZE s.mem (bp + I - 4) - 4 ≤ lim)
    (hlim : bp + I - 4 ≤ lim) (ha : lim ≤ a) : (coalesce s bp).2.mem a = s.mem a := by
  by_contra hch
  obtain ⟨h1, h2⟩ := coalesce_high s bp a (by rw [hI]; exact hI8) hps hbp (by rw [hI]; omega) hch
  rw [hI] at h1 h2
  rcases hnext with h | h
  · exact h h1
  · omega

/-- If the predecessor of `bp` is allocated, or starts at `lim` or later, then
`coalesce` changes no byte below `lim`. -/
theorem coalesce_keeps_low (s : State) (bp lim a : Nat)
    (g0 : GET_ALLOC s.mem (bp - 4) = 0)
    (hprev : GET_ALLOC s.mem (FTRP s.mem (PREV_BLKP s.mem bp)) ≠ 0 ∨
      lim ≤ bp - GET_SIZE s.mem (bp - 8) - 4)
    (hlim : lim ≤ bp - 8) (ha : a < lim) : (coalesce s bp).2.mem a = s.mem a := by
  by_contra hch
  obtain ⟨h1, h2, h3⟩ := coalesce_low s bp a g0 (by omega) hch
  have hPd : PREV_BLKP s.mem bp = bp - GET_SIZE s.mem (bp - 8) := rfl
  rw [hPd] at h2 h3
  rcases hprev with h | h
  · exact h h1
  · omega

/-- When the old block lies before the new block, `mm_free` of the old block
after the copy leaves the header of the new block as it is. -/
theorem free_copy_before (s1 : State) (p0 q newp ptr S I : Nat) (L : List Blk)
    (hT : Tiles s1.mem p0 L q) (hnew : BlockIn p0 L newp S true)
    (hptr : BlockIn p0 L ptr I true) (hfirst : ptr ≠ p0 + 4)
    (hlt : ptr - 4 + I ≤ newp - 4) :
    ∀ a, newp - 4 ≤ a → a < newp →
      (mm_free { s1 with mem := memcpy s1.mem newp ptr I } ptr).mem a = s1.mem a := by
  obtain ⟨tn1, tn2, hS8, hSm, hSlt⟩ := BlockIn_tags _ _ _ _ _ _ _ hT hnew
  obtain ⟨tp1, tp2, hI8, hIm, hIlt⟩ := BlockIn_tags _ _ _ _ _ _ _ hT hptr
  have hbn := BlockIn_bounds _ _ _ _ _ hnew
  have hbp := BlockIn_bounds _ _ _ _ _ hptr
  have h8 : ∀ b ∈ L, 8 ≤ b.1 := fun b hb => (Tiles_sizes _ _ _ _ hT b hb).1
  obtain ⟨psz, pa, hP, hPle⟩ := BlockIn_pred _ _ _ _ _ hptr hfirst
  obtain ⟨_, tP2, hP8, hPm, hPlt⟩ := BlockIn_tags _ _ _ _ _ _ _ hT hP
  have ePf : ptr - psz + psz - 8 = ptr - 8 := by omega
  rw [ePf] at tP2
  intro a ha1 ha2
  -- the header of `ptr` is not touched by the copy
  have hM4 : GET (memcpy s1.mem newp ptr I) (ptr - 4) = GET s1.mem (ptr - 4) :=
    GET_memcpy_outside _ _ _ _ _ (by omega)
  have hMsz : GET_SIZE (memcpy s1.mem newp ptr I) (ptr - 4) = I := by
    rw [GET_SIZE_congr _ _ _ hM4]
    exact size_of_tag _ _ (I, true) tp1 hIm hIlt
  have hfree := mm_free_eq { s1 with mem := memcpy s1.mem newp ptr I } ptr I hMsz
  have hm2a : PUT (PUT (memcpy s1.mem newp ptr I) (ptr - 4) (PACK I 0)) (ptr + I - 8) (PACK I 0) a
      = s1.mem a := by
    rw [PUT_outside _ _ _ _ (by omega), PUT_outside _ _ _ _ (by omega),
      memcpy_outside _ _ _ _ _ (by omega)]
  -- what `coalesce` reads
  have g1 : GET_SIZE (PUT (PUT (memcpy s1.mem newp ptr I) (ptr - 4) (PACK I 0)) (ptr + I - 8)
      (PACK I 0)) (ptr - 4) = I := by
    rw [GET_SIZE_PUT_other _ _ _ _ (by omega)]
    exact GET_SIZE_PUT_same _ _ _ _ hIm hIlt (by omega)
  have g2 : GET (PUT (PUT (memcpy s1.mem newp ptr I) (ptr - 4) (PACK I 0)) (ptr + I - 8)
      (PACK I 0)) (ptr - 8) = tagOf (psz, pa) := by
    rw [GET_PUT_other _ _ _ _ (by omega), GET_PUT_other _ _ _ _ (by omega),
      GET_memcpy_outside _ _ _ _ _ (by omega)]
    exact tP2
  have g2s := size_of_tag _ _ (psz, pa) g2 hPm hPlt
  simp only at g2s
  have g3 : GET (PUT (PUT (memcpy s1.mem newp ptr I) (ptr - 4) (PACK I 0)) (ptr + I - 8)
      (PACK I 0)) (ptr + I - 4) = GET s1.mem (ptr + I - 4) := by
    rw [GET_PUT_other _ _ _ _ (by omega), GET_PUT_other _ _ _ _ (by omega),
      GET_memcpy_outside _ _ _ _ _ (by omega)]
  -- the successor of `ptr`
  have hnext : GET_ALLOC s1.mem (ptr + I - 4) ≠ 0 ∨
      ptr + I + GET_SIZE s1.mem (ptr + I - 4) - 4 ≤ newp - 4 := by
    rcases BlockIn_succ _ _ _ _ _ hptr with hend | ⟨nsz, na, hN⟩
    · omega
    · obtain ⟨tN1, _, hN8, hNm, hNlt⟩ := BlockIn_tags _ _ _ _ _ _ _ hT hN
      have hNsz := size_of_tag _ _ (nsz, na) tN1 hNm hNlt
      have hNal := alloc_of_tag _ _ (nsz, na) tN1 hNm
      simp only at hNsz hNal
      rw [hNsz, hNal]
      rcases BlockIn_disjoint L p0 (ptr + I) nsz newp S na true h8 hN hnew with
        ⟨e1, e2, e3⟩ | hd | hd
      · left; rw [e3]; simp
      · right; omega
      · omega
  rw [← GET_ALLOC_congr _ _ _ g3, ← GET_SIZE_congr _ _ _ g3] at hnext
  rw [hfree, ← hm2a]
  exact coalesce_keeps_high _ ptr I (newp - 4) a g1 hI8 (by simp only; rw [g2s]; exact hP8)
    (by simp only; rw [g2s]; omega) hnext (by omega) ha1

/-- When the old block lies after the new block, `mm_free` of the old block
after the copy leaves the header of the new block as it is, even when the copy
has overwritten the header of the old block. -/
theorem free_copy_after (s1 : State) (p0 q newp ptr S I : Nat) (L : List Blk)
    (hT : Tiles s1.mem p0 L q) (hnew : BlockIn p0 L newp S true)
    (hptr : BlockIn p0 L ptr I true) (hIS : I ≤ S)
    (hgt : newp - 4 + S ≤ ptr - 4) :
    ∀ a, newp - 4 ≤ a → a < newp →
      (mm_free { s1 with mem := memcpy s1.mem newp ptr I } ptr).mem a = s1.mem a := by
  obtain ⟨tn1, tn2, hS8, hSm, hSlt⟩ := BlockIn_tags _ _ _ _ _ _ _ hT hnew
  obtain ⟨tp1, tp2, hI8, hIm, hIlt⟩ := BlockIn_tags _ _ _ _ _ _ _ hT hptr
  have hbn := BlockIn_bounds _ _ _ _ _ hnew
  have hbp := BlockIn_bounds _ _ _ _ _ hptr
  have h8 : ∀ b ∈ L, 8 ≤ b.1 := fun b hb => (Tiles_sizes _ _ _ _ hT b hb).1
  obtain ⟨psz, pa, hP, hPle⟩ := BlockIn_pred _ _ _ _ _ hptr (by omega)
  obtain ⟨_, tP2, hP8, hPm, hPlt⟩ := BlockIn_tags _ _ _ _ _ _ _ hT hP
  have ePf : ptr - psz + psz - 8 = ptr - 8 := by omega
  rw [ePf] at tP2
  intro a ha1 ha2
  have hfree := mm_free_eq { s1 with mem := memcpy s1.mem newp ptr I } ptr
    (GET_SIZE (memcpy s1.mem newp ptr I) (ptr - 4)) rfl
  rw [hfree]
  have hT8 := GET_SIZE_mod8 (memcpy s1.mem newp ptr I) (ptr - 4)
  have hTlt := GET_SIZE_lt (memcpy s1.mem newp ptr I) (ptr - 4)
  generalize GET_SIZE (memcpy s1.mem newp ptr I) (ptr - 4) = T at hT8 hTlt ⊢
  have hm2a : PUT (PUT (memcpy s1.mem newp ptr I) (ptr - 4) (PACK T 0)) (ptr + T - 8) (PACK T 0) a
      = s1.mem a := by
    rw [PUT_outside _ _ _ _ (by omega), PUT_outside _ _ _ _ (by omega),
      memcpy_outside _ _ _ _ _ (by omega)]
  have g0 : GET_ALLOC (PUT (PUT (memcpy s1.mem newp ptr I) (ptr - 4) (PACK T 0)) (ptr + T - 8)
      (PACK T 0)) (ptr - 4) = 0 := by
    rw [GET_ALLOC_PUT_other _ _ _ _ (by omega)]
    exact GET_ALLOC_PUT_same _ _ _ _ hT8 hTlt (by omega)
  have hprev : GET_ALLOC (PUT (PUT (memcpy s1.mem newp ptr I) (ptr - 4) (PACK T 0)) (ptr + T - 8)
        (PACK T 0)) (FTRP (PUT (PUT (memcpy s1.mem newp ptr I) (ptr - 4) (PACK T 0)) (ptr + T - 8)
        (PACK T 0)) (PREV_BLKP (PUT (PUT (memcpy s1.mem newp ptr I) (ptr - 4) (PACK T 0))
        (ptr + T - 8) (PACK T 0)) ptr)) ≠ 0 ∨
      newp ≤ ptr - GET_SIZE (PUT (PUT (memcpy s1.mem newp ptr I) (ptr - 4) (PACK T 0))
        (ptr + T - 8) (PACK T 0)) (ptr - 8) - 4 := by
    by_cases hT0 : T = 0
    · subst hT0
      right
      have e : ptr + 0 - 8 = ptr - 8 := by omega
      rw [e]
      have : GET_SIZE (PUT (PUT (memcpy s1.mem newp ptr I) (ptr - 4) (PACK 0 0)) (ptr - 8)
          (PACK 0 0)) (ptr - 8) = 0 :=
        GET_SIZE_PUT_same _ _ _ _ (by omega) (by unfold U32; omega) (by omega)
      rw [this]
      omega
    · have g2 : GET (PUT (PUT (memcpy s1.mem newp ptr I) (ptr - 4) (PACK T 0)) (ptr + T - 8)
          (PACK T 0)) (ptr - 8) = GET (memcpy s1.mem newp ptr I) (ptr - 8) := by
        rw [GET_PUT_other _ _ _ _ (by omega), GET_PUT_other _ _ _ _ (by omega)]
      rcases BlockIn_disjoint L p0 (ptr - psz) psz newp S pa true h8 hP hnew with
        ⟨e1, e2, e3⟩ | hd | hd
      · -- the predecessor of `ptr` is the new block
        left
        subst e2 e3
        have g3 : GET (memcpy s1.mem newp ptr I) (ptr - 8) = tagOf (psz, true) := by
          by_cases hII : I = psz
          · rw [GET_memcpy_inside _ _ _ _ _ (by omega) (by omega)]
            have : ptr + (ptr - 8 - newp) = ptr + I - 8 := by omega
            rw [this, tp2, hII]
          · rw [GET_memcpy_outside _ _ _ _ _ (by omega)]
            exact tP2
        rw [g3] at g2
        have g2s := size_of_tag _ _ (psz, true) g2 hPm hPlt
        have g2a := alloc_of_tag _ _ (psz, true) g2 hPm
        simp only at g2s g2a
        have g4 : GET (PUT (PUT (memcpy s1.mem newp ptr I) (ptr - 4) (PACK T 0)) (ptr + T - 8)
            (PACK T 0)) (newp - 4) = tagOf (psz, true) := by
          rw [GET_PUT_other _ _ _ _ (by omega), GET_PUT_other _ _ _ _ (by omega),
            GET_memcpy_outside _ _ _ _ _ (by omega)]
          exact tn1
        have g4s := size_of_tag _ _ (psz, true) g4 hPm hPlt
        simp only at g4s
        have hPd : PREV_BLKP (PUT (PUT (memcpy s1.mem newp ptr I) (ptr - 4) (PACK T 0))
            (ptr + T - 8) (PACK T 0)) ptr = ptr - psz := by
          unfold PREV_BLKP DSIZE
          rw [g2s]
        have hF : FTRP (PUT (PUT (memcpy s1.mem newp ptr I) (ptr - 4) (PACK T 0)) (ptr + T - 8)
            (PACK T 0)) (ptr - psz) = ptr - 8 := by
          have hh : HDRP (ptr - psz) = newp - 4 := by unfold HDRP WSIZE; omega
          unfold FTRP
          rw [hh, g4s]
          unfold DSIZE; omega
        rw [hPd, hF, g2a]
        simp
      · omega
      · -- the predecessor of `ptr` lies after the new block
        right
        have g3 : GET (memcpy s1.mem newp ptr I) (ptr - 8) = tagOf (psz, pa) := by
          rw [GET_memcpy_outside _ _ _ _ _ (by omega)]
          exact tP2
        rw [g3] at g2
        have g2s := size_of_tag _ _ (psz, pa) g2 hPm hPlt
        simp only at g2s
        rw [g2s]
        omega
  rw [← hm2a]
  exact coalesce_keeps_low _ ptr newp a g0 hprev (by omega) ha2

/-- After the copy, `mm_free` of the old block leaves the header of the new
block as it is. -/
theorem free_after_copy (s1 : State) (p0 q newp ptr S I : Nat) (L : List Blk)
    (hT : Tiles s1.mem p0 L q) (hnew : BlockIn p0 L newp S true)
    (hptr : BlockIn p0 L ptr I true) (hne : ptr ≠ newp) (hIS : I ≤ S)
    (hfirst : ptr ≠ p0 + 4) :
    GET (mm_free { s1 with mem := memcpy s1.mem newp ptr I } ptr).mem (newp - 4) =
      tagOf (S, true) := by
  have h8 : ∀ b ∈ L, 8 ≤ b.1 := fun b hb => (Tiles_sizes _ _ _ _ hT b hb).1
  have hbn := BlockIn_bounds _ _ _ _ _ hnew
  obtain ⟨tn1, _⟩ := BlockIn_tags _ _ _ _ _ _ _ hT hnew
  rw [← tn1]
  apply GET_congr
  intro a h1 h2
  rcases BlockIn_disjoint L p0 ptr I newp S true true h8 hptr hnew with ⟨e, _, _⟩ | hlt | hgt
  · exact absurd e hne
  · exact free_copy_before s1 p0 q newp ptr S I L hT hnew hptr hfirst hlt a h1 (by omega)
  · exact free_copy_after s1 p0 q newp ptr S I L hT hnew hptr hIS hgt a h1 (by omega)

/-! ## Allocated blocks persist through `mm_malloc` -/

theorem BlockIn_place (pre post : List Blk) (sz asize p0 p s : Nat) (hle : asize ≤ sz)
    (h : BlockIn p0 (pre ++ (sz, false) :: post) p s true) :
    BlockIn p0 (pre ++ placeBlocks sz asize ++ post) p s true := by
  obtain ⟨S, rest, hpb, _, _, hsum⟩ := placeBlocks_head sz asize hle
  rw [BlockIn_append_iff, BlockIn_cons_iff] at h
  rw [List.append_assoc, BlockIn_append_iff, BlockIn_append_iff]
  rcases h with h | ⟨h, _⟩ | h
  · exact Or.inl h
  · simp at h
  · right; right
    rw [← hpb] at hsum
    rw [hsum]
    exact h

theorem BlockIn_merged (pre post : List Blk) (prev : Blk) (sz p0 p s : Nat) (a0 : Bool)
    (h : BlockIn p0 (pre ++ prev :: (sz, a0) :: post) p s true)
    (hne : p ≠ p0 + bsum pre + prev.1 + 4) :
    BlockIn p0 (merged pre prev sz post) p s true := by
  unfold merged
  rw [BlockIn_append_iff, BlockIn_cons_iff, BlockIn_cons_iff] at h
  rw [BlockIn_append_iff, BlockIn_cons_iff]
  rcases h with h | ⟨h, hp⟩ | ⟨_, hp⟩ | h
  · left
    unfold mergedPre
    split
    · rw [BlockIn_append_iff]; exact Or.inl h
    · exact h
  · left
    unfold mergedPre
    rw [if_pos (by rw [h])]
    rw [BlockIn_append_iff, BlockIn_cons_iff]
    exact Or.inr (Or.inl ⟨h, hp⟩)
  · exact absurd hp hne
  · right; right
    simp only at h
    have hbase : p0 + bsum (mergedPre pre prev) + mergedSize prev sz post =
        p0 + bsum pre + prev.1 + sz + (mergedSize prev sz post -
          ((if prev.2 then 0 else prev.1) + sz)) := by
      unfold mergedPre mergedSize
      split
      · simp only [bsum_append, bsum]; omega
      · omega
    show BlockIn (p0 + bsum (mergedPre pre prev) + mergedSize prev sz post) (mergedPost post) p s
      true
    rw [hbase]
    cases post with
    | nil => exact absurd h (BlockIn_nil _ _ _ _)
    | cons c rest =>
      obtain ⟨cs, ca⟩ := c
      cases ca with
      | true =>
        have e : mergedSize prev sz ((cs, true) :: rest) - ((if prev.2 then 0 else prev.1) + sz)
            = 0 := by
          unfold mergedSize; simp
        rw [e]
        exact h
      | false =>
        have e : mergedSize prev sz ((cs, false) :: rest) - ((if prev.2 then 0 else prev.1) + sz)
            = cs := by
          unfold mergedSize; simp
        rw [e]
        rw [BlockIn_cons_iff] at h
        rcases h with ⟨h, _⟩ | h
        · simp at h
        · exact h

/-- A block of a tiling is not at the position of a different block. -/
theorem BlockIn_ne (l : List Blk) (p0 p1 s1 p2 s2 : Nat) (h8 : ∀ b ∈ l, 8 ≤ b.1)
    (h1 : BlockIn p0 l p1 s1 true) (h2 : BlockIn p0 l p2 s2 false) : p1 ≠ p2 := by
  have hb1 := BlockIn_bounds _ _ _ _ _ h1
  have hb2 := BlockIn_bounds _ _ _ _ _ h2
  have hs1 := h8 _ (BlockIn_mem _ _ _ _ _ h1)
  have hs2 := h8 _ (BlockIn_mem _ _ _ _ _ h2)
  simp only at hs1 hs2
  rcases BlockIn_disjoint l p0 p1 s1 p2 s2 true false h8 h1 h2 with ⟨_, _, e⟩ | h | h
  · simp at e
  · omega
  · omega

/-- Two heaps of one state have the same blocks. -/
theorem Heap_unique (s : State) (bs cs : List Blk) (h1 : Heap s bs) (h2 : Heap s cs) :
    bs = cs := by
  have e := Tiles_unique _ _ _ _ _ h1.tiles h2.tiles
  simpa using e

/-- The blocks allocated before `mm_malloc` are allocated blocks afterwards, at
the same addresses and with the same sizes, and differ from the block
returned. -/
theorem mm_malloc_persist (s s1 : State) (bs bs1 : List Blk) (n p : Nat) (hH : Heap s bs)
    (hc : CursorOK s bs) (h1 : 1 ≤ n) (h2 : n ≤ MAXREQ)
    (hm : mm_malloc s n = .ok (p, s1)) (hH1 : Heap s1 bs1) :
    ∀ x sz, BlockIn (s.heap_listp - 4) ((8, true) :: bs) x sz true →
      BlockIn (s.heap_listp - 4) ((8, true) :: bs1) x sz true ∧ (p ≠ 0 → x ≠ p) := by
  obtain ⟨a16, a8, age, alt, asm⟩ := adjust_facts n h1 h2
  have hhl := hH.hl8
  have hnlt : n < U32 := by unfold MAXREQ at h2; unfold U32; omega
  have h8 : ∀ b ∈ (8, true) :: bs, 8 ≤ b.1 := fun b hb => (Tiles_sizes _ _ _ _ hH.tiles b hb).1
  intro x sz hx
  rcases find_fit_spec s ((8, true) :: bs) (adjust n) hH.tiles hH.epi hc
      (by unfold U32; omega) (by omega) with ⟨pre, sz0, post, hfull, hle, hff⟩ | ⟨hno, hff⟩
  · -- a fit is found
    have hbp0 : s.heap_listp - 4 + bsum pre + 4 ≠ 0 := by omega
    have hmm := mm_malloc_found s _ n _ h1 hnlt hff hbp0
    rw [hm] at hmm
    simp only [Except.ok.injEq, Prod.mk.injEq] at hmm
    obtain ⟨hp, hs1⟩ := hmm
    have hHt : Heap { s with temp := s.heap_listp - 4 + bsum pre + 4 } bs := Heap_temp s bs _ hH
    obtain ⟨bs1', hm', hHp, _⟩ :=
      place_heap { s with temp := s.heap_listp - 4 + bsum pre + 4 } bs pre post _ sz0 (adjust n)
        hHt hfull rfl a8 a16 hle
    rw [← hs1] at hHp
    have e := Heap_unique s1 bs1 bs1' hH1 hHp
    subst e
    rw [hfull] at hx
    refine ⟨?_, fun _ => ?_⟩
    · rw [← hm']
      exact BlockIn_place pre post sz0 (adjust n) _ x sz hle hx
    · rw [hp]
      have hfree : BlockIn (s.heap_listp - 4) (pre ++ (sz0, false) :: post)
          (s.heap_listp - 4 + bsum pre + 4) sz0 false := ⟨pre, post, rfl, rfl⟩
      rw [hfull] at h8
      exact BlockIn_ne _ _ _ _ _ _ h8 hx hfree
  · -- no fit: extend the heap
    have hmm := mm_malloc_extend s s n h1 h2 hff
    rw [max_chunk_eq] at hmm
    have hW8 : max (adjust n) 4096 % 8 = 0 := by omega
    have hW16 : 16 ≤ max (adjust n) 4096 := by omega
    have hWlt : max (adjust n) 4096 < U32 := by unfold U32; omega
    by_cases hcap : s.brk + max (adjust n) 4096 ≤ s.lim
    · obtain ⟨bsx, preX, S, hfx, hHx, hptr, hWS, g3, g2, g1, _⟩ :=
        extend_heap_heap s bs _ hH hW8 hW16 hcap
      have hr1 : (extend_heap s (max (adjust n) 4096 / 4)).1 ≠ 0 := by rw [hptr]; omega
      rw [if_neg hr1, hm] at hmm
      simp only [Except.ok.injEq, Prod.mk.injEq] at hmm
      obtain ⟨hp, hs1⟩ := hmm
      have hbp : (extend_heap s (max (adjust n) 4096 / 4)).1 =
          (extend_heap s (max (adjust n) 4096 / 4)).2.heap_listp - 4 + bsum preX + 4 := by
        rw [g3]; exact hptr
      obtain ⟨bs1', hm', hHp, _⟩ :=
        place_heap (extend_heap s (max (adjust n) 4096 / 4)).2 bsx preX [] _ S (adjust n)
          hHx hfx hbp a8 a16 (by omega)
      rw [← hs1] at hHp
      have e := Heap_unique s1 bs1 bs1' hH1 hHp
      subst e
      -- the blocks after the extension
      obtain ⟨pre0, prev0, hpre0⟩ := exists_last (8, true) bs
      have hT0 := hH.tiles
      rw [hpre0] at hT0
      obtain ⟨hC, _, _⟩ := extend_heap_spec s _ pre0 prev0 hT0 (by omega) hH.small hW8
        (by omega) hcap
      have hTx := hHx.tiles
      rw [g3, g1] at hTx
      have ex : (8, true) :: bsx = merged pre0 prev0 (max (adjust n) 4096) [] :=
        Tiles_unique _ _ _ _ _ hTx hC.tiles
      have hxb := BlockIn_bounds _ _ _ _ _ hx
      rw [hpre0] at hx hxb
      have hx2 : BlockIn (s.heap_listp - 4) (pre0 ++ prev0 :: (max (adjust n) 4096, false) :: [])
          x sz true := by
        have : pre0 ++ prev0 :: (max (adjust n) 4096, false) :: [] =
            (pre0 ++ [prev0]) ++ [(max (adjust n) 4096, false)] := by simp
        rw [this, BlockIn_append_iff]
        exact Or.inl hx
      have hsz8 : 8 ≤ sz := by
        have := h8 _ (BlockIn_mem _ _ _ _ _ (by rw [hpre0]; exact hx))
        exact this
      have hx3 := BlockIn_merged pre0 [] prev0 _ _ x sz false hx2 (by
        simp only [bsum_append, bsum] at hxb; omega)
      rw [← ex] at hx3
      have h8x : ∀ b ∈ (8, true) :: bsx, 8 ≤ b.1 :=
        fun b hb => (Tiles_sizes _ _ _ _ hHx.tiles b hb).1
      refine ⟨?_, fun _ => ?_⟩
      · rw [← hm']
        rw [hfx] at hx3
        have := BlockIn_place preX [] S (adjust n) _ x sz (by omega) hx3
        exact this
      · rw [hp, hptr]
        have hfree : BlockIn (s.heap_listp - 4) (preX ++ (S, false) :: [])
            (s.heap_listp - 4 + bsum preX + 4) S false := ⟨preX, [], rfl, rfl⟩
        rw [hfx] at hx3 h8x
        exact BlockIn_ne _ _ _ _ _ _ h8x hx3 hfree
    · have hfail := extend_heap_fail s _ hW8 hWlt hcap
      rw [hfail] at hmm
      simp only [if_true] at hmm
      rw [hm] at hmm
      simp only [Except.ok.injEq, Prod.mk.injEq] at hmm
      obtain ⟨hp, hs1⟩ := hmm
      subst hs1
      have e := Heap_unique s1 bs1 bs hH1 hH
      subst e
      exact ⟨hx, fun h => absurd hp h⟩

/-! ## The capacity of the block returned by `mm_realloc` -/

theorem realloc_asize (size : Nat) (h1 : 1 ≤ size) (h2 : size ≤ 1048576) :
    size % U32 = size ∧
    (DSIZE * (((size + DSIZE + (DSIZE - 1)) % U32) / DSIZE)) % U32 = 8 * ((size + 15) / 8) ∧
    (MAX 618784 (toInt size)).toNat = max 618784 size := by
  have e : size % U32 = size := Nat.mod_eq_of_lt (by unfold U32; omega)
  refine ⟨e, ?_, ?_⟩
  · unfold DSIZE U32; omega
  · have ht : toInt size = (size : Int) := by
      unfold toInt
      rw [e, if_pos (show size < 2147483648 by omega)]
    rw [ht]
    unfold MAX
    split
    · rename_i h
      have : size < 618784 := by omega
      have e2 : (618784 : Int).toNat = 618784 := rfl
      rw [e2]
      omega
    · rename_i h
      have : 618784 ≤ size := by omega
      rw [Int.toNat_ofNat]
      omega

/-- The header of the block after the in-place branch of `mm_realloc`. -/
theorem realloc_inplace_header (m : Mem) (ptr asize rest : Nat) (h8 : asize % 8 = 0)
    (h16 : 16 ≤ asize) (hlt : asize < U32) (hp : 4 ≤ ptr) :
    GET (PUT (PUT (PUT (PUT m (HDRP ptr) (PACK asize 1))
        (FTRP (PUT m (HDRP ptr) (PACK asize 1)) ptr) (PACK asize 1))
        (HDRP (NEXT_BLKP (PUT (PUT m (HDRP ptr) (PACK asize 1))
          (FTRP (PUT m (HDRP ptr) (PACK asize 1)) ptr) (PACK asize 1)) ptr)) (PACK rest 0))
        (FTRP (PUT (PUT (PUT m (HDRP ptr) (PACK asize 1))
          (FTRP (PUT m (HDRP ptr) (PACK asize 1)) ptr) (PACK asize 1))
          (HDRP (NEXT_BLKP (PUT (PUT m (HDRP ptr) (PACK asize 1))
            (FTRP (PUT m (HDRP ptr) (PACK asize 1)) ptr) (PACK asize 1)) ptr)) (PACK rest 0))
          (NEXT_BLKP (PUT (PUT m (HDRP ptr) (PACK asize 1))
            (FTRP (PUT m (HDRP ptr) (PACK asize 1)) ptr) (PACK asize 1)) ptr)) (PACK rest 0))
      (HDRP ptr) = asize + 1 := by
  have hH : HDRP ptr = ptr - 4 := rfl
  rw [hH]
  have e1 : GET_SIZE (PUT m (ptr - 4) (PACK asize 1)) (ptr - 4) = asize :=
    GET_SIZE_PUT_same _ _ _ _ h8 hlt (by omega)
  have x2 : FTRP (PUT m (ptr - 4) (PACK asize 1)) ptr = ptr + asize - 8 := by
    unfold FTRP HDRP WSIZE DSIZE
    rw [e1]
  rw [x2]
  have e2 : GET_SIZE (PUT (PUT m (ptr - 4) (PACK asize 1)) (ptr + asize - 8) (PACK asize 1))
      (ptr - 4) = asize := by
    rw [GET_SIZE_PUT_other _ _ _ _ (by omega)]; exact e1
  have x3 : NEXT_BLKP (PUT (PUT m (ptr - 4) (PACK asize 1)) (ptr + asize - 8) (PACK asize 1)) ptr
      = ptr + asize := by
    unfold NEXT_BLKP WSIZE
    rw [e2]
  rw [x3]
  have hH2 : HDRP (ptr + asize) = ptr + asize - 4 := rfl
  rw [hH2]
  have x4 := FTRP_ge (PUT (PUT (PUT m (ptr - 4) (PACK asize 1)) (ptr + asize - 8) (PACK asize 1))
    (ptr + asize - 4) (PACK rest 0)) (ptr + asize)
  rw [GET_PUT_other _ _ _ _ (by omega), GET_PUT_other _ _ _ _ (by omega),
    GET_PUT_other _ _ _ _ (by omega)]
  exact GET_PUT_PACK _ _ _ _ h8 hlt (by omega)

/-- The in-place branch of `mm_realloc`. -/
theorem mm_realloc_inplace (s : State) (ptr size asize : Nat) (hsize : size % U32 = size)
    (hasize : (DSIZE * (((size + DSIZE + (DSIZE - 1)) % U32) / DSIZE)) % U32 = asize)
    (h8 : asize % 8 = 0) (h16 : 16 ≤ asize) (hlt : asize < U32) (hp : 4 ≤ ptr)
    (hp1 : ¬ GET_SIZE s.mem (HDRP ptr) > asize)
    (hp2 : GET_ALLOC s.mem (HDRP (NEXT_BLKP s.mem ptr)) = 0 ∧
      (asize + U32 - GET_SIZE s.mem (HDRP ptr)) % U32 <
        GET_SIZE s.mem (HDRP (NEXT_BLKP s.mem ptr)) ∧
      (GET_SIZE s.mem (HDRP ptr) + U32 - asize) % U32 ≥ 2 * DSIZE) :
    ∃ s2, mm_realloc s ptr size = .ok (ptr, s2) ∧ GET s2.mem (HDRP ptr) = asize + 1 := by
  apply Exists.intro
  refine ⟨?_, ?_⟩
  · unfold mm_realloc
    simp only [hsize, hasize]
    rw [if_neg hp1, if_pos hp2]
  · exact realloc_inplace_header s.mem ptr asize _ h8 h16 hlt hp

/-- The allocate-copy-free branch of `mm_realloc`. -/
theorem mm_realloc_fallback (s s1 : State) (ptr size asize allocate newp : Nat)
    (hsize : size % U32 = size)
    (hasize : (DSIZE * (((size + DSIZE + (DSIZE - 1)) % U32) / DSIZE)) % U32 = asize)
    (halloc : (MAX 618784 (toInt size)).toNat = allocate)
    (hp1 : ¬ GET_SIZE s.mem (HDRP ptr) > asize)
    (hp2 : ¬ (GET_ALLOC s.mem (HDRP (NEXT_BLKP s.mem ptr)) = 0 ∧
      (asize + U32 - GET_SIZE s.mem (HDRP ptr)) % U32 <
        GET_SIZE s.mem (HDRP (NEXT_BLKP s.mem ptr)) ∧
      (GET_SIZE s.mem (HDRP ptr) + U32 - asize) % U32 ≥ 2 * DSIZE))
    (hmal : mm_malloc s allocate = .ok (newp, s1)) :
    mm_realloc s ptr size =
      if newp = 0 then .error .exit1
      else .ok (newp, mm_free
        { s1 with
          mem := memcpy s1.mem newp ptr (GET_SIZE s.mem (HDRP ptr)) } ptr) := by
  unfold mm_realloc
  simp only [hsize, hasize, halloc]
  rw [if_neg hp1, if_neg hp2]
  simp only [hmal]

theorem realloc_sizes (size sz S A : Nat) (hp1 : ¬ sz > 8 * ((size + 15) / 8))
    (b8 : A % 8 = 0) (bge : max 618784 size + 8 ≤ A) (hS : A ≤ S) :
    sz ≤ S ∧ size + 8 ≤ S := by
  omega

/-- The header of the new block after the copy and `mm_free` of the old
block. -/
theorem fallback_header (s1 : State) (bs1 : List Blk) (newp ptr S sz : Nat) (hH1 : Heap s1 bs1)
    (hInN : BlockIn (s1.heap_listp - 4) ((8, true) :: bs1) newp S true)
    (hInP : BlockIn (s1.heap_listp - 4) ((8, true) :: bs1) ptr sz true)
    (hne : ptr ≠ newp) (hIS : sz ≤ S) (hfirst : ptr ≠ s1.heap_listp) :
    GET_ALLOC (mm_free { s1 with mem := memcpy s1.mem newp ptr sz } ptr).mem (HDRP newp) = 1 ∧
      GET_SIZE (mm_free { s1 with mem := memcpy s1.mem newp ptr sz } ptr).mem (HDRP newp) = S := by
  have hhl1 := hH1.hl8
  have hfin := free_after_copy s1 (s1.heap_listp - 4) (s1.brk - 4) newp ptr S sz
    ((8, true) :: bs1) hH1.tiles hInN hInP hne hIS (by omega)
  obtain ⟨_, _, _, hSm, hSlt⟩ := BlockIn_tags _ _ _ _ _ _ _ hH1.tiles hInN
  have hHn : HDRP newp = newp - 4 := rfl
  rw [hHn]
  exact ⟨alloc_of_tag _ _ (S, true) hfin hSm, size_of_tag _ _ (S, true) hfin hSm hSlt⟩

/-- On a heap with a valid cursor, `mm_realloc` of an allocated block with a new
size between 1 and `2^20` either returns a block whose header is marked
allocated with a size of at least `size + 8`, or exits because the region
grower refused the extension asked for by `mm_malloc`. -/
theorem mm_realloc_capacity (s : State) (bs : List Blk) (ptr sz size : Nat) (hH : Heap s bs)
    (hc : CursorOK s bs) (hB : BlockAt s.heap_listp bs ptr sz true)
    (h1 : 1 ≤ size) (h2 : size ≤ 1048576) :
    (∃ q s2, mm_realloc s ptr size = .ok (q, s2) ∧ GET_ALLOC s2.mem (HDRP q) = 1 ∧
        size + 8 ≤ GET_SIZE s2.mem (HDRP q)) ∨
    (mm_realloc s ptr size = .error .exit1 ∧
      mem_sbrk s (max (adjust (max 618784 size)) 4096) = none) := by
  obtain ⟨hsize, hasize, halloc⟩ := realloc_asize size h1 h2
  have hhl := hH.hl8
  have hBI := (BlockAt_iff s.heap_listp ptr sz true bs (by omega)).1 hB
  obtain ⟨hIn, hne0⟩ := hBI
  obtain ⟨t1, _, hsz8, hszm, hszlt⟩ := BlockIn_tags _ _ _ _ _ _ _ hH.tiles hIn
  have hbnd := BlockIn_bounds _ _ _ _ _ hIn
  have hHd : HDRP ptr = ptr - 4 := rfl
  have hisz : GET_SIZE s.mem (HDRP ptr) = sz := by
    rw [hHd]; exact size_of_tag _ _ (sz, true) t1 hszm hszlt
  have hial : GET_ALLOC s.mem (HDRP ptr) = 1 := by
    rw [hHd]; exact alloc_of_tag _ _ (sz, true) t1 hszm
  have ha8 : 8 * ((size + 15) / 8) % 8 = 0 := by omega
  have ha16 : 16 ≤ 8 * ((size + 15) / 8) := by omega
  have hage : size + 8 ≤ 8 * ((size + 15) / 8) := by omega
  have halt : 8 * ((size + 15) / 8) < U32 := by unfold U32; omega
  by_cases hp1 : GET_SIZE s.mem (HDRP ptr) > 8 * ((size + 15) / 8)
  · -- the block is large enough
    left
    refine ⟨ptr, s, ?_, hial, by omega⟩
    unfold mm_realloc
    simp only [hsize, hasize]
    rw [if_pos hp1]
  · by_cases hp2 : GET_ALLOC s.mem (HDRP (NEXT_BLKP s.mem ptr)) = 0 ∧
        (8 * ((size + 15) / 8) + U32 - GET_SIZE s.mem (HDRP ptr)) % U32 <
          GET_SIZE s.mem (HDRP (NEXT_BLKP s.mem ptr)) ∧
        (GET_SIZE s.mem (HDRP ptr) + U32 - 8 * ((size + 15) / 8)) % U32 ≥ 2 * DSIZE
    · -- growth in place
      left
      obtain ⟨s2, hs2, hg⟩ := mm_realloc_inplace s ptr size _ hsize hasize ha8 ha16 halt
        (by omega) hp1 hp2
      refine ⟨ptr, s2, hs2, tag_alloc _ _ 1 hg ha8 (by omega), ?_⟩
      have hs := tag_size _ _ 1 hg ha8 halt (by omega)
      have : GET_SIZE s2.mem (HDRP ptr) = 8 * ((size + 15) / 8) := hs
      rw [this]
      exact hage
    · -- allocate, copy, free
      have hmax1 : 1 ≤ max 618784 size := by omega
      have hmax2 : max 618784 size ≤ MAXREQ := by unfold MAXREQ; omega
      obtain ⟨b16, b8, bge, blt, _⟩ := adjust_facts _ hmax1 hmax2
      obtain ⟨newp, s1, bs1, hmal, hH1, hc1, _, _, ghl, _, hcase⟩ :=
        mm_malloc_heap s bs (max 618784 size) hH hc hmax1 hmax2
      obtain ⟨newp', s1', hmal', hiff, hunch⟩ := mm_malloc_oom s bs (max 618784 size) hH hc hmax1
        hmax2
      rw [hmal] at hmal'
      simp only [Except.ok.injEq, Prod.mk.injEq] at hmal'
      obtain ⟨rfl, rfl⟩ := hmal'
      have hunf := mm_realloc_fallback s s1 ptr size _ _ newp hsize hasize halloc hp1 hp2 hmal
      by_cases hn0 : newp = 0
      · right
        rw [hunf, if_pos hn0]
        exact ⟨rfl, (hiff.1 hn0).2⟩
      · left
        rw [if_neg hn0, hisz] at hunf
        rcases hcase with ⟨h0, _⟩ | ⟨S, hBn, hS⟩
        · exact absurd h0 hn0
        obtain ⟨hInN, _⟩ := (BlockAt_iff s1.heap_listp newp S true bs1
          (Nat.le_trans (by omega) hH1.hl8)).1 hBn
        obtain ⟨hInP, hneq⟩ := mm_malloc_persist s s1 bs bs1 _ newp hH hc hmax1 hmax2 hmal hH1
          ptr sz hIn
        rw [← ghl] at hInP hne0
        have hp1' : ¬ sz > 8 * ((size + 15) / 8) := by rw [← hisz]; exact hp1
        obtain ⟨hSsz, k3⟩ := realloc_sizes size sz S _ hp1' b8 bge hS
        obtain ⟨k1, k2⟩ := fallback_header s1 bs1 newp ptr S sz hH1 hInN hInP (hneq hn0) hSsz hne0
        rw [← k2] at k3
        exact ⟨newp, _, hunf, k1, k3⟩

/-! ## Claim C6 -/

/-- C6: on every well-formed heap with a valid search cursor, for every
currently allocated block `ptr` and every new size with `1 ≤ size ≤ 2^20`,
`mm_realloc(ptr, size)` either returns a pointer `q` whose header is marked
allocated and whose header size minus 8 is at least `size`, or it exits, which
happens only when the region grower refuses the extension requested by
`mm_malloc`; so if the region grower does not fail, the block returned has a
usable payload of at least `size` bytes. -/
theorem C6_realloc_capacity (s : State) (ptr size : Nat) (hw : WFC s) (hA : Allocated s ptr)
    (h1 : 1 ≤ size) (h2 : size ≤ 1048576) :
    (∃ q s2, mm_realloc s ptr size = .ok (q, s2) ∧ GET_ALLOC s2.mem (HDRP q) = 1 ∧
        size ≤ GET_SIZE s2.mem (HDRP q) - 8) ∨
    (mm_realloc s ptr size = .error .exit1 ∧
      mem_sbrk s (max (adjust (max 618784 size)) 4096) = none) := by
  obtain ⟨bs, hH, _, hc⟩ := hw
  obtain ⟨bs', sz, hH', hB⟩ := hA
  have e := Heap_unique s bs bs' hH hH'
  subst e
  rcases mm_realloc_capacity s bs ptr sz size hH hc hB h1 h2 with ⟨q, s2, k1, k2, k3⟩ | h
  · exact Or.inl ⟨q, s2, k1, k2, by omega⟩
  · exact Or.inr h

/-- Witness of C6 on the state after two allocations and one free, for the
block at 16 and a new size of 24 bytes. -/
theorem C6_realloc_capacity_witness :
    WFC runA3 ∧ Allocated runA3 16 ∧ 1 ≤ 24 ∧ 24 ≤ 1048576 ∧
    ((∃ q s2, mm_realloc runA3 16 24 = .ok (q, s2) ∧ GET_ALLOC s2.mem (HDRP q) = 1 ∧
        24 ≤ GET_SIZE s2.mem (HDRP q) - 8) ∨
    (mm_realloc runA3 16 24 = .error .exit1 ∧
      mem_sbrk runA3 (max (adjust (max 618784 24)) 4096) = none)) :=
  ⟨Inv_WFC _ (reach_inv _ runA3_reach), runA3_alloc, by omega, by omega,
    C6_realloc_capacity runA3 16 24 (Inv_WFC _ (reach_inv _ runA3_reach)) runA3_alloc (by omega)
      (by omega)⟩

/-! ## Requests whose adjusted size wraps -/

/-- C3, evaluated on the code: the fresh heap `demo0` is well formed with a
valid search cursor; the adjusted size of the request `n = 2^32 - 1` is 8 (the
sum `n + 15` wraps in 32 bits); `mm_malloc(2^32 - 1)` returns the non-NULL
pointer 16; the block at 16 is marked allocated and its header size is 8, so
its usable payload is 0 bytes, fewer than the `2^32 - 1` requested.  On the
same heap `mm_malloc(2^31)` returns 16 with header size `2^31 + 8` although
the heap ends at 8208: the `2^31` bytes the header promises are not in the
heap. -/
theorem C3_insufficient_payload :
    WFC demo0 ∧ adjust 4294967295 = 8 ∧
      mm_malloc demo0 4294967295 = .ok (16, runD1) ∧ (16 : Nat) ≠ 0 ∧
      GET_ALLOC runD1.mem (HDRP 16) = 1 ∧ GET_SIZE runD1.mem (HDRP 16) = 8 ∧
      GET_SIZE runD1.mem (HDRP 16) - 8 < 4294967295 ∧
      mm_malloc demo0 2147483648 = .ok (16, runG1) ∧
      GET_SIZE runG1.mem (HDRP 16) = 2147483656 ∧ runG1.brk = 8208 ∧
      runG1.brk < 16 + 2147483648 := by
  refine ⟨Inv_WFC _ (reach_inv _ demo0_reach), by decide, runD1_eq, by omega,
    runD1_header.1, runD1_header.2, ?_, runG1_eq, runG1_header.1, runG1_header.2, ?_⟩
  · rw [runD1_header.2]; omega
  · rw [runG1_header.2]; omega

/-- C5, evaluated on the code: after `mm_init`, `q = mm_malloc(2^32 - 8)`
(`q = 16`), `a = mm_malloc(8)` (`a = 16`), `b = mm_malloc(8)` (`b = 32`) and
`mm_free(a)`, where the block at 16 is marked allocated when it is freed, the
walk by header sizes from the prologue at 8 meets the block at 16, free with
size 32, then the block at 48, free with size 4064, then the epilogue header
(0, allocated) in the last word of the heap: two blocks adjacent in address
order are both free. -/
theorem C5_adjacent_free_run :
    Live 0 runK4 [32, 16] ∧
      mm_malloc demo0 4294967288 = .ok (16, runK1) ∧
      mm_malloc runK1 8 = .ok (16, runK2) ∧
      mm_malloc runK2 8 = .ok (32, runK3) ∧
      GET_ALLOC runK3.mem (HDRP 16) = 1 ∧ runK4 = mm_free runK3 16 ∧
      runK4.heap_listp = 8 ∧ NEXT_BLKP runK4.mem 8 = 16 ∧
      GET_SIZE runK4.mem (HDRP 16) = 32 ∧ GET_ALLOC runK4.mem (HDRP 16) = 0 ∧
      NEXT_BLKP runK4.mem 16 = 48 ∧
      GET_SIZE runK4.mem (HDRP 48) = 4064 ∧ GET_ALLOC runK4.mem (HDRP 48) = 0 ∧
      NEXT_BLKP runK4.mem 48 = runK4.brk ∧ GET runK4.mem (HDRP runK4.brk) = 1 :=
  ⟨runK4_live, runK1_eq, runK2_eq, runK3_eq, runK3_header.1, rfl, runK4_first.1,
    runK4_first.2.1, runK4_first.2.2.1, runK4_first.2.2.2.1, runK4_first.2.2.2.2, runK4_second⟩

/-- C13, evaluated on the code: the state `big7` is reached from a successful
`mm_init` by `mm_malloc` and `mm_free` calls on live pointers (the last two
are `p = mm_malloc(2^32 - 8)` and `mm_free(p)`); the request `n = 8` has
adjusted size 16, at most 4096; `mm_malloc(8)` returns the non-NULL pointer
2147487760; after `mm_free(2147487760)` the second `mm_malloc(8)` asks the
region grower for 4096 bytes and moves the heap end by 4096. -/
theorem C13_grower_called_run :
    Live 0 big7 [16] ∧ 1 ≤ 8 ∧ adjust 8 = 16 ∧ adjust 8 ≤ 4096 ∧
      mm_malloc big7 8 = .ok (2147487760, big8) ∧ (2147487760 : Nat) ≠ 0 ∧
      big9 = mm_free big8 2147487760 ∧
      mm_malloc big9 8 = .ok (2147483664, big10) ∧
      mm_malloc_requests big9 8 = [4096] ∧ big10.brk = big9.brk + 4096 :=
  ⟨big7_live, by omega, by decide, by decide, big8_eq, by omega, rfl, big10_eq, big9_requests,
    big10_brk⟩

end Malloclab
